import Mathlib

/-!
Verification development for the SimpleYAML parser of the
memory-layout-diagram repository (src/memory_layout/simpleyaml.py).

The Python source is shallowly embedded as executable Lean definitions:

* Python values produced by the parser become the inductive type `Value`
  (dicts are insertion-ordered association lists, matching Python dict
  semantics for string keys).
* Python floats are modelled as exact decimal rationals (`PyFloat`):
  the decision points exercised by the source (version comparisons
  against the literals 2 and 1.2, base-60 arithmetic) agree with IEEE
  doubles on all inputs appearing in this development.
* Python exceptions become the `PyErr` sum type; fallible code returns
  `Except`.
* The regular expressions of the source are translated into explicit
  backtracking matchers with the same greedy/lazy semantics.  All inputs
  handled by the parser are single lines (no newline characters), so the
  Python distinction between `$` at end-of-string versus before a final
  newline, and the fact that `.` does not match a newline, never arises
  and both are modelled as plain end-of-string / any-character.
* The mutable container stack of `SimpleYAML.load` (aliases into the
  tree under construction) is embedded as a zipper: `current_level`
  becomes a list of `Option Frame` (the bottom `None` placed by the
  constructor is `none`), and re-attaching a finished child happens when
  a frame is popped or when the final root is reconstructed.
-/

namespace SimpleYAML

/-- Python whitespace for str.strip / str.isspace (ASCII subset; the
source only ever strips ASCII text). -/
def isPySpace (c : Char) : Bool :=
  c = ' ' || c = '\t' || c = '\n' || c = '\r' || c = '\x0b' || c = '\x0c'

/-- ASCII decimal digit. -/
def isDigitChar (c : Char) : Bool :=
  decide ('0' ≤ c) && decide (c ≤ '9')

/-- ASCII alphanumeric, the class [a-zA-Z0-9] of directive_re. -/
def isAlnumChar (c : Char) : Bool :=
  isDigitChar c || (decide ('a' ≤ c) && decide (c ≤ 'z'))
    || (decide ('A' ≤ c) && decide (c ≤ 'Z'))

/-- Python str.lstrip() on a character list. -/
def lstripL (cs : List Char) : List Char := cs.dropWhile isPySpace

/-- Python str.rstrip() on a character list. -/
def rstripL (cs : List Char) : List Char := (cs.reverse.dropWhile isPySpace).reverse

/-- Python str.strip() on a character list. -/
def stripL (cs : List Char) : List Char := rstripL (lstripL cs)

/-- Python str.split(sep) for a single separator character. -/
def splitOn (sep : Char) : List Char → List (List Char)
  | [] => [[]]
  | c :: rest =>
    let r := splitOn sep rest
    if c = sep then [] :: r
    else
      match r with
      | p :: ps => (c :: p) :: ps
      | [] => [[c]]

/-- The apostrophe character (spelled via its code point). -/
def quoteChar : Char := Char.ofNat 39

/-- The apostrophe as a one-character string, for diagnostic text. -/
def quoteS : String := String.mk [Char.ofNat 39]

/-- Value of one digit character in the given base (as Python int()
accepts: 0-9 then letters of either case), or none. -/
def digitVal? (base : Nat) (c : Char) : Option Nat :=
  let v : Nat :=
    if isDigitChar c then c.toNat - 48
    else if decide ('a' ≤ c) && decide (c ≤ 'z') then c.toNat - 97 + 10
    else if decide ('A' ≤ c) && decide (c ≤ 'Z') then c.toNat - 65 + 10
    else 99
  if v < base then some v else none

/-- Scanner for a digit run with single underscores allowed between
digits (Python int()/float() literal rule): after the first character,
an underscore must be followed by a digit. -/
def scanUD (base : Nat) : List Char → Nat → Option Nat
  | [], acc => some acc
  | c :: rest, acc =>
    if c = '_' then
      match rest with
      | [] => none
      | c2 :: rest2 =>
        match digitVal? base c2 with
        | some d => scanUD base rest2 (acc * base + d)
        | none => none
    else
      match digitVal? base c with
      | some d => scanUD base rest (acc * base + d)
      | none => none

/-- Nonempty digit run, underscores allowed between digits, must both
start and end with a digit. -/
def parseDigitsU (base : Nat) (cs : List Char) : Option Nat :=
  match cs with
  | [] => none
  | c :: rest =>
    if c = '_' then none
    else
      match digitVal? base c with
      | some d => scanUD base rest d
      | none => none

/-- Digit run after a base prefix, where Python additionally allows one
leading underscore (as in 0x_5). -/
def parseAfterPrefixDigits (base : Nat) (cs : List Char) : Option Nat :=
  match cs with
  | c :: rest =>
    if c = '_' then parseDigitsU base rest else parseDigitsU base cs
  | [] => parseDigitsU base cs

/-- Split one leading sign character, as Python int()/float() do,
keeping the sign as a factor. -/
def signSplit (cs : List Char) : Int × List Char :=
  match cs with
  | c :: rest =>
    if c = '-' then (-1, rest)
    else if c = '+' then (1, rest)
    else (1, cs)
  | [] => (1, cs)

/-- Optional base prefix (0x / 0o / 0b, either case) for the given
base, then the digit run. -/
def parsePrefixed (base : Nat) (cs : List Char) : Option Nat :=
  match cs with
  | c0 :: c1 :: rest =>
    if c0 = '0' ∧
        ((base = 16 ∧ (c1 = 'x' ∨ c1 = 'X')) ∨
         (base = 8 ∧ (c1 = 'o' ∨ c1 = 'O')) ∨
         (base = 2 ∧ (c1 = 'b' ∨ c1 = 'B'))) then
      parseAfterPrefixDigits base rest
    else parseDigitsU base cs
  | _ => parseDigitsU base cs

/-- Model of Python int(s, base) for bases 2, 8, 10, 16: strips
whitespace, one optional sign, an optional matching base prefix, then
underscore-separated digits. -/
def pyIntBase (base : Nat) (s : List Char) : Option Int :=
  let cs := stripL s
  let sr := signSplit cs
  (parsePrefixed base sr.2).map (fun n => sr.1 * Int.ofNat n)

/-- Fuel-based Euclidean gcd; unlike Nat.gcd this definition reduces
inside the kernel, which keeps the whole development decidable by
evaluation. -/
def gcdF : Nat → Nat → Nat → Nat
  | 0, _, n => n
  | f + 1, m, n => if m = 0 then n else gcdF f (n % m) m

/-- Greatest common divisor (the fuel m + 1 always suffices). -/
def natGcd (m n : Nat) : Nat := gcdF (m + 1) m n

/-- Exact rationals with executable, kernel-reducible arithmetic, used
to idealize Python floats (see module comment). -/
structure PyRat where
  num : Int
  den : Nat
deriving Repr, DecidableEq

/-- Normalized rational from an integer numerator and a natural
denominator (the denominator is never zero in this development). -/
def PyRat.mk2 (n : Int) (d : Nat) : PyRat :=
  let g := natGcd n.natAbs d
  if g = 0 then ⟨0, 0⟩ else ⟨n / (g : Int), d / g⟩

/-- Embedding of an integer. -/
def PyRat.ofInt (n : Int) : PyRat := ⟨n, 1⟩

/-- Rational addition. -/
def PyRat.add (a b : PyRat) : PyRat :=
  PyRat.mk2 (a.num * (b.den : Int) + b.num * (a.den : Int)) (a.den * b.den)

/-- Rational multiplication. -/
def PyRat.mul (a b : PyRat) : PyRat := PyRat.mk2 (a.num * b.num) (a.den * b.den)

/-- Rational negation. -/
def PyRat.neg (a : PyRat) : PyRat := ⟨-a.num, a.den⟩

/-- Rational from a signed numerator and a signed denominator. -/
def PyRat.mkQ (n d : Int) : PyRat :=
  if d < 0 then PyRat.mk2 (-n) (-d).toNat else PyRat.mk2 n d.toNat

/-- Rational division. -/
def PyRat.div (a b : PyRat) : PyRat :=
  PyRat.mkQ (a.num * (b.den : Int)) ((a.den : Int) * b.num)

/-- Comparison by cross multiplication (denominators nonnegative). -/
def PyRat.le (a b : PyRat) : Bool :=
  decide (a.num * (b.den : Int) ≤ b.num * (a.den : Int))

/-- Power of ten as a rational. -/
def pow10 (k : Nat) : PyRat := ⟨(10 : Int) ^ k, 1⟩

/-- Python float values as produced by this parser, idealized: finite
floats are exact rationals (see module comment). -/
inductive PyFloat where
  | finite (q : PyRat)
  | inf
  | ninf
  | nan
deriving Repr, DecidableEq

/-- Comparison `f >= q` against a rational literal, with Python float
semantics (nan compares false). -/
def PyFloat.geQ (f : PyFloat) (q : PyRat) : Bool :=
  match f with
  | .finite x => q.le x
  | .inf => true
  | .ninf => false
  | .nan => false

/-- Case-insensitive ASCII lowering of a character list. -/
def lowerL (cs : List Char) : List Char :=
  cs.map (fun c => if decide ('A' ≤ c) && decide (c ≤ 'Z') then Char.ofNat (c.toNat + 32) else c)

/-- Digits (with underscores) of a fractional part: returns the value
and the number of actual digits; the empty list is allowed (value 0,
zero digits), matching Python float("5."). -/
def parseFracU (cs : List Char) : Option (Nat × Nat) :=
  match cs with
  | [] => some (0, 0)
  | _ =>
    match parseDigitsU 10 cs with
    | some v => some (v, (cs.filter (fun c => c ≠ '_')).length)
    | none => none

/-- Mantissa of a decimal float literal: [digits] [. [digits]] with at
least one digit overall; returns the exact rational value. -/
def parseMantissa (cs : List Char) : Option PyRat :=
  let intPart := cs.takeWhile (fun c => c ≠ '.')
  let rest := cs.dropWhile (fun c => c ≠ '.')
  match rest with
  | [] =>
    -- no dot: plain integer run
    (parseDigitsU 10 cs).map (fun n => PyRat.ofInt (n : Int))
  | _ :: fracCs =>
    -- a dot is present
    let iv : Option Nat :=
      match intPart with
      | [] => some 0
      | _ => parseDigitsU 10 intPart
    match iv, parseFracU fracCs with
    | some i, some (fv, fd) =>
      if intPart = [] ∧ fd = 0 then none  -- "." alone: no digits at all
      else some (PyRat.mk2 ((i : Int) * (10 : Int) ^ fd + (fv : Int)) ((10 : Nat) ^ fd))
    | _, _ => none

/-- Model of Python float(s): strips whitespace, one optional sign,
then inf/infinity/nan (case-insensitive) or a decimal literal with an
optional exponent. -/
def pyFloatParse (s : List Char) : Option PyFloat :=
  let cs := stripL s
  let signAndRest : Bool × List Char :=
    match cs with
    | '-' :: rest => (true, rest)
    | '+' :: rest => (false, rest)
    | _ => (false, cs)
  let neg := signAndRest.1
  let cs := signAndRest.2
  let low := lowerL cs
  if low = "inf".toList ∨ low = "infinity".toList then
    some (if neg then .ninf else .inf)
  else if low = "nan".toList then
    some .nan
  else
    let mant := cs.takeWhile (fun c => c ≠ 'e' ∧ c ≠ 'E')
    let expPart := cs.dropWhile (fun c => c ≠ 'e' ∧ c ≠ 'E')
    match expPart with
    | [] =>
      (parseMantissa mant).map (fun q => .finite (if neg then q.neg else q))
    | _ :: ecs =>
      let expVal : Option Int :=
        match ecs with
        | '-' :: ds => (parseDigitsU 10 ds).map (fun n => -(n : Int))
        | '+' :: ds => (parseDigitsU 10 ds).map (fun n => (n : Int))
        | ds => (parseDigitsU 10 ds).map (fun n => (n : Int))
      match parseMantissa mant, expVal with
      | some q, some e =>
        let scaled : PyRat :=
          if 0 ≤ e then q.mul (pow10 e.toNat) else q.div (pow10 (-e).toNat)
        some (.finite (if neg then scaled.neg else scaled))
      | _, _ => none

/-- Parsed YAML values (Python objects produced by the parser).  A
Python dict is an insertion-ordered association list. -/
inductive Value where
  | null
  | bool (b : Bool)
  | int (n : Int)
  | float (f : PyFloat)
  | str (s : String)
  | seq (xs : List Value)
  | map (xs : List (String × Value))
deriving Repr

/-- Python exceptions that the embedded code can raise. -/
inductive PyErr where
  | indexError (msg : String)
  | typeError (msg : String)
  | valueError (msg : String)
  | attributeError (msg : String)
  | keyError (msg : String)
deriving Repr, DecidableEq

/-- Exception class name, as used by the load wrapper message. -/
def PyErr.clsName : PyErr → String
  | .indexError _ => "IndexError"
  | .typeError _ => "TypeError"
  | .valueError _ => "ValueError"
  | .attributeError _ => "AttributeError"
  | .keyError _ => "KeyError"

/-- Exception text, as used by the load wrapper message. -/
def PyErr.text : PyErr → String
  | .indexError m => m
  | .typeError m => m
  | .valueError m => m
  | .attributeError m => m
  | .keyError m => m

/-- Trailing part accepted after the closing quote of a quoted value:
the optional group (\s*#.*)? followed by end of line. -/
def optTrailComment (cs : List Char) : Bool :=
  match cs with
  | [] => true
  | _ =>
    match cs.dropWhile isPySpace with
    | '#' :: _ => true
    | _ => false

/-- Longest split cs = g ++ q :: t with optTrailComment t, mirroring
the greedy (.*) of value_sqstr_re / value_dqstr_re.  Returns (g, t). -/
def splitAtLastQuote (q : Char) : List Char → Option (List Char × List Char)
  | [] => none
  | c :: rest =>
    match splitAtLastQuote q rest with
    | some (g, t) => some (c :: g, t)
    | none =>
      if c = q ∧ optTrailComment rest then some ([], rest) else none

/-- Match of value_sqstr_re / value_dqstr_re against a whole line:
first character must be the quote, then the greedy body, the closing
quote, and an optional trailing comment.  Returns group 1. -/
def matchQuotedValue (q : Char) (cs : List Char) : Option (List Char) :=
  match cs with
  | c :: rest => if c = q then (splitAtLastQuote q rest).map Prod.fst else none
  | [] => none

/-- Python value.replace(&#39;&#39;, &#39;) for the single-quoted branch:
left-to-right non-overlapping replacement of a doubled quote. -/
def replaceDoubledQuote : List Char → List Char
  | c1 :: c2 :: rest =>
    if c1 = quoteChar ∧ c2 = quoteChar then quoteChar :: replaceDoubledQuote rest
    else c1 :: replaceDoubledQuote (c2 :: rest)
  | cs => cs

/-- Python re.split of the escape_split_re pattern (a backslash not
followed by another backslash): scans left to right, removing each
matched backslash and splitting there. -/
def escSplit : List Char → List (List Char)
  | [] => [[]]
  | c :: rest =>
    if c = '\\' ∧ rest.head? ≠ some '\\' then
      [] :: escSplit rest
    else
      match escSplit rest with
      | p :: ps => (c :: p) :: ps
      | [] => [[c]]

/-- The escapes table of SimpleYAML (note: the source maps e to
U+001E, not the ESC character U+001B of the YAML specification). -/
def escapesMap (c : Char) : Option Char :=
  if c = '0' then some '\x00'
  else if c = 'a' then some '\x07'
  else if c = 'b' then some '\x08'
  else if c = 't' ∨ c = '\t' then some '\t'
  else if c = 'n' then some '\n'
  else if c = 'N' then some '\x85'
  else if c = 'v' then some '\x0b'
  else if c = 'f' then some '\x0c'
  else if c = 'r' then some '\x0d'
  else if c = 'e' then some '\x1e'
  else if c = ' ' then some ' '
  else if c = '_' then some '\xa0'
  else if c = 'L' then some '\u2028'
  else if c = 'P' then some '\u2029'
  else none

/-- Python chr(n), raising ValueError outside the Unicode range.
Surrogate code points (allowed by Python chr, not representable as a
Lean Char) do not occur in this development. -/
def pyChr (n : Int) : Except PyErr Char :=
  if 0 ≤ n ∧ n < 1114112 then .ok (Char.ofNat n.toNat)
  else .error (.valueError "chr() arg not in range(0x110000)")

/-- Processing of one escape part (the text after one splitting
backslash) per the double-quoted branch of decode_value. -/
def procEscPart (p : List Char) : Except PyErr (List Char) :=
  match p with
  | [] => .error (.indexError "string index out of range")
  | c :: rest =>
    match escapesMap c with
    | some e => .ok (e :: rest)
    | none =>
      if c = 'x' then
        match pyIntBase 16 (rest.take 2) with
        | some n =>
          match pyChr n with
          | .error e => .error e
          | .ok ch => .ok (ch :: rest.drop 2)
        | none => .error (.valueError "invalid literal for int() with base 16")
      else if c = 'u' then
        match pyIntBase 16 (rest.take 4) with
        | some n =>
          match pyChr n with
          | .error e => .error e
          | .ok ch => .ok (ch :: rest.drop 4)
        | none => .error (.valueError "invalid literal for int() with base 16")
      else if c = 'U' then
        match pyIntBase 16 (rest.take 8) with
        | some n =>
          match pyChr n with
          | .error e => .error e
          | .ok ch => .ok (ch :: rest.drop 8)
        | none => .error (.valueError "invalid literal for int() with base 16")
      else
        .ok (c :: rest)

/-- Sequential escape processing of the split parts, concatenating the
results (the first exception aborts, as in Python). -/
def procParts : List (List Char) → Except PyErr (List Char)
  | [] => .ok []
  | p :: rest =>
    match procEscPart p with
    | .error e => .error e
    | .ok q =>
      match procParts rest with
      | .error e => .error e
      | .ok qs => .ok (q ++ qs)

/-- Expansion of the escapes of a double-quoted value body. -/
def dqUnescape (body : List Char) : Except PyErr (List Char) :=
  match escSplit body with
  | [] => .ok []
  | p0 :: parts =>
    match procParts parts with
    | .error e => .error e
    | .ok tail => .ok (p0 ++ tail)

/-- Index of the first occurrence of &quot; #&quot; in a character
list, if any (Python &#39; #&#39; in s / s.index). -/
def findSpaceHash : List Char → Option Nat
  | [] => none
  | c :: rest =>
    if c = ' ' ∧ rest.head? = some '#' then some 0
    else (findSpaceHash rest).map (· + 1)

/-- Comment stripping of decode_value: if a space-hash occurs, keep the
prefix before it and rstrip. -/
def stripValueComment (cs : List Char) : List Char :=
  match findSpaceHash cs with
  | some i => rstripL (cs.take i)
  | none => cs

/-- Python s.isdigit() (ASCII): nonempty and all digit characters. -/
def pyIsDigit (cs : List Char) : Bool :=
  decide (cs ≠ []) && cs.all isDigitChar

/-- Python s.isdigit() or (s[0] in (-, +) and s[1:].isdigit()): the
integer guard of decode_value; indexing s[0] raises on an empty
string. -/
def signedDigitCheck (cs : List Char) : Except PyErr Bool :=
  if pyIsDigit cs then .ok true
  else
    match cs with
    | [] => .error (.indexError "string index out of range")
    | c :: rest => .ok (decide (c = '-' ∨ c = '+') && pyIsDigit rest)

/-- The is_hex static method: int(s, 16) succeeds. -/
def is_hex (s : List Char) : Bool := (pyIntBase 16 s).isSome

/-- The is_bin static method: int(s, 2) succeeds. -/
def is_bin (s : List Char) : Bool := (pyIntBase 2 s).isSome

/-- The is_oct static method: int(s, 8) succeeds. -/
def is_oct (s : List Char) : Bool := (pyIntBase 8 s).isSome

/-- Python int-or-float accumulator of the base-60 loop. -/
inductive PyNum where
  | pint (n : Int)
  | pfloat (q : PyRat)
deriving Repr, DecidableEq

/-- value * 60, preserving int/float as Python does. -/
def pynumMul60 : PyNum → PyNum
  | .pint n => .pint (n * 60)
  | .pfloat q => .pfloat (q.mul (PyRat.ofInt 60))

/-- value + part with Python numeric promotion. -/
def pynumAdd : PyNum → PyNum → PyNum
  | .pint a, .pint b => .pint (a + b)
  | .pint a, .pfloat b => .pfloat ((PyRat.ofInt a).add b)
  | .pfloat a, .pint b => .pfloat (a.add (PyRat.ofInt b))
  | .pfloat a, .pfloat b => .pfloat (a.add b)

/-- Python unary minus on the accumulator. -/
def pynumNeg : PyNum → PyNum
  | .pint n => .pint (-n)
  | .pfloat q => .pfloat q.neg

/-- Conversion of the accumulator to a parsed Value. -/
def pynumToValue : PyNum → Value
  | .pint n => .int n
  | .pfloat q => .float (.finite q)

/-- Colon-group scanner of value_base60_re (structural recursion via a
mode flag).  In mode false the scanner stands after a completed colon
group: the end, another colon group, or the optional fractional tail
may follow.  In mode true it reads one group [0-5]?[0-9], with the
backtracking alternatives of the regex engine. -/
def b60scan : Bool → List Char → Bool
  | false, [] => true
  | false, c :: rest =>
    if c = ':' then b60scan true rest
    else if c = '.' then rest.all (fun x => isDigitChar x || x = '_')
    else false
  | true, [] => false
  | true, c1 :: rest =>
    isDigitChar c1 &&
      ((match rest with
        | c2 :: rest2 =>
          decide ('0' ≤ c1) && decide (c1 ≤ '5') && isDigitChar c2 && b60scan false rest2
        | [] => false)
       || b60scan false rest)

/-- State after a completed colon group of value_base60_re. -/
def b60rest (cs : List Char) : Bool := b60scan false cs

/-- One colon group [0-5]?[0-9] of value_base60_re. -/
def b60group (cs : List Char) : Bool := b60scan true cs

/-- First digit run [0-9][0-9_]* of value_base60_re followed by the
mandatory colon groups (the leading digit has been consumed). -/
def b60firstRun : List Char → Bool
  | [] => false
  | c :: rest =>
    if c = ':' then b60group rest
    else (isDigitChar c || c = '_') && b60firstRun rest

/-- Full match of value_base60_re. -/
def matchBase60 (cs : List Char) : Bool :=
  let cs1 := (signSplit cs).2
  match cs1 with
  | c :: rest => isDigitChar c && b60firstRun rest
  | [] => false

/-- Match of value_float_re:
[-+]?([0-9][0-9_]*[.][0-9]*|[.][0-9]+)([eE][-+][0-9]+)?$ .
Note the exponent sign is mandatory in the source pattern. -/
def matchFloatRe (cs : List Char) : Bool :=
  let cs1 :=
    match cs with
    | '-' :: rest => rest
    | '+' :: rest => rest
    | _ => cs
  -- mantissa alternatives
  let afterMant : Option (List Char) :=
    match cs1 with
    | '.' :: rest =>
      -- [.][0-9]+
      let ds := rest.takeWhile isDigitChar
      if ds = [] then none else some (rest.dropWhile isDigitChar)
    | c :: rest =>
      if isDigitChar c then
        let run := rest.dropWhile (fun d => isDigitChar d || d = '_')
        match run with
        | '.' :: rest2 => some (rest2.dropWhile isDigitChar)
        | _ => none
      else none
    | [] => none
  match afterMant with
  | none => false
  | some [] => true
  | some (e :: rest) =>
    decide (e = 'e' ∨ e = 'E') &&
      (match rest with
       | s :: ds =>
         decide (s = '-' ∨ s = '+') && decide (ds ≠ []) && ds.all isDigitChar
       | [] => false)

/-- Match of value_inf_re: [-+]?[.](inf|Inf|INF)$ . -/
def matchInfRe (cs : List Char) : Bool :=
  let cs1 :=
    match cs with
    | '-' :: rest => rest
    | '+' :: rest => rest
    | _ => cs
  decide (cs1 = '.' :: "inf".toList ∨ cs1 = '.' :: "Inf".toList ∨ cs1 = '.' :: "INF".toList)

/-- Match of value_nan_re: [.](nan|NaN|NAN)$ . -/
def matchNanRe (cs : List Char) : Bool :=
  decide (cs = '.' :: "nan".toList ∨ cs = '.' :: "NaN".toList ∨ cs = '.' :: "NAN".toList)

/-- One colon-separated part of a base-60 token: float(part) when it
contains a dot, int(part) otherwise. -/
def b60part (p : List Char) : Except PyErr PyNum :=
  if p.contains '.' then
    match pyFloatParse p with
    | some (.finite q) => .ok (.pfloat q)
    | _ => .error (.valueError "could not convert string to float")
  else
    match pyIntBase 10 p with
    | some n => .ok (.pint n)
    | none => .error (.valueError "invalid literal for int() with base 10")

/-- The accumulation loop of the base-60 branch:
value = value * 60; value += part. -/
def base60Fold : PyNum → List (List Char) → Except PyErr PyNum
  | acc, [] => .ok acc
  | acc, p :: rest =>
    match b60part p with
    | .error e => .error e
    | .ok pv => base60Fold (pynumAdd (pynumMul60 acc) pv) rest

/-- Evaluation of a matched base-60 token, mirroring the source loop. -/
def base60Eval (cs : List Char) : Except PyErr Value :=
  let cs := cs.filter (fun c => c ≠ '_')
  let sr := signSplit cs
  let parts := splitOn ':' sr.2
  match base60Fold (PyNum.pint 0) parts with
  | .error e => .error e
  | .ok v => .ok (pynumToValue (if sr.1 = -1 then pynumNeg v else v))

/-- The decode_value method of SimpleYAML, translated branch by branch
from the source. -/
def decode_value (s : String) : Except PyErr Value :=
  let cs := s.toList
  match matchQuotedValue quoteChar cs with
  | some g => .ok (.str ⟨replaceDoubledQuote g⟩)
  | none =>
  match matchQuotedValue '"' cs with
  | some g => (dqUnescape g).map (fun l => .str ⟨l⟩)
  | none =>
  let cs := stripValueComment cs
  if cs = "true".toList then .ok (.bool true)
  else if cs = "false".toList then .ok (.bool false)
  else if cs = "~".toList ∨ cs = "null".toList ∨ cs = "Null".toList ∨ cs = "NULL".toList then
    .ok .null
  else
  -- integer types with a leading zero; s[0] and s[1] are Python
  -- indexing and raise IndexError when out of range
  match (match cs with
         | [] => Except.error (PyErr.indexError "string index out of range")
         | c0 :: rest0 =>
           if c0 = '0' then
             match rest0 with
             | [] => Except.error (PyErr.indexError "string index out of range")
             | c1 :: _ =>
               let snum := cs.filter (fun c => c ≠ '_')
               if c1 = 'x' ∧ is_hex (snum.drop 2) then
                 Except.ok (some (Value.int ((pyIntBase 16 (snum.drop 2)).getD 0)))
               else if c1 = 'b' ∧ is_bin (snum.drop 2) then
                 Except.ok (some (Value.int ((pyIntBase 2 (snum.drop 2)).getD 0)))
               else if is_oct (snum.drop 1) then
                 Except.ok (some (Value.int ((pyIntBase 8 (snum.drop 1)).getD 0)))
               else Except.ok none
           else Except.ok none : Except PyErr (Option Value)) with
  | .error e => .error e
  | .ok (some v) => .ok v
  | .ok none =>
  match signedDigitCheck cs with
  | .error e => .error e
  | .ok true =>
    match pyIntBase 10 cs with
    | some n => .ok (.int n)
    | none => .error (.valueError "invalid literal for int() with base 10")
  | .ok false =>
  let snum := cs.filter (fun c => c ≠ '_')
  match (if cs.contains '_' then signedDigitCheck snum else .ok false) with
  | .error e => .error e
  | .ok true =>
    match pyIntBase 10 snum with
    | some n => .ok (.int n)
    | none => .error (.valueError "invalid literal for int() with base 10")
  | .ok false =>
  if matchBase60 cs then
    base60Eval cs
  else
  if matchFloatRe cs then
    match pyFloatParse (cs.filter (fun c => c ≠ '_')) with
    | some f => .ok (.float f)
    | none => .error (.valueError "could not convert string to float")
  else
  if matchInfRe cs then
    match cs with
    | '-' :: _ => .ok (.float .ninf)
    | _ => .ok (.float .inf)
  else
  if matchNanRe cs then
    .ok (.float .nan)
  else
    .ok (.str ⟨cs⟩)

/-- Character class [^,[\]{}:#\t] used inside the bare-key loop of
key_value_re. -/
def aClass (c : Char) : Bool :=
  decide (c ≠ ',' ∧ c ≠ '[' ∧ c ≠ ']' ∧ c ≠ '{' ∧ c ≠ '}' ∧ c ≠ ':' ∧ c ≠ '#' ∧ c ≠ '\t')

/-- First-character class of key_value_re: every YAML indicator
character and whitespace is excluded. -/
def firstClass (c : Char) : Bool :=
  decide (c ≠ '-' ∧ c ≠ '?' ∧ c ≠ ':' ∧ c ≠ ',' ∧ c ≠ '.' ∧ c ≠ '[' ∧ c ≠ ']' ∧
          c ≠ '{' ∧ c ≠ '}' ∧ c ≠ '#' ∧ c ≠ '&' ∧ c ≠ '*' ∧ c ≠ '!' ∧ c ≠ '|' ∧
          c ≠ '>' ∧ c ≠ quoteChar ∧ c ≠ '"' ∧ c ≠ '%' ∧ c ≠ '@' ∧ c ≠ Char.ofNat 96) &&
    !(isPySpace c)

/-- The tail of key_value_re after the lazy key group:
(?!&lt; ) *:(?: +(.*))?$ .  Returns none on failure, and on success the
optional raw value group. -/
def keyTail (cs : List Char) : Option (Option (List Char)) :=
  if cs.head? = some '<' ∧ (cs.drop 1).head? = some ' ' then none
  else
    match cs.dropWhile (fun c => c = ' ') with
    | [] => none
    | c :: rest =>
      if c = ':' then
        match rest with
        | [] => some none
        | c2 :: _ =>
          if c2 = ' ' then some (some (rest.dropWhile (fun x => x = ' '))) else none
      else none

/-- Backtracking loop of key_value_re after the first key character:
lazily match (?:[^,[\]{}:#\t]|[^,[\]{}:#\t]#|:[^,[\]{}:#\t])*? then the
key tail.  Alternatives are explored in the order of the source
pattern; laziness means the tail is tried before consuming a unit. -/
def bareKeyLoop : List Char → Option (List Char × Option (List Char))
  | [] =>
    match keyTail [] with
    | some v => some ([], v)
    | none => none
  | c :: rest =>
    match keyTail (c :: rest) with
    | some v => some ([], v)
    | none =>
      match (if aClass c then (bareKeyLoop rest).map (fun r => (c :: r.1, r.2)) else none) with
      | some r => some r
      | none =>
        match rest with
        | [] => none
        | c2 :: rest2 =>
          match (if c2 = '#' ∧ aClass c then
                   (bareKeyLoop rest2).map (fun r => (c :: '#' :: r.1, r.2))
                 else none) with
          | some r => some r
          | none =>
            if c = ':' ∧ aClass c2 then
              (bareKeyLoop rest2).map (fun r => (c :: c2 :: r.1, r.2))
            else none

/-- Full match of key_value_re against a line: first-character class,
then the lazy loop.  Returns (key, optional raw value). -/
def matchBareKey (cs : List Char) : Option (List Char × Option (List Char)) :=
  match cs with
  | c :: rest =>
    if firstClass c then (bareKeyLoop rest).map (fun r => (c :: r.1, r.2)) else none
  | [] => none

/-- Tail  *:(?: +(.*))?$  of the quoted-key patterns (same as keyTail
but without the lookahead). -/
def colonTail (cs : List Char) : Option (Option (List Char)) :=
  match cs.dropWhile (fun c => c = ' ') with
  | [] => none
  | c :: rest =>
    if c = ':' then
      match rest with
      | [] => some none
      | c2 :: _ =>
        if c2 = ' ' then some (some (rest.dropWhile (fun x => x = ' '))) else none
    else none

/-- Greedy body of keydq_value_re / keysq_value_re: the longest split
body ++ quote ++ tail with colonTail accepting the tail. -/
def quotedKeySplit (q : Char) : List Char → Option (List Char × Option (List Char))
  | [] => none
  | c :: rest =>
    match quotedKeySplit q rest with
    | some r => some (c :: r.1, r.2)
    | none =>
      if c = q then (colonTail rest).map (fun v => ([], v)) else none

/-- Match of keydq_value_re / keysq_value_re against a line. -/
def matchQuotedKey (q : Char) (cs : List Char) : Option (List Char × Option (List Char)) :=
  match cs with
  | c :: rest => if c = q then quotedKeySplit q rest else none
  | [] => none

/-- The three key patterns in the order the source tries them:
double-quoted, single-quoted, bare. -/
def matchKeyAll (cs : List Char) : Option (List Char × Option (List Char)) :=
  match matchQuotedKey '"' cs with
  | some r => some r
  | none =>
    match matchQuotedKey quoteChar cs with
    | some r => some r
    | none => matchBareKey cs

/-- An open container: a Python dict or list under construction. -/
inductive Container where
  | cmap (entries : List (String × Value))
  | cseq (items : List Value)
deriving Repr

/-- Value of a finished container. -/
def Container.toValue : Container → Value
  | .cmap es => .map es
  | .cseq xs => .seq xs

/-- Python dict lookup (insertion-ordered association list). -/
def dictGet : List (String × Value) → String → Option Value
  | [], _ => none
  | (k, v) :: rest, key => if k = key then some v else dictGet rest key

/-- Python dict assignment: overwrite in place, else append. -/
def dictSet : List (String × Value) → String → Value → List (String × Value)
  | [], key, v => [(key, v)]
  | (k, old) :: rest, key, v =>
    if k = key then (k, v) :: rest else (k, old) :: dictSet rest key v

/-- One suspended parent on the container stack: the parent container
with a hole where the currently open child sits.  For a dict parent
the hole is the slot of the recorded key; for a list parent the child
is the last element. -/
inductive Frame where
  | fmap (entries : List (String × Value)) (key : String)
  | fseq (items : List Value)
deriving Repr

/-- Re-attach a finished child into its parent frame. -/
def plugFrame : Frame → Value → Container
  | .fmap es k, v => .cmap (dictSet es k v)
  | .fseq xs, v => .cseq (xs ++ [v])

/-- Plug the whole current_level stack (bottom first, the constructor
None modelled as none) around the current container value. -/
def plugAll (clevel : List (Option Frame)) (v : Value) : Value :=
  clevel.foldr
    (fun fo acc =>
      match fo with
      | none => acc
      | some f => (plugFrame f acc).toValue)
    v

/-- The SimpleYAMLState object, with the mutable aliasing replaced by
the frame stack (see module comment).  root is not stored separately:
rootIsSet models root is not None, scalarRoot a scalar root, and a
container root is plugAll clevel curr. -/
structure LoadState where
  lineno : Int
  rootIsSet : Bool
  scalarRoot : Option Value
  indents : List Int
  clevel : List (Option Frame)
  curr : Option Container
  last : Option String
  version : Option PyFloat
  warnings : List String
deriving Repr

/-- The state constructed at the top of load. -/
def loadInit : LoadState :=
  { lineno := -1, rootIsSet := false, scalarRoot := none,
    indents := [0], clevel := [none], curr := none, last := none,
    version := none, warnings := [] }

/-- Python truthiness of state.last (None and the empty string are
falsy). -/
def lastTruthy : Option String → Bool
  | none => false
  | some s => decide (s ≠ "")

/-- Errors escaping one line of processing: a YAMLError raised
deliberately, or any other Python exception. -/
inductive StepErr where
  | yerr (msg : String) (lineno : Int)
  | perr (e : PyErr)
deriving Repr

/-- Result of processing one line. -/
inductive PLRes where
  | cont (st : LoadState)
  | brk (st : LoadState)
  | err (st : LoadState) (e : StepErr)
deriving Repr

/-- Successful outcome of the loop body: continue, or break at a
document separator. -/
inductive CoreRes where
  | cont (st : LoadState)
  | brk (st : LoadState)
deriving Repr

/-- Best-effort rendering of the parsed version float for the
diagnostic messages of parse_directive (message text is not load
bearing for any claim). -/
def pyFloatRepr : PyFloat → String
  | .finite q => toString q.num ++ "/" ++ toString q.den
  | .inf => "inf"
  | .ninf => "-inf"
  | .nan => "nan"

/-- Rendering of the optional stored version, as Python would
interpolate state.version. -/
def versionRepr : Option PyFloat → String
  | none => "None"
  | some f => pyFloatRepr f

/-- The warning static method: messages are collected instead of
printed. -/
def addWarning (st : LoadState) (m : String) : LoadState :=
  { st with warnings := st.warnings ++ ["YAML Warnings: " ++ m] }

/-- Match of directive_re against a line already known to start with
the percent character: one or more alphanumerics, then the rest. -/
def matchDirective (cs : List Char) : Option (List Char × List Char) :=
  match cs with
  | '%' :: rest =>
    let name := rest.takeWhile isAlnumChar
    if name = [] then none else some (name, rest.dropWhile isAlnumChar)
  | _ => none

/-- The parse_directive method.  Returns the updated state and whether
the line was consumed (True) or should fall through (False). -/
def parse_directive (st : LoadState) (line : List Char) : Except StepErr (LoadState × Bool) :=
  match matchDirective line with
  | none => .ok (st, false)
  | some (name, rawArgs) =>
    let args := stripL rawArgs
    if name = "YAML".toList then
      if args ≠ [] then
        match pyFloatParse args with
        | none =>
          -- note: the source interpolates the stale state.version here
          .error (.yerr ("YAML version " ++ quoteS ++ versionRepr st.version ++ quoteS
                           ++ " not parseable")
                    st.lineno)
        | some f =>
          let st := { st with version := some f }
          if f.geQ (PyRat.ofInt 2) then
            .error (.yerr ("YAML version " ++ pyFloatRepr f ++ " not supported") st.lineno)
          else if f.geQ ⟨6, 5⟩ then
            .ok (addWarning st ("YAML version " ++ pyFloatRepr f ++ " probably not supported"),
                 true)
          else
            .ok (st, true)
      else
        .ok ({ st with version := none }, true)
    else
      .ok (addWarning st ("Directive " ++ quoteS ++ String.mk name ++ quoteS
                            ++ " not supported"), true)

/-- Value of the current container for re-attachment (never consulted
with none in a reachable plug, see module comment). -/
def optCurrValue : Option Container → Value
  | some c => c.toValue
  | none => Value.null

/-- Length bound used by the loop terminations below. -/
theorem lstripL_length_le (cs : List Char) : (lstripL cs).length ≤ cs.length := by
  induction cs with
  | nil => exact Nat.le_refl _
  | cons c rest ih =>
    by_cases h : isPySpace c
    · simp only [lstripL, List.dropWhile_cons, h, if_true]
      exact Nat.le_trans ih (Nat.le_succ _)
    · simp only [lstripL, List.dropWhile_cons, h, if_false, List.length_cons]
      exact Nat.le_refl _

/-- While loop popping closed containers, operating on the reversed
stacks (top first).  Each iteration re-evaluates indent_level[-1]
(IndexError on an empty list, as in Python) and pops both stacks,
clearing last. -/
def popLoopRev (indent : Int) :
    List Int → List (Option Frame) → Option Container → Bool →
    Except PyErr (List Int × List (Option Frame) × Option Container × Bool)
  | [], _, _, _ => .error (.indexError "list index out of range")
  | top :: restI, clevelR, curr, popped =>
    if top > indent then
      match clevelR with
      | [] => .error (.indexError "pop from empty list")
      | fo :: restC =>
        let curr2 : Option Container :=
          match fo with
          | none => none
          | some f => some (plugFrame f (optCurrValue curr))
        popLoopRev indent restI restC curr2 true
    else .ok (top :: restI, clevelR, curr, popped)

/-- The pop loop of load (lines closing nested containers). -/
def popLoop (st : LoadState) (indent : Int) : Except PyErr LoadState :=
  match popLoopRev indent st.indents.reverse st.clevel.reverse st.curr false with
  | .error e => .error e
  | .ok r =>
    .ok { st with indents := r.1.reverse, clevel := r.2.1.reverse, curr := r.2.2.1,
                  last := if r.2.2.2 then none else st.last }

/-- Nested-list push through a pending key (current[last] = [administered
as a frame]; the source then clears last). -/
def pushSeqViaLast (st : LoadState) (k : String) (listIndent : Int) :
    Except PyErr LoadState :=
  match st.curr with
  | some (.cmap es) =>
    .ok { st with clevel := st.clevel ++ [some (.fmap es k)],
                  curr := some (.cseq []),
                  last := none,
                  indents := st.indents ++ [listIndent] }
  | some (.cseq _) =>
    .error (.typeError "list indices must be integers or slices, not str")
  | none => .error (.typeError "NoneType object does not support item assignment")

/-- Nested-list push by appending to the current list. -/
def pushSeqAppend (st : LoadState) (listIndent : Int) : Except PyErr LoadState :=
  match st.curr with
  | some (.cseq items) =>
    .ok { st with clevel := st.clevel ++ [some (.fseq items)],
                  curr := some (.cseq []),
                  indents := st.indents ++ [listIndent] }
  | some (.cmap _) => .error (.attributeError "dict object has no attribute append")
  | none => .error (.attributeError "NoneType object has no attribute append")

/-- Nested-mapping push through a pending key (the source does not
clear last here; it is overwritten by the key assignment that
follows). -/
def pushMapViaLast (st : LoadState) (k : String) (indent : Int) : Except PyErr LoadState :=
  match st.curr with
  | some (.cmap es) =>
    .ok { st with clevel := st.clevel ++ [some (.fmap es k)],
                  curr := some (.cmap []),
                  indents := st.indents ++ [indent] }
  | some (.cseq _) =>
    .error (.typeError "list indices must be integers or slices, not str")
  | none => .error (.typeError "NoneType object does not support item assignment")

/-- Nested-mapping push by appending to the current list. -/
def pushMapAppend (st : LoadState) (indent : Int) : Except PyErr LoadState :=
  match st.curr with
  | some (.cseq items) =>
    .ok { st with clevel := st.clevel ++ [some (.fseq items)],
                  curr := some (.cmap []),
                  indents := st.indents ++ [indent] }
  | some (.cmap _) => .error (.attributeError "dict object has no attribute append")
  | none => .error (.attributeError "NoneType object has no attribute append")

/-- List-introducer loop of load: consumes dash markers, adjusting the
indent and opening nested sequences.  Evaluating line[0] on an empty
string raises IndexError, exactly as the source does after a lone
dash. -/
def dashBody
    (recur : LoadState → List Char → Int → Except PyErr (LoadState × List Char × Int))
    (st : LoadState) (line : List Char) (indent : Int) :
    Except PyErr (LoadState × List Char × Int) :=
  match line with
  | [] => .error (.indexError "string index out of range")
  | c :: rest =>
    if c = '-' ∧ (rest = [] ∨ rest.head? = some ' ') then
      let listIndent := indent
      let noIndent := lstripL rest
      let indent2 := indent + ((line.length : Int) - noIndent.length)
      if st.rootIsSet = false then
        recur { st with rootIsSet := true,
                        curr := some (.cseq []),
                        indents := [listIndent] } noIndent indent2
      else
        match st.indents.getLast? with
        | none => .error (.indexError "list index out of range")
        | some top =>
          if listIndent = top then
            recur st noIndent indent2
          else
            match (match st.last with
                   | some k =>
                     if k = "" then pushSeqAppend st listIndent
                     else pushSeqViaLast st k listIndent
                   | none => pushSeqAppend st listIndent) with
            | .error e => .error e
            | .ok st2 => recur st2 noIndent indent2
    else
      .ok (st, line, indent)

/-- The list-introducer while loop, with enough fuel (one unit per
iteration; the caller passes the line length plus one, which always
suffices because each iteration strips at least the dash). -/
def dashLoop : Nat → LoadState → List Char → Int →
    Except PyErr (LoadState × List Char × Int)
  | 0, _, _, _ => .error (.indexError "unreachable: dash loop fuel exhausted")
  | fuel + 1, st, line, indent => dashBody (dashLoop fuel) st line indent

/-- Assignment current[key] = v in the key branch; the current
container can be a list or None, in which case Python raises. -/
def assignKey (st : LoadState) (key : String) (v : Value) (newLast : Option String) :
    Except PyErr LoadState :=
  match st.curr with
  | some (.cmap es) =>
    .ok { st with curr := some (.cmap (dictSet es key v)), last := newLast }
  | some (.cseq _) =>
    .error (.typeError "list indices must be integers or slices, not str")
  | none => .error (.typeError "NoneType object does not support item assignment")

/-- Key-line handling of load (the branch following a successful key
pattern match). -/
def handleKeyLine (st : LoadState) (key : List Char) (rawValue : Option (List Char))
    (indent : Int) : Except StepErr LoadState :=
  let value0 : List Char := rawValue.getD []
  let value : List Char :=
    match value0 with
    | c :: _ => if c = '#' then [] else value0
    | [] => value0
  let stRes : Except StepErr LoadState :=
    if st.rootIsSet = false then
      .ok { st with rootIsSet := true, curr := some (Container.cmap []) }
    else
      match st.indents.getLast? with
      | none => .error (.perr (.indexError "list index out of range"))
      | some top =>
        if indent = top then .ok st
        else
          match (match st.last with
                 | some k =>
                   if k = "" then pushMapAppend st indent
                   else pushMapViaLast st k indent
                 | none => pushMapAppend st indent) with
          | .error e => .error (.perr e)
          | .ok st2 => .ok st2
  match stRes with
  | .error e => .error e
  | .ok st1 =>
    if value = [] then
      match assignKey st1 (String.mk key) .null (some (String.mk key)) with
      | .error e => .error (.perr e)
      | .ok st2 => .ok st2
    else
      match decode_value (String.mk value) with
      | .error e => .error (.perr e)
      | .ok v =>
        match assignKey st1 (String.mk key) v none with
        | .error e => .error (.perr e)
        | .ok st2 => .ok st2

/-- Scalar-line handling of load (no list marker, no key match):
root assignment, folded continuation of a pending key, list append, or
the deliberate Unparseable-line YAMLError. -/
def handleScalarLine (st : LoadState) (line : List Char) : Except StepErr LoadState :=
  match decode_value (String.mk line) with
  | .error e => .error (.perr e)
  | .ok v =>
  if st.rootIsSet = false then
    match v with
    | .null => .ok st  -- root = None: root remains None
    | _ => .ok { st with rootIsSet := true, scalarRoot := some v }
  else
    if lastTruthy st.last then
      match st.last with
      | some k =>
        match st.curr with
        | some (.cmap es) =>
          match dictGet es k with
          | none => .error (.perr (.keyError k))
          | some .null =>
            .ok { st with curr := some (.cmap (dictSet es k v)) }
          | some old =>
            -- current[last] += &#39; &#39; + value: the getitem has
            -- succeeded; Python first evaluates the str concatenation
            -- (raising when value is not a str), then += dispatches on
            -- the stored value: str concatenates, list extends with
            -- the characters of the right-hand string, anything else
            -- raises
            match v with
            | .str s2 =>
              match old with
              | .str s1 =>
                .ok { st with curr := some (.cmap (dictSet es k (.str (s1 ++ " " ++ s2)))) }
              | .seq xs =>
                .ok { st with curr := some (.cmap (dictSet es k
                  (.seq (xs ++ (" " ++ s2).toList.map (fun c => Value.str (String.mk [c])))))) }
              | _ => .error (.perr (.typeError "unsupported operand type(s) for +="))
            | _ => .error (.perr (.typeError "can only concatenate str to str"))
        | some (.cseq _) =>
          .error (.perr (.typeError "list indices must be integers or slices, not str"))
        | none => .error (.perr (.typeError "NoneType object is not subscriptable"))
      | none => .error (.perr (.typeError "unreachable: truthy last is some"))
    else
      match st.curr with
      | some (.cseq items) => .ok { st with curr := some (.cseq (items ++ [v])) }
      | _ => .error (.yerr ("Unparseable line " ++ quoteS ++ String.mk line ++ quoteS)
                       st.lineno)

/-- One full iteration of the line loop of load, after the lineno
increment. -/
def processLineCore (st : LoadState) (rawLine : String) : Except StepErr CoreRes :=
  let line := rstripL rawLine.toList
  if line = [] then .ok (.cont st)
  else if line = "---".toList then
    (if st.rootIsSet then .ok (.brk st) else .ok (.cont st))
  else
    let noIndent := lstripL line
    let indent : Int := (line.length : Int) - noIndent.length
    match noIndent with
    | [] => .error (.perr (.indexError "string index out of range"))
    | c0 :: _ =>
      if c0 = '#' then .ok (.cont st)
      else
        match (if indent = 0 ∧ c0 = '%' then parse_directive st noIndent
               else .ok (st, false)) with
        | .error e => .error e
        | .ok (st1, true) => .ok (.cont st1)
        | .ok (st1, false) =>
          match popLoop st1 indent with
          | .error e => .error (.perr e)
          | .ok st2 =>
            match dashLoop (noIndent.length + 1) st2 noIndent indent with
            | .error e => .error (.perr e)
            | .ok (st3, line2, indent2) =>
              match matchKeyAll line2 with
              | some (key, rawValue) =>
                match handleKeyLine st3 key rawValue indent2 with
                | .error e => .error e
                | .ok st4 => .ok (.cont st4)
              | none =>
                match handleScalarLine st3 line2 with
                | .error e => .error e
                | .ok st4 => .ok (.cont st4)

/-- One line of load including the lineno increment; exceptions are
attached to the state they escaped from. -/
def processLine (st : LoadState) (rawLine : String) : PLRes :=
  let st1 := { st with lineno := st.lineno + 1 }
  match processLineCore st1 rawLine with
  | .ok (.cont st2) => .cont st2
  | .ok (.brk st2) => .brk st2
  | .error e => .err st1 e

/-- Reconstruction of state.root at return. -/
def finalRoot (st : LoadState) : Value :=
  if st.rootIsSet then
    match st.scalarRoot with
    | some v => v
    | none =>
      match st.curr with
      | some c => plugAll st.clevel c.toValue
      | none => .null
  else .null

/-- The YAMLError of the source (named ParseError by the spec): a
message and a 0-based line number. -/
structure YamlError where
  msg : String
  lineno : Int
deriving Repr, DecidableEq

/-- Wrapping of a non-YAMLError exception by the outer handler of
load. -/
def wrapPyErr (e : PyErr) (lineno : Int) : YamlError :=
  ⟨e.clsName ++ ": " ++ e.text ++ " (failed at line " ++ toString lineno ++ ")", lineno⟩

/-- Outcome of the try/except of load for one escaped error. -/
def renderStepErr (e : StepErr) (st : LoadState) : YamlError :=
  match e with
  | .yerr m n => ⟨m, n⟩
  | .perr p => wrapPyErr p st.lineno

/-- The line loop of load, also returning the collected warnings. -/
def loadAux : LoadState → List String → Except YamlError Value × List String
  | st, [] => (.ok (finalRoot st), st.warnings)
  | st, l :: rest =>
    match processLine st l with
    | .cont st2 => loadAux st2 rest
    | .brk st2 => (.ok (finalRoot st2), st2.warnings)
    | .err st2 e => (.error (renderStepErr e st2), st2.warnings)

/-- The load method of SimpleYAML on a list of input lines, returning
the root value or the ParseError, together with the warnings the
parser printed. -/
def load (lines : List String) : Except YamlError Value × List String :=
  loadAux loadInit lines

/-- Successful processing of a line sequence (no error, no break). -/
def advance : LoadState → List String → Option LoadState
  | st, [] => some st
  | st, l :: rest =>
    match processLine st l with
    | .cont st2 => advance st2 rest
    | _ => none

/-- State after the first i lines of a document, when they all
processed normally. -/
def stateAfter (lines : List String) (i : Nat) : Option LoadState :=
  advance loadInit (lines.take i)

/-- Error discriminator for closed counterexample statements. -/
def isErr {ε α : Type} : Except ε α → Bool
  | .error _ => true
  | .ok _ => false

/-- Decimal value of a digit string, most significant digit first. -/
def digitsVal (ds : List Char) : Nat :=
  ds.foldl (fun a c => a * 10 + (c.toNat - 48)) 0

/-- A well-formed colon group of a sexagesimal literal: one digit, or
two digits the first of which is at most 5, so the group value is
0 to 59 as the regex [0-5]?[0-9] demands. -/
def goodB60Group : List Char → Bool
  | [c] => isDigitChar c
  | [c1, c2] => isDigitChar c1 && decide (c1 ≤ '5') && isDigitChar c2
  | _ => false

/-- The colon-group tail of a sexagesimal literal: each group preceded
by a colon. -/
def flatGroups : List (List Char) → List Char
  | [] => []
  | g :: rest => ':' :: (g ++ flatGroups rest)

/-- A sexagesimal literal assembled from an optional sign, a first
digit run and at least one colon group. -/
def renderB60 (sign g0 : List Char) (gs : List (List Char)) : String :=
  String.mk (sign ++ g0 ++ flatGroups gs)

/-- The left-to-right accumulation the spec describes:
value = value * 60 + group, over the decimal values of the groups. -/
def b60SpecValue (g0 : List Char) (gs : List (List Char)) : Int :=
  gs.foldl (fun a g => a * 60 + (digitsVal g : Int)) (digitsVal g0 : Int)

/-- A character usable inside a bare key for the flat-mapping theorems:
in the repeated class of key_value_re and not whitespace (so the key
has no colon, hash, comma, bracket, brace, tab or space). -/
def keyChar (c : Char) : Bool := aClass c && !isPySpace c

/-- A well-formed bare key: a first-class character followed by key
characters. -/
def goodKey : List Char → Bool
  | [] => false
  | c :: rest => firstClass c && rest.all keyChar

/-- A well-formed scalar value string for the flat-mapping theorems:
nonempty, does not start with a space or a comment hash, and does not
end in whitespace (so rstrip and the match group leave it intact). -/
def goodVal (vc : List Char) : Bool :=
  (match vc.head? with
   | some c => decide (c ≠ ' ') && decide (c ≠ '#')
   | none => false) &&
  (match vc.getLast? with
   | some c => !isPySpace c
   | none => false)

/-- The canonical state of load between two top-level lines of a
document whose root is a flat mapping (or, with rootIsSet false and no
container, the fresh state): both stacks are the singletons the
constructor installed. -/
def stZero (n : Int) (ris : Bool) (cur : Option Container) : LoadState :=
  { lineno := n, rootIsSet := ris, scalarRoot := none, indents := [0],
    clevel := [none], curr := cur, last := none, version := none, warnings := [] }

/-- Discriminator for container values (Python list or dict), the
values the scalar decoder can never produce. -/
def isContainer : Value → Bool
  | .seq _ => true
  | .map _ => true
  | _ => false

/-- The input line of one key/value/decoded-value triple. -/
def lineOf (p : List Char × List Char × Value) : String :=
  String.mk (p.1 ++ ':' :: ' ' :: p.2.1)

/-- Indentation padding of i spaces. -/
def pad (i : Nat) : List Char := List.replicate i ' '

/-- The state after a key line with an empty value at indentation
zero: the key is pending (last = key) with a Null placeholder. -/
def stPend (n : Int) (k : String) : LoadState :=
  { lineno := n, rootIsSet := true, scalarRoot := none, indents := [0],
    clevel := [none], curr := some (.cmap [(k, .null)]), last := some k,
    version := none, warnings := [] }

/-- The state inside an indented block nested under a pending key k of
the root mapping es: one parent frame suspended at indentation i. -/
def stNest (n : Int) (es : List (String × Value)) (k : String) (i : Int)
    (cur : Container) : LoadState :=
  { lineno := n, rootIsSet := true, scalarRoot := none, indents := [0, i],
    clevel := [none, some (.fmap es k)], curr := some cur, last := none,
    version := none, warnings := [] }

/-- An indented child key line of a nested mapping block. -/
def childLine (i : Nat) (p : List Char × List Char × Value) : String :=
  String.mk (pad i ++ p.1 ++ ':' :: ' ' :: p.2.1)

/-- An indented dash item line of a nested sequence block. -/
def dashLine (i : Nat) (q : List Char × Value) : String :=
  String.mk (pad i ++ '-' :: ' ' :: q.1)

/-- A well-formed scalar list item: a good value whose first character
is not whitespace or a dash, and which does not itself match any of
the key patterns. -/
def goodItem (q : List Char × Value) : Bool :=
  goodVal q.1 &&
  (match q.1.head? with
   | some c => !isPySpace c && decide (c ≠ '-')
   | none => false) &&
  decide (matchKeyAll q.1 = none)

/-- The mapping entry a triple should produce. -/
def entryOf (p : List Char × List Char × Value) : String × Value :=
  (String.mk p.1, p.2.2)

/-! ## Claim theorems -/

/-- C3: the scalar decoder maps "123" to integer 123, "0x1F" to 31,
"0b101" to 5, "010" to 8 (octal), "3.14" to the float 3.14 (the exact
rational 157/50 in this model), "true"/"false" to the corresponding
booleans, "~" and "null" to Null, the single-quoted text with a doubled
quote to the string with one quote, and the double-quoted text with a
backslash-n escape to the two-line string. -/
theorem decode_value_examples :
    decode_value "123" = .ok (.int 123) ∧
    decode_value "0x1F" = .ok (.int 31) ∧
    decode_value "0b101" = .ok (.int 5) ∧
    decode_value "010" = .ok (.int 8) ∧
    decode_value "3.14" = .ok (.float (.finite ⟨157, 50⟩)) ∧
    decode_value "true" = .ok (.bool true) ∧
    decode_value "false" = .ok (.bool false) ∧
    decode_value "~" = .ok .null ∧
    decode_value "null" = .ok .null ∧
    decode_value (String.mk [quoteChar, 'i', 't', quoteChar, quoteChar, 's', quoteChar]) =
      .ok (.str (String.mk ['i', 't', quoteChar, 's'])) ∧
    decode_value "\"a\\nb\"" = .ok (.str "a\nb") := by
  exact ⟨rfl, rfl, rfl, rfl, rfl, rfl, rfl, rfl, rfl, rfl, rfl⟩

/-- C7 (code bug): decoding the single-character text "0" does not
return the integer 0; the source indexes s[1] under the s[0] == 0
test without a length guard, so Python raises IndexError (which load
then wraps into a ParseError). -/
theorem decode_value_zero_raises :
    decode_value "0" = .error (.indexError "string index out of range") := rfl

/-- C6 (code bug): in the escapes table of the source the entry for e
is U+001E (record separator), not the ESC character U+001B required by
the YAML specification the table cites; so the double-quoted value
backslash-e decodes to U+001E. -/
theorem decode_value_backslash_e :
    decode_value "\"\\e\"" = .ok (.str (String.mk ['\x1e'])) ∧
    (String.mk ['\x1e']) ≠ (String.mk ['\x1b']) := ⟨rfl, by decide⟩

/-- C5 (counterexample): declaring version 1.1 does not emit a
warning — the source only warns for declared versions at or above 1.2,
so load returns with an empty warning list. -/
theorem version_1_1_silent : load ["%YAML 1.1"] = (.ok .null, []) := rfl

/-- C5 (amended): a declared version of 2.0 raises ParseError; 1.1 and
1.0 both succeed silently with no warning; a warning is only emitted
for declared versions at or above 1.2 (for example 1.2 itself). -/
theorem version_directive_behaviour :
    isErr (load ["%YAML 2.0"]).1 = true ∧
    load ["%YAML 1.1"] = (.ok .null, []) ∧
    load ["%YAML 1.0"] = (.ok .null, []) ∧
    (load ["%YAML 1.2"]).2 ≠ [] := by
  refine ⟨rfl, rfl, rfl, ?_⟩
  decide

/-- C1 (counterexample): a flat mapping whose lines are all indented
by the same positive amount does not load: creating the root mapping
does not record the indentation, so the second key line takes the
indented branch and crashes (dict has no append), surfacing as a
ParseError. -/
theorem flat_mapping_indented_fails :
    isErr (load ["  a: 1", "  b: 2"]).1 = true := rfl

/-- pynumToValue only builds Int and Float scalars. -/
theorem pynumToValue_scalar (q : PyNum) : isContainer (pynumToValue q) = false := by
  cases q <;> rfl

/-- The base-60 branch of decode_value only produces scalars. -/
theorem base60Eval_scalar (cs : List Char) (v : Value)
    (h : base60Eval cs = .ok v) : isContainer v = false := by
  unfold base60Eval at h
  dsimp only at h
  split at h
  · exact Except.noConfusion h
  · cases h
    exact pynumToValue_scalar _

/-- The double-quoted branch of decode_value only produces strings. -/
theorem dqDecodeScalar (g : List Char) (v : Value)
    (h : Except.map (fun l => Value.str { data := l }) (dqUnescape g) = Except.ok v) :
    isContainer v = false := by
  cases hdq : dqUnescape g with
  | error e => rw [hdq] at h; exact Except.noConfusion h
  | ok l => rw [hdq] at h; cases h; rfl

/-- The scalar decoder never produces a container: every successful
branch of decode_value yields a string, boolean, Null, integer or
float, so a pending slot filled from a decoded value (or from a
space-fold of strings) can never hold a list or a dict. -/
theorem decode_value_scalar : ∀ (s : String) (v : Value),
    decode_value s = .ok v → isContainer v = false := by
  intro s v h
  unfold decode_value at h
  dsimp only at h
  repeat' split at h
  all_goals first
    | exact Except.noConfusion h
    | (cases h; rfl)
    | exact dqDecodeScalar _ _ h
    | exact base60Eval_scalar _ _ h
    | (cases h
       rename_i heq
       repeat' split at heq
       all_goals first
         | exact Except.noConfusion heq
         | (injection heq with h1
            injection h1 with h2
            rw [← h2]
            rfl)
         | (injection heq with h1
            exact Option.noConfusion h1))

/-- C10: the scalar decoder never produces a container value, so a
pending key's slot — filled only ever with a decoded scalar or a
space-fold of strings — never holds a list or a dict; for every such
non-container slot already holding a non-Null value, a further
continuation line folds only if both the stored value and the newly
decoded value are strings (producing the space-joined string);
otherwise the line raises a TypeError, which load wraps into a
ParseError — as in the concrete documents where the first continuation
decoded to an integer. -/
theorem continuation_fold_requires_strings :
    (∀ (s : String) (v : Value), decode_value s = .ok v → isContainer v = false) ∧
    (∀ (st : LoadState) (k : String) (es : List (String × Value)) (old v : Value)
       (line : List Char),
       st.rootIsSet = true → st.last = some k → lastTruthy st.last = true →
       st.curr = some (.cmap es) → dictGet es k = some old → old ≠ .null →
       isContainer old = false →
       decode_value (String.mk line) = .ok v →
       ((∃ s1 s2, old = .str s1 ∧ v = .str s2 ∧
          handleScalarLine st line =
            .ok { st with curr := some (.cmap (dictSet es k (.str (s1 ++ " " ++ s2)))) }) ∨
        (∃ m, handleScalarLine st line = .error (.perr (.typeError m)) ∧
          ((∀ s, old ≠ .str s) ∨ (∀ s, v ≠ .str s))))) ∧
    load ["k:", "  1", "  2"] =
      (.error (wrapPyErr (.typeError "can only concatenate str to str") 2), []) ∧
    load ["k:", "  a", "  b"] = (.ok (.map [("k", .str "a b")]), []) := by
  refine ⟨decode_value_scalar, ?_, rfl, rfl⟩
  intro st k es old v line hroot hlast htruthy hcurr hget hnn hic hdec
  rw [hlast] at htruthy
  have heq : handleScalarLine st line =
      (match v, old with
       | .str s2, .str s1 =>
         .ok { st with curr := some (.cmap (dictSet es k (.str (s1 ++ " " ++ s2)))) }
       | .str s2, .seq xs =>
         .ok { st with curr := some (.cmap (dictSet es k
           (.seq (xs ++ (" " ++ s2).toList.map (fun c => Value.str (String.mk [c])))))) }
       | .str _, _ => .error (.perr (.typeError "unsupported operand type(s) for +="))
       | _, _ => .error (.perr (.typeError "can only concatenate str to str"))) := by
    unfold handleScalarLine
    simp only [hdec, hroot, hlast, htruthy, hcurr, hget]
    cases old
    case null => exact absurd rfl hnn
    all_goals cases v <;> rfl
  cases old
  case null => exact absurd rfl hnn
  case seq xs => exact Bool.noConfusion hic
  case map ms => exact Bool.noConfusion hic
  case str s1 =>
    cases v
    case str s2 => exact Or.inl ⟨_, _, rfl, rfl, heq⟩
    case null => exact Or.inr ⟨_, heq, Or.inr (fun s h => by cases h)⟩
    case bool b => exact Or.inr ⟨_, heq, Or.inr (fun s h => by cases h)⟩
    case int n => exact Or.inr ⟨_, heq, Or.inr (fun s h => by cases h)⟩
    case float f => exact Or.inr ⟨_, heq, Or.inr (fun s h => by cases h)⟩
    case seq xs => exact Or.inr ⟨_, heq, Or.inr (fun s h => by cases h)⟩
    case map xs => exact Or.inr ⟨_, heq, Or.inr (fun s h => by cases h)⟩
  all_goals cases v <;> exact Or.inr ⟨_, heq, Or.inl (fun s h => by cases h)⟩

/-- Concrete mid-parse state used to instantiate the continuation-fold
theorem: the pending key k already holds the integer 1. -/
def stPendingInt : LoadState :=
  { lineno := 1, rootIsSet := true, scalarRoot := none, indents := [0],
    clevel := [none], curr := some (.cmap [("k", .int 1)]), last := some "k",
    version := none, warnings := [] }

/-- Witness for the continuation-fold theorem at a concrete state: the
pending key holds integer 1 and the next continuation decodes to
integer 2, so the line raises a TypeError. -/
theorem continuation_fold_requires_strings_witness :
    (∃ s1 s2, Value.int 1 = Value.str s1 ∧ Value.int 2 = Value.str s2 ∧
       handleScalarLine stPendingInt ['2'] =
         .ok { stPendingInt with
                 curr := some (.cmap (dictSet [("k", .int 1)] "k"
                   (.str (s1 ++ " " ++ s2)))) }) ∨
    (∃ m, handleScalarLine stPendingInt ['2'] = .error (.perr (.typeError m)) ∧
       ((∀ s, Value.int 1 ≠ Value.str s) ∨ (∀ s, Value.int 2 ≠ Value.str s))) :=
  continuation_fold_requires_strings.2.1 stPendingInt "k" [("k", .int 1)]
    (.int 1) (.int 2) ['2'] rfl rfl rfl rfl rfl
    (fun h => Value.noConfusion h) rfl rfl

/-- Stack-shape invariant of load: the indent stack and the container
stack always have the same length, and before any root exists both
still hold exactly their initial single entry. -/
def StacksOK (st : LoadState) : Prop :=
  st.indents.length = st.clevel.length ∧
    (st.rootIsSet = false → st.indents = [0] ∧ st.clevel = [none])

theorem popLoopRev_ok_len {d : Int} :
    ∀ (I : List Int) (C : List (Option Frame)) (c : Option Container) (p : Bool) r,
      popLoopRev d I C c p = .ok r → I.length = C.length →
      r.1.length = r.2.1.length := by
  intro I
  induction I with
  | nil =>
    intro C c p r h
    simp [popLoopRev] at h
  | cons top restI ih =>
    intro C c p r h hlen
    simp only [popLoopRev] at h
    by_cases htop : top > d
    · rw [if_pos htop] at h
      cases C with
      | nil => simp at h
      | cons fo restC =>
        exact ih restC _ true r h (by simpa using hlen)
    · rw [if_neg htop] at h
      cases h
      simpa using hlen

theorem popLoop_fields {st : LoadState} {d : Int} {st2 : LoadState}
    (h : popLoop st d = .ok st2) :
    st2.lineno = st.lineno ∧ st2.rootIsSet = st.rootIsSet ∧
    st2.scalarRoot = st.scalarRoot ∧ st2.version = st.version ∧
    st2.warnings = st.warnings := by
  unfold popLoop at h
  cases hr : popLoopRev d st.indents.reverse st.clevel.reverse st.curr false with
  | error e => rw [hr] at h; cases h
  | ok r => rw [hr] at h; cases h; exact ⟨rfl, rfl, rfl, rfl, rfl⟩

theorem popLoop_stacks {st : LoadState} {d : Int} {st2 : LoadState}
    (h : popLoop st d = .ok st2) (hok : StacksOK st) : StacksOK st2 := by
  obtain ⟨hlen, hunset⟩ := hok
  constructor
  · unfold popLoop at h
    cases hr : popLoopRev d st.indents.reverse st.clevel.reverse st.curr false with
    | error e => rw [hr] at h; cases h
    | ok r =>
      rw [hr] at h
      cases h
      have := popLoopRev_ok_len st.indents.reverse st.clevel.reverse st.curr false r hr
        (by simpa using hlen)
      simpa using this
  · intro hro
    have hfields := popLoop_fields h
    rw [hfields.2.1] at hro
    obtain ⟨hI, hC⟩ := hunset hro
    unfold popLoop at h
    rw [hI, hC] at h
    by_cases hd : (0 : Int) > d
    · rw [show popLoopRev d [0].reverse [(none : Option Frame)].reverse st.curr false
            = .error (.indexError "list index out of range") from by
          simp [popLoopRev, hd]] at h
      exact Except.noConfusion h
    · rw [show popLoopRev d [0].reverse [(none : Option Frame)].reverse st.curr false
            = .ok ([0], [none], st.curr, false) from by
          simp [popLoopRev, hd]] at h
      cases h
      exact ⟨rfl, rfl⟩

theorem pushSeqViaLast_shape {st : LoadState} {k : String} {i : Int} {st2 : LoadState}
    (h : pushSeqViaLast st k i = .ok st2) :
    st2.indents.length = st.indents.length + 1 ∧
    st2.clevel.length = st.clevel.length + 1 ∧
    st2.rootIsSet = st.rootIsSet ∧ st2.lineno = st.lineno ∧
    st2.warnings = st.warnings ∧ st2.version = st.version := by
  unfold pushSeqViaLast at h
  cases hc : st.curr with
  | none => rw [hc] at h; cases h
  | some c =>
    cases c with
    | cmap es => rw [hc] at h; cases h; simp
    | cseq items => rw [hc] at h; cases h

theorem pushSeqAppend_shape {st : LoadState} {i : Int} {st2 : LoadState}
    (h : pushSeqAppend st i = .ok st2) :
    st2.indents.length = st.indents.length + 1 ∧
    st2.clevel.length = st.clevel.length + 1 ∧
    st2.rootIsSet = st.rootIsSet ∧ st2.lineno = st.lineno ∧
    st2.warnings = st.warnings ∧ st2.version = st.version := by
  unfold pushSeqAppend at h
  cases hc : st.curr with
  | none => rw [hc] at h; cases h
  | some c =>
    cases c with
    | cmap es => rw [hc] at h; cases h
    | cseq items => rw [hc] at h; cases h; simp

theorem pushMapViaLast_shape {st : LoadState} {k : String} {i : Int} {st2 : LoadState}
    (h : pushMapViaLast st k i = .ok st2) :
    st2.indents.length = st.indents.length + 1 ∧
    st2.clevel.length = st.clevel.length + 1 ∧
    st2.rootIsSet = st.rootIsSet ∧ st2.lineno = st.lineno ∧
    st2.warnings = st.warnings ∧ st2.version = st.version := by
  unfold pushMapViaLast at h
  cases hc : st.curr with
  | none => rw [hc] at h; cases h
  | some c =>
    cases c with
    | cmap es => rw [hc] at h; cases h; simp
    | cseq items => rw [hc] at h; cases h

theorem pushMapAppend_shape {st : LoadState} {i : Int} {st2 : LoadState}
    (h : pushMapAppend st i = .ok st2) :
    st2.indents.length = st.indents.length + 1 ∧
    st2.clevel.length = st.clevel.length + 1 ∧
    st2.rootIsSet = st.rootIsSet ∧ st2.lineno = st.lineno ∧
    st2.warnings = st.warnings ∧ st2.version = st.version := by
  unfold pushMapAppend at h
  cases hc : st.curr with
  | none => rw [hc] at h; cases h
  | some c =>
    cases c with
    | cmap es => rw [hc] at h; cases h
    | cseq items => rw [hc] at h; cases h; simp

theorem assignKey_shape {st : LoadState} {k : String} {v : Value} {nl : Option String}
    {st2 : LoadState} (h : assignKey st k v nl = .ok st2) :
    st2.indents = st.indents ∧ st2.clevel = st.clevel ∧
    st2.rootIsSet = st.rootIsSet ∧ st2.lineno = st.lineno ∧
    st2.warnings = st.warnings ∧ st2.version = st.version := by
  unfold assignKey at h
  cases hc : st.curr with
  | none => rw [hc] at h; cases h
  | some c =>
    cases c with
    | cmap es => rw [hc] at h; cases h; exact ⟨rfl, rfl, rfl, rfl, rfl, rfl⟩
    | cseq items => rw [hc] at h; cases h

/-- Shape preservation of the dash loop: every path keeps the two
stacks the same length, leaves lineno, warnings and version unchanged,
and keeps the invariant. -/
theorem dashLoop_shape :
    ∀ (fuel : Nat) (st : LoadState) (line : List Char) (indent : Int)
      (r : LoadState × List Char × Int),
      dashLoop fuel st line indent = .ok r → StacksOK st →
      StacksOK r.1 ∧ r.1.lineno = st.lineno ∧ r.1.warnings = st.warnings ∧
        r.1.version = st.version := by
  intro fuel
  induction fuel with
  | zero => intro st line indent r h _; simp [dashLoop] at h
  | succ fuel ih =>
    intro st line indent r h hok
    rw [dashLoop] at h
    cases line with
    | nil => simp [dashBody] at h
    | cons c rest =>
      unfold dashBody at h
      simp only [] at h
      by_cases hcond : c = '-' ∧ (rest = [] ∨ rest.head? = some ' ')
      · rw [if_pos hcond] at h
        by_cases hroot : st.rootIsSet = false
        · rw [if_pos hroot] at h
          have hok2 : StacksOK
              { st with rootIsSet := true, curr := some (.cseq []), indents := [indent] } := by
            refine ⟨?_, by intro hx; cases hx⟩
            have := (hok.2 hroot).2
            simp [this]
          have := ih _ _ _ r h hok2
          exact ⟨this.1, this.2.1, this.2.2.1, this.2.2.2⟩
        · rw [if_neg hroot] at h
          cases hgl : st.indents.getLast? with
          | none => rw [hgl] at h; cases h
          | some top =>
            rw [hgl] at h
            simp only [] at h
            by_cases heq2 : indent = top
            · rw [if_pos heq2] at h
              exact ih _ _ _ r h hok
            · rw [if_neg heq2] at h
              have hmain : ∀ st2 : LoadState,
                  (match st.last with
                   | some k => if k = "" then pushSeqAppend st indent
                               else pushSeqViaLast st k indent
                   | none => pushSeqAppend st indent) = .ok st2 →
                  dashLoop fuel st2 (lstripL rest)
                      (indent + ((c :: rest).length - (lstripL rest).length : Int)) = .ok r →
                  StacksOK r.1 ∧ r.1.lineno = st.lineno ∧ r.1.warnings = st.warnings ∧
                    r.1.version = st.version := by
                intro st2 hpush hrec
                have hshape :
                    st2.indents.length = st.indents.length + 1 ∧
                    st2.clevel.length = st.clevel.length + 1 ∧
                    st2.rootIsSet = st.rootIsSet ∧ st2.lineno = st.lineno ∧
                    st2.warnings = st.warnings ∧ st2.version = st.version := by
                  cases hl : st.last with
                  | none => rw [hl] at hpush; exact pushSeqAppend_shape hpush
                  | some k =>
                    rw [hl] at hpush
                    simp only [] at hpush
                    by_cases hk : k = ""
                    · rw [if_pos hk] at hpush; exact pushSeqAppend_shape hpush
                    · rw [if_neg hk] at hpush; exact pushSeqViaLast_shape hpush
                have hok2 : StacksOK st2 := by
                  constructor
                  · rw [hshape.1, hshape.2.1, hok.1]
                  · intro hx
                    rw [hshape.2.2.1] at hx
                    exact absurd hx hroot
                have := ih _ _ _ r hrec hok2
                exact ⟨this.1, by rw [this.2.1, hshape.2.2.2.1],
                       by rw [this.2.2.1, hshape.2.2.2.2.1],
                       by rw [this.2.2.2, hshape.2.2.2.2.2]⟩
              cases hpr : (match st.last with
                   | some k => if k = "" then pushSeqAppend st indent
                               else pushSeqViaLast st k indent
                   | none => pushSeqAppend st indent) with
              | error e => rw [hpr] at h; exact Except.noConfusion h
              | ok st2 =>
                rw [hpr] at h
                simp only [] at h
                exact hmain st2 hpr h
      · rw [if_neg hcond] at h
        cases h
        exact ⟨hok, rfl, rfl, rfl⟩

theorem parse_directive_shape {st : LoadState} {line : List Char} {st2 : LoadState} {b : Bool}
    (h : parse_directive st line = .ok (st2, b)) :
    st2.indents = st.indents ∧ st2.clevel = st.clevel ∧
    st2.rootIsSet = st.rootIsSet ∧ st2.lineno = st.lineno ∧
    st2.curr = st.curr ∧ st2.last = st.last ∧ st2.scalarRoot = st.scalarRoot := by
  unfold parse_directive at h
  cases hm : matchDirective line with
  | none =>
    rw [hm] at h
    cases h
    exact ⟨rfl, rfl, rfl, rfl, rfl, rfl, rfl⟩
  | some nm =>
    obtain ⟨name, rawArgs⟩ := nm
    rw [hm] at h
    simp only [addWarning] at h
    split at h
    · split at h
      · split at h
        · exact Except.noConfusion h
        · split at h
          · exact Except.noConfusion h
          · split at h
            · cases h; exact ⟨rfl, rfl, rfl, rfl, rfl, rfl, rfl⟩
            · cases h; exact ⟨rfl, rfl, rfl, rfl, rfl, rfl, rfl⟩
      · cases h; exact ⟨rfl, rfl, rfl, rfl, rfl, rfl, rfl⟩
    · cases h; exact ⟨rfl, rfl, rfl, rfl, rfl, rfl, rfl⟩

theorem handleScalarLine_shape {st : LoadState} {line : List Char} {st2 : LoadState}
    (h : handleScalarLine st line = .ok st2) :
    st2.indents = st.indents ∧ st2.clevel = st.clevel ∧
    st2.lineno = st.lineno ∧ st2.warnings = st.warnings ∧
    st2.version = st.version ∧ (st2.rootIsSet = false → st.rootIsSet = false) := by
  unfold handleScalarLine at h
  split at h
  · exact Except.noConfusion h
  · split at h
    · split at h
      · cases h; exact ⟨rfl, rfl, rfl, rfl, rfl, fun hx => by assumption⟩
      · cases h; exact ⟨rfl, rfl, rfl, rfl, rfl, fun hx => by cases hx⟩
    · split at h
      · split at h
        · split at h
          · split at h
            · exact Except.noConfusion h
            · cases h; exact ⟨rfl, rfl, rfl, rfl, rfl, fun hx => hx⟩
            · split at h
              · split at h
                · cases h; exact ⟨rfl, rfl, rfl, rfl, rfl, fun hx => hx⟩
                · cases h; exact ⟨rfl, rfl, rfl, rfl, rfl, fun hx => hx⟩
                · exact Except.noConfusion h
              · exact Except.noConfusion h
          · exact Except.noConfusion h
          · exact Except.noConfusion h
        · exact Except.noConfusion h
      · split at h
        · cases h; exact ⟨rfl, rfl, rfl, rfl, rfl, fun hx => hx⟩
        · exact Except.noConfusion h

theorem handleKeyLine_shape {st : LoadState} {key : List Char}
    {rawValue : Option (List Char)} {indent : Int} {st2 : LoadState}
    (h : handleKeyLine st key rawValue indent = .ok st2) (hok : StacksOK st) :
    StacksOK st2 ∧ st2.lineno = st.lineno ∧ st2.warnings = st.warnings ∧
    st2.version = st.version := by
  unfold handleKeyLine at h
  have hmid : ∀ st1 : LoadState,
      StacksOK st1 → st1.lineno = st.lineno → st1.warnings = st.warnings →
      st1.version = st.version →
      (if (match rawValue.getD [] with
           | c :: _ => if c = '#' then ([] : List Char) else rawValue.getD []
           | [] => rawValue.getD []) = [] then
         match assignKey st1 (String.mk key) Value.null (some (String.mk key)) with
         | Except.error e => Except.error (StepErr.perr e)
         | Except.ok st3 => Except.ok st3
       else
         match decode_value (String.mk (match rawValue.getD [] with
                                        | c :: _ =>
                                          if c = '#' then ([] : List Char)
                                          else rawValue.getD []
                                        | [] => rawValue.getD [])) with
         | Except.error e => Except.error (StepErr.perr e)
         | Except.ok v =>
           match assignKey st1 (String.mk key) v none with
           | Except.error e => Except.error (StepErr.perr e)
           | Except.ok st3 => Except.ok st3) = Except.ok st2 →
      StacksOK st2 ∧ st2.lineno = st.lineno ∧ st2.warnings = st.warnings ∧
        st2.version = st.version := by
    intro st1 hok1 hl1 hw1 hv1 hx
    split at hx
    · cases ha : assignKey st1 (String.mk key) Value.null (some (String.mk key)) with
      | error e => rw [ha] at hx; exact Except.noConfusion hx
      | ok st3 =>
        rw [ha] at hx
        cases hx
        have := assignKey_shape ha
        refine ⟨⟨?_, ?_⟩, ?_, ?_, ?_⟩
        · rw [this.1, this.2.1]; exact hok1.1
        · intro hr; rw [this.2.2.1] at hr
          rw [this.1, this.2.1]; exact hok1.2 hr
        · rw [this.2.2.2.1, hl1]
        · rw [this.2.2.2.2.1, hw1]
        · rw [this.2.2.2.2.2, hv1]
    · split at hx
      · exact Except.noConfusion hx
      · cases ha : assignKey st1 (String.mk key) _ none with
        | error e => rw [ha] at hx; exact Except.noConfusion hx
        | ok st3 =>
          rw [ha] at hx
          cases hx
          have := assignKey_shape ha
          refine ⟨⟨?_, ?_⟩, ?_, ?_, ?_⟩
          · rw [this.1, this.2.1]; exact hok1.1
          · intro hr; rw [this.2.2.1] at hr
            rw [this.1, this.2.1]; exact hok1.2 hr
          · rw [this.2.2.2.1, hl1]
          · rw [this.2.2.2.2.1, hw1]
          · rw [this.2.2.2.2.2, hv1]
  simp only [] at h
  by_cases hroot : st.rootIsSet = false
  · rw [if_pos hroot] at h
    simp only [] at h
    refine hmid { st with rootIsSet := true, curr := some (Container.cmap []) }
      ⟨by simpa using hok.1, fun hx => by cases hx⟩ rfl rfl rfl h
  · rw [if_neg hroot] at h
    cases hgl : st.indents.getLast? with
    | none => rw [hgl] at h; simp only [] at h; exact Except.noConfusion h
    | some top =>
      rw [hgl] at h
      simp only [] at h
      by_cases hieq : indent = top
      · rw [if_pos hieq] at h
        simp only [] at h
        exact hmid st hok rfl rfl rfl h
      · rw [if_neg hieq] at h
        cases hpr : (match st.last with
                     | some k =>
                       if k = "" then pushMapAppend st indent
                       else pushMapViaLast st k indent
                     | none => pushMapAppend st indent) with
        | error e => rw [hpr] at h; simp only [] at h; exact Except.noConfusion h
        | ok st1 =>
          rw [hpr] at h
          simp only [] at h
          have hshape : st1.indents.length = st.indents.length + 1 ∧
              st1.clevel.length = st.clevel.length + 1 ∧
              st1.rootIsSet = st.rootIsSet ∧ st1.lineno = st.lineno ∧
              st1.warnings = st.warnings ∧ st1.version = st.version := by
            cases hl : st.last with
            | none => rw [hl] at hpr; exact pushMapAppend_shape hpr
            | some k =>
              rw [hl] at hpr
              simp only [] at hpr
              by_cases hk : k = ""
              · rw [if_pos hk] at hpr; exact pushMapAppend_shape hpr
              · rw [if_neg hk] at hpr; exact pushMapViaLast_shape hpr
          have hok1 : StacksOK st1 :=
            ⟨by rw [hshape.1, hshape.2.1, hok.1],
             fun hr => by rw [hshape.2.2.1] at hr; exact absurd hr hroot⟩
          exact hmid st1 hok1 hshape.2.2.2.1 hshape.2.2.2.2.1 hshape.2.2.2.2.2 h

theorem afterDirective_shape {st1 : LoadState} {noIndent : List Char} {indent : Int}
    {res : CoreRes}
    (h : (match popLoop st1 indent with
          | Except.error e => Except.error (StepErr.perr e)
          | Except.ok st2 =>
            match dashLoop (noIndent.length + 1) st2 noIndent indent with
            | Except.error e => Except.error (StepErr.perr e)
            | Except.ok (st3, line2, indent2) =>
              match matchKeyAll line2 with
              | some (key, rawValue) =>
                match handleKeyLine st3 key rawValue indent2 with
                | Except.error e => Except.error e
                | Except.ok st4 => Except.ok (CoreRes.cont st4)
              | none =>
                match handleScalarLine st3 line2 with
                | Except.error e => Except.error e
                | Except.ok st4 => Except.ok (CoreRes.cont st4)) = Except.ok res)
    (hok : StacksOK st1) :
    ∃ st4, res = .cont st4 ∧ StacksOK st4 ∧ st4.lineno = st1.lineno := by
  cases hp : popLoop st1 indent with
  | error e => rw [hp] at h; exact Except.noConfusion h
  | ok st2 =>
    rw [hp] at h
    simp only [] at h
    have hpf := popLoop_fields hp
    have hps := popLoop_stacks hp hok
    cases hd : dashLoop (noIndent.length + 1) st2 noIndent indent with
    | error e => rw [hd] at h; exact Except.noConfusion h
    | ok r3 =>
      obtain ⟨st3, line2, indent2⟩ := r3
      rw [hd] at h
      simp only [] at h
      have hds := dashLoop_shape _ _ _ _ _ hd hps
      cases hmk : matchKeyAll line2 with
      | some kv =>
        obtain ⟨key, rawValue⟩ := kv
        rw [hmk] at h
        simp only [] at h
        cases hk : handleKeyLine st3 key rawValue indent2 with
        | error e => rw [hk] at h; exact Except.noConfusion h
        | ok st4 =>
          rw [hk] at h
          cases h
          have hks := handleKeyLine_shape hk hds.1
          exact ⟨st4, rfl, hks.1, by rw [hks.2.1, hds.2.1, hpf.1]⟩
      | none =>
        rw [hmk] at h
        simp only [] at h
        cases hs : handleScalarLine st3 line2 with
        | error e => rw [hs] at h; exact Except.noConfusion h
        | ok st4 =>
          rw [hs] at h
          cases h
          have hss := handleScalarLine_shape hs
          refine ⟨st4, rfl, ⟨?_, ?_⟩, ?_⟩
          · rw [hss.1, hss.2.1]; exact hds.1.1
          · intro hr
            have := hds.1.2 (hss.2.2.2.2.2 hr)
            rw [hss.1, hss.2.1]; exact this
          · rw [hss.2.2.1, hds.2.1, hpf.1]

theorem processLineCore_shape {st : LoadState} {l : String} {res : CoreRes}
    (h : processLineCore st l = .ok res) (hok : StacksOK st) :
    ∀ st2, (res = .cont st2 ∨ res = .brk st2) →
      StacksOK st2 ∧ st2.lineno = st.lineno := by
  intro st2 hres
  unfold processLineCore at h
  dsimp only at h
  split at h
  · cases h
    rcases hres with he | he <;> cases he
    exact ⟨hok, rfl⟩
  · split at h
    · split at h
      · cases h
        rcases hres with he | he <;> cases he
        exact ⟨hok, rfl⟩
      · cases h
        rcases hres with he | he <;> cases he
        exact ⟨hok, rfl⟩
    · split at h
      · exact Except.noConfusion h
      · split at h
        · cases h
          rcases hres with he | he <;> cases he
          exact ⟨hok, rfl⟩
        · split at h
          · exact Except.noConfusion h
          · rename_i st1 heqd
            have hst1 : StacksOK st1 ∧ st1.lineno = st.lineno := by
              split at heqd
              · have := parse_directive_shape heqd
                refine ⟨⟨by rw [this.1, this.2.1]; exact hok.1, ?_⟩, this.2.2.2.1⟩
                intro hr
                rw [this.2.2.1] at hr
                obtain ⟨hI, hC⟩ := hok.2 hr
                rw [this.1, this.2.1]
                exact ⟨hI, hC⟩
              · cases heqd
            cases h
            rcases hres with he | he <;> cases he
            exact hst1
          · rename_i st1 heqd
            have hst1 : StacksOK st1 ∧ st1.lineno = st.lineno := by
              split at heqd
              · have := parse_directive_shape heqd
                refine ⟨⟨by rw [this.1, this.2.1]; exact hok.1, ?_⟩, this.2.2.2.1⟩
                intro hr
                rw [this.2.2.1] at hr
                obtain ⟨hI, hC⟩ := hok.2 hr
                rw [this.1, this.2.1]
                exact ⟨hI, hC⟩
              · cases heqd; exact ⟨hok, rfl⟩
            obtain ⟨st4, hcont, hs4, hl4⟩ := afterDirective_shape h hst1.1
            subst hcont
            rcases hres with he | he
            · cases he
              exact ⟨hs4, by rw [hl4, hst1.2]⟩
            · cases he

theorem processLine_cont {st : LoadState} {l : String} {st2 : LoadState}
    (h : processLine st l = .cont st2) (hok : StacksOK st) :
    StacksOK st2 ∧ st2.lineno = st.lineno + 1 := by
  unfold processLine at h
  dsimp only at h
  cases hc : processLineCore { st with lineno := st.lineno + 1 } l with
  | error e => rw [hc] at h; cases h
  | ok r =>
    rw [hc] at h
    cases r with
    | cont x =>
      simp only [] at h
      cases h
      exact processLineCore_shape hc (by exact hok) st2 (Or.inl rfl)
    | brk x =>
      simp only [] at h
      cases h

theorem advance_shape : ∀ (ls : List String) (st st2 : LoadState),
    advance st ls = some st2 → StacksOK st →
    StacksOK st2 ∧ st2.lineno = st.lineno + ls.length := by
  intro ls
  induction ls with
  | nil =>
    intro st st2 h hok
    cases h
    exact ⟨hok, by simp⟩
  | cons l rest ih =>
    intro st st2 h hok
    unfold advance at h
    cases hp : processLine st l with
    | cont st1 =>
      rw [hp] at h
      simp only [] at h
      have h1 := processLine_cont hp hok
      have h2 := ih st1 st2 h h1.1
      refine ⟨h2.1, ?_⟩
      rw [h2.2, h1.2]
      simp [Int.add_assoc]
      omega
    | brk st1 => rw [hp] at h; cases h
    | err st1 e => rw [hp] at h; cases h

/-- C9: at every point during a load invocation — after processing
each line — the indentation stack and the container stack have equal
length. -/
theorem stacks_balanced (lines : List String) (i : Nat) (st : LoadState)
    (h : stateAfter lines i = some st) :
    st.indents.length = st.clevel.length := by
  have hinit : StacksOK loadInit := ⟨rfl, fun _ => ⟨rfl, rfl⟩⟩
  exact (advance_shape (lines.take i) loadInit st h hinit).1.1

/-- Witness: the invariant instantiated at the initial state of an
empty document. -/
theorem stacks_balanced_witness :
    stateAfter ([] : List String) 0 = some loadInit ∧
    loadInit.indents.length = loadInit.clevel.length :=
  ⟨rfl, stacks_balanced [] 0 loadInit rfl⟩

theorem parse_directive_errs {st : LoadState} {line : List Char} {se : StepErr}
    (h : parse_directive st line = .error se) :
    ∃ m, se = .yerr m st.lineno := by
  unfold parse_directive at h
  cases hm : matchDirective line with
  | none => rw [hm] at h; exact Except.noConfusion h
  | some nm =>
    obtain ⟨name, rawArgs⟩ := nm
    rw [hm] at h
    simp only [] at h
    split at h
    · split at h
      · split at h
        · cases h; exact ⟨_, rfl⟩
        · split at h
          · cases h; exact ⟨_, rfl⟩
          · split at h
            · exact Except.noConfusion h
            · exact Except.noConfusion h
      · exact Except.noConfusion h
    · exact Except.noConfusion h

theorem handleKeyLine_errs {st : LoadState} {key : List Char}
    {rawValue : Option (List Char)} {indent : Int} {se : StepErr}
    (h : handleKeyLine st key rawValue indent = .error se) :
    ∃ p, se = .perr p := by
  unfold handleKeyLine at h
  dsimp only at h
  split at h
  · rename_i e heq
    cases h
    split at heq
    · exact Except.noConfusion heq
    · split at heq
      · cases heq; exact ⟨_, rfl⟩
      · split at heq
        · exact Except.noConfusion heq
        · split at heq
          · cases heq; exact ⟨_, rfl⟩
          · exact Except.noConfusion heq
  · rename_i st1 heq
    split at h
    · split at h
      · cases h; exact ⟨_, rfl⟩
      · exact Except.noConfusion h
    · split at h
      · cases h; exact ⟨_, rfl⟩
      · split at h
        · cases h; exact ⟨_, rfl⟩
        · exact Except.noConfusion h

theorem handleScalarLine_yerr {st : LoadState} {line : List Char} {m : String} {n : Int}
    (h : handleScalarLine st line = .error (.yerr m n)) : n = st.lineno := by
  unfold handleScalarLine at h
  split at h
  · exact StepErr.noConfusion (Except.error.inj h)
  · split at h
    · split at h
      · exact Except.noConfusion h
      · exact Except.noConfusion h
    · split at h
      · split at h
        · split at h
          · split at h
            · exact StepErr.noConfusion (Except.error.inj h)
            · exact Except.noConfusion h
            · split at h
              · split at h
                · exact Except.noConfusion h
                · exact Except.noConfusion h
                · exact StepErr.noConfusion (Except.error.inj h)
              · exact StepErr.noConfusion (Except.error.inj h)
          · exact StepErr.noConfusion (Except.error.inj h)
          · exact StepErr.noConfusion (Except.error.inj h)
        · exact StepErr.noConfusion (Except.error.inj h)
      · split at h
        · exact Except.noConfusion h
        · exact (StepErr.yerr.inj (Except.error.inj h)).2.symm

theorem processLineCore_yerr {st : LoadState} {l : String} {m : String} {n : Int}
    (h : processLineCore st l = .error (.yerr m n)) (hok : StacksOK st) :
    n = st.lineno := by
  unfold processLineCore at h
  dsimp only at h
  split at h
  · exact Except.noConfusion h
  · split at h
    · split at h
      · exact Except.noConfusion h
      · exact Except.noConfusion h
    · split at h
      · exact StepErr.noConfusion (Except.error.inj h)
      · split at h
        · exact Except.noConfusion h
        · split at h
          · rename_i e heq
            cases h
            split at heq
            · obtain ⟨m2, hm2⟩ := parse_directive_errs heq
              cases hm2
              rfl
            · exact Except.noConfusion heq
          · exact Except.noConfusion h
          · rename_i st1 heqd
            have hst1 : StacksOK st1 ∧ st1.lineno = st.lineno := by
              split at heqd
              · have := parse_directive_shape heqd
                refine ⟨⟨by rw [this.1, this.2.1]; exact hok.1, ?_⟩, this.2.2.2.1⟩
                intro hr
                rw [this.2.2.1] at hr
                obtain ⟨hI, hC⟩ := hok.2 hr
                rw [this.1, this.2.1]
                exact ⟨hI, hC⟩
              · cases heqd; exact ⟨hok, rfl⟩
            split at h
            · exact StepErr.noConfusion (Except.error.inj h)
            · rename_i st2 heqp
              have hpf := popLoop_fields heqp
              have hps := popLoop_stacks heqp hst1.1
              split at h
              · exact StepErr.noConfusion (Except.error.inj h)
              · rename_i r3 heqdash
                split at h
                · split at h
                  · rename_i e2 heq2
                    cases h
                    obtain ⟨p, hp⟩ := handleKeyLine_errs heq2
                    exact StepErr.noConfusion hp
                  · exact Except.noConfusion h
                · split at h
                  · rename_i e2 heq2
                    cases h
                    have hy := handleScalarLine_yerr heq2
                    have hds := dashLoop_shape _ _ _ _ _ heqdash hps
                    rw [hy, hds.2.1, hpf.1, hst1.2]
                  · exact Except.noConfusion h

theorem processLine_err {st : LoadState} {l : String} {stf : LoadState} {se : StepErr}
    (h : processLine st l = .err stf se) :
    stf = { st with lineno := st.lineno + 1 } ∧
    processLineCore { st with lineno := st.lineno + 1 } l = .error se := by
  unfold processLine at h
  dsimp only at h
  cases hc : processLineCore { st with lineno := st.lineno + 1 } l with
  | ok r =>
    rw [hc] at h
    cases r with
    | cont x => simp only [] at h; exact PLRes.noConfusion h
    | brk x => simp only [] at h; exact PLRes.noConfusion h
  | error e =>
    rw [hc] at h
    simp only [] at h
    cases h
    exact ⟨rfl, rfl⟩

theorem loadAux_error :
    ∀ (ls : List String) (st : LoadState) (e : YamlError) (w : List String),
      loadAux st ls = (.error e, w) →
      ∃ i st0 stf se, i < ls.length ∧ advance st (ls.take i) = some st0 ∧
        processLine st0 (ls.getD i "") = .err stf se ∧
        e = renderStepErr se stf ∧ stf.lineno = st0.lineno + 1 := by
  intro ls
  induction ls with
  | nil =>
    intro st e w h
    exact Except.noConfusion (congrArg Prod.fst h)
  | cons l rest ih =>
    intro st e w h
    unfold loadAux at h
    cases hp : processLine st l with
    | cont st1 =>
      rw [hp] at h
      simp only [] at h
      obtain ⟨i, st0, stf, se, hi, hadv, herr, hrender, hlin⟩ := ih st1 e w h
      refine ⟨i + 1, st0, stf, se, by simpa using hi, ?_, ?_, hrender, hlin⟩
      · simpa [advance, hp] using hadv
      · simpa using herr
    | brk st1 =>
      rw [hp] at h
      simp only [] at h
      exact Except.noConfusion (congrArg Prod.fst h)
    | err st1 se1 =>
      rw [hp] at h
      simp only [] at h
      have h1 := congrArg Prod.fst h
      refine ⟨0, st, st1, se1, by simp, rfl, hp, (Except.error.inj h1).symm, ?_⟩
      exact congrArg LoadState.lineno (processLine_err hp).1

/-- C8: every failure of load surfaces as a ParseError carrying the
0-based number of the offending line: processing stops at some line i,
a deliberately raised YAMLError propagates unchanged (and was raised
with the current line number), any other exception is wrapped with the
original description and the line number; and a bare scalar line inside
an open mapping with no pending key raises the YAMLError directly. -/
theorem load_error_surface :
    (∀ (lines : List String) (e : YamlError) (w : List String),
       load lines = (.error e, w) →
       ∃ i st0 stf se, i < lines.length ∧
         stateAfter lines i = some st0 ∧
         processLine st0 (lines.getD i "") = .err stf se ∧
         stf.lineno = (i : Int) ∧
         e = renderStepErr se stf ∧
         (∀ p, se = .perr p → e = wrapPyErr p (i : Int)) ∧
         (∀ m n, se = .yerr m n → e = ⟨m, n⟩ ∧ n = (i : Int))) ∧
    (∀ (st : LoadState) (line : List Char) (es : List (String × Value)) (v : Value),
       decode_value (String.mk line) = .ok v → st.rootIsSet = true →
       lastTruthy st.last = false → st.curr = some (.cmap es) →
       handleScalarLine st line =
         .error (.yerr ("Unparseable line " ++ quoteS ++ String.mk line ++ quoteS)
           st.lineno)) := by
  constructor
  · intro lines e w h
    obtain ⟨i, st0, stf, se, hi, hadv, herr, hrender, hlin⟩ :=
      loadAux_error lines loadInit e w h
    have hinit : StacksOK loadInit := ⟨rfl, fun _ => ⟨rfl, rfl⟩⟩
    have hsh := advance_shape (lines.take i) loadInit st0 hadv hinit
    have hlen : (lines.take i).length = i := by
      simp [List.length_take]
      omega
    have hlineno : stf.lineno = (i : Int) := by
      rw [hlin, hsh.2, hlen]
      show (-1 : Int) + i + 1 = i
      omega
    have hcore := processLine_err herr
    have hokf : StacksOK stf := by
      rw [hcore.1]
      exact ⟨hsh.1.1, hsh.1.2⟩
    refine ⟨i, st0, stf, se, hi, hadv, herr, hlineno, hrender, ?_, ?_⟩
    · intro p hp
      subst hp
      rw [hrender]
      unfold renderStepErr
      rw [hlineno]
    · intro m n hm
      subst hm
      constructor
      · rw [hrender]; rfl
      · have hc2 : processLineCore stf (lines.getD i "") = .error (.yerr m n) := by
          rw [hcore.1]; exact hcore.2
        have := processLineCore_yerr hc2 hokf
        rw [this, hlineno]
  · intro st line es v hdec hroot hlastf hcurr
    unfold handleScalarLine
    rw [hdec, hroot, hlastf, hcurr]
    rfl

/-- Witness for the error-surface theorem: the document consisting of
the single line 0 fails (decode raises IndexError), and the failure
surfaces as the wrapped ParseError at line 0. -/
theorem load_error_surface_witness :
    ∃ i st0 stf se, i < (["0"] : List String).length ∧
      stateAfter ["0"] i = some st0 ∧
      processLine st0 ((["0"] : List String).getD i "") = .err stf se ∧
      stf.lineno = (i : Int) ∧
      wrapPyErr (.indexError "string index out of range") 0 = renderStepErr se stf ∧
      (∀ p, se = .perr p →
        wrapPyErr (.indexError "string index out of range") 0 = wrapPyErr p (i : Int)) ∧
      (∀ m n, se = .yerr m n →
        wrapPyErr (.indexError "string index out of range") 0 = ⟨m, n⟩ ∧ n = (i : Int)) :=
  load_error_surface.1 ["0"] (wrapPyErr (.indexError "string index out of range") 0) [] rfl

/-! ## Auxiliary lemmas for the sexagesimal development -/

theorem containsFalse {l : List Char} {a : Char} (h : ∀ c ∈ l, c ≠ a) :
    l.contains a = false := by
  induction l with
  | nil => rfl
  | cons c t ih =>
    simp only [List.contains_cons]
    rw [ih (fun x hx => h x (List.mem_cons_of_mem _ hx))]
    have hc : c ≠ a := h c (List.mem_cons_self _ _)
    simp only [Bool.or_false, beq_eq_false_iff_ne]
    exact fun hh => hc hh.symm

theorem filterId {l : List Char} {a : Char} (h : ∀ c ∈ l, c ≠ a) :
    l.filter (fun c => c ≠ a) = l := by
  rw [List.filter_eq_self]
  intro x hx
  simpa using h x hx

theorem isDigitChar_toNat {c : Char} (h : isDigitChar c = true) :
    48 ≤ c.toNat ∧ c.toNat ≤ 57 := by
  unfold isDigitChar at h
  rw [Bool.and_eq_true, decide_eq_true_eq, decide_eq_true_eq] at h
  obtain ⟨h1, h2⟩ := h
  rw [Char.le_def, UInt32.le_def] at h1 h2
  exact ⟨h1, h2⟩

theorem digit_ne {c d : Char} (h : isDigitChar c = true)
    (hd : isDigitChar d = false) : c ≠ d := by
  intro he
  rw [he, hd] at h
  exact Bool.noConfusion h

theorem pyspace_false_of_digit {c : Char} (h : isDigitChar c = true) :
    isPySpace c = false := by
  obtain ⟨h1, _⟩ := isDigitChar_toNat h
  cases hps : isPySpace c with
  | false => rfl
  | true =>
    exfalso
    unfold isPySpace at hps
    simp only [Bool.or_eq_true, decide_eq_true_eq] at hps
    rcases hps with ((((rfl | rfl) | rfl) | rfl) | rfl) | rfl <;> exact absurd h1 (by decide)

theorem dcDropWhile {p : Char → Bool} {l : List Char}
    (h : ∀ c ∈ l, p c = false) : l.dropWhile p = l := by
  cases l with
  | nil => rfl
  | cons c t => simp [List.dropWhile_cons, h c (List.mem_cons_self _ _)]

theorem lstripL_eq_self {l : List Char} (h : ∀ c ∈ l, isPySpace c = false) :
    lstripL l = l := dcDropWhile h

theorem rstripL_eq_self {l : List Char} (h : ∀ c ∈ l, isPySpace c = false) :
    rstripL l = l := by
  unfold rstripL
  rw [dcDropWhile (fun c hc => h c (List.mem_reverse.1 hc)), List.reverse_reverse]

theorem stripL_eq_self {l : List Char} (h : ∀ c ∈ l, isPySpace c = false) :
    stripL l = l := by
  unfold stripL
  rw [lstripL_eq_self h, rstripL_eq_self h]

theorem findSpaceHash_none {l : List Char} (h : ∀ c ∈ l, c ≠ ' ') :
    findSpaceHash l = none := by
  induction l with
  | nil => rfl
  | cons c t ih =>
    unfold findSpaceHash
    rw [if_neg (fun hc => h c (List.mem_cons_self _ _) hc.1),
        ih (fun x hx => h x (List.mem_cons_of_mem _ hx))]
    rfl

theorem stripValueComment_eq_self {l : List Char} (h : ∀ c ∈ l, c ≠ ' ') :
    stripValueComment l = l := by
  unfold stripValueComment
  rw [findSpaceHash_none h]

theorem pyIsDigit_false_of_colon {l : List Char} (h : ':' ∈ l) :
    pyIsDigit l = false := by
  unfold pyIsDigit
  cases hall : l.all isDigitChar with
  | false => exact Bool.and_false _
  | true =>
    have h1 := List.all_eq_true.1 hall ':' h
    have h2 : isDigitChar ':' = false := by decide
    rw [h1] at h2
    exact Bool.noConfusion h2

theorem digitVal10 {c : Char} (h : isDigitChar c = true) :
    digitVal? 10 c = some (c.toNat - 48) := by
  obtain ⟨h1, h2⟩ := isDigitChar_toNat h
  unfold digitVal?
  simp only [h, if_true]
  rw [if_pos (show c.toNat - 48 < 10 by omega)]

theorem digitValColon {base : Nat} (hb : base ≤ 16) : digitVal? base ':' = none := by
  have h : digitVal? base ':' = if 99 < base then some 99 else none := rfl
  rw [h, if_neg (by omega)]

theorem scanUD_colon {base : Nat} (hb : base ≤ 16) :
    ∀ l acc, (∀ c ∈ l, isDigitChar c = true ∨ c = ':') → ':' ∈ l →
      scanUD base l acc = none := by
  intro l
  induction l with
  | nil => intro acc _ hmem; exact absurd hmem (List.not_mem_nil _)
  | cons c t ih =>
    intro acc hchars hmem
    unfold scanUD
    have hcu : c ≠ '_' := by
      rcases hchars c (List.mem_cons_self _ _) with hd | hcol
      · exact digit_ne hd (by decide)
      · rw [hcol]; decide
    rw [if_neg hcu]
    rcases hchars c (List.mem_cons_self _ _) with hd | hcol
    · have hct : ':' ∈ t := by
        rcases List.mem_cons.1 hmem with he | ht
        · exact absurd he.symm (digit_ne hd (by decide))
        · exact ht
      cases hv : digitVal? base c with
      | none => rfl
      | some d =>
        exact ih (acc * base + d) (fun x hx => hchars x (List.mem_cons_of_mem _ hx)) hct
    · rw [hcol, digitValColon hb]

theorem parseDigitsU_colon {base : Nat} (hb : base ≤ 16) {l : List Char}
    (hchars : ∀ c ∈ l, isDigitChar c = true ∨ c = ':') (hmem : ':' ∈ l) :
    parseDigitsU base l = none := by
  cases l with
  | nil => exact absurd hmem (List.not_mem_nil _)
  | cons c t =>
    have hstep : parseDigitsU base (c :: t) =
        (if c = '_' then none
         else match digitVal? base c with
              | some d => scanUD base t d
              | none => none) := rfl
    have hcu : c ≠ '_' := by
      rcases hchars c (List.mem_cons_self _ _) with hd | hcol
      · exact digit_ne hd (by decide)
      · rw [hcol]; decide
    rw [hstep, if_neg hcu]
    rcases hchars c (List.mem_cons_self _ _) with hd | hcol
    · have hct : ':' ∈ t := by
        rcases List.mem_cons.1 hmem with he | ht
        · exact absurd he.symm (digit_ne hd (by decide))
        · exact ht
      cases hv : digitVal? base c with
      | none => rfl
      | some d =>
        exact scanUD_colon hb t d (fun x hx => hchars x (List.mem_cons_of_mem _ hx)) hct
    · rw [hcol, digitValColon hb]

theorem scanUD_digits :
    ∀ l acc, (∀ c ∈ l, isDigitChar c = true) →
      scanUD 10 l acc = some (l.foldl (fun a c => a * 10 + (c.toNat - 48)) acc) := by
  intro l
  induction l with
  | nil => intro acc _; rfl
  | cons c t ih =>
    intro acc h
    have hd := h c (List.mem_cons_self _ _)
    unfold scanUD
    rw [if_neg (digit_ne hd (by decide)), digitVal10 hd, List.foldl_cons]
    exact ih _ (fun x hx => h x (List.mem_cons_of_mem _ hx))

theorem parseDigitsU_digits {l : List Char} (hne : l ≠ [])
    (h : ∀ c ∈ l, isDigitChar c = true) :
    parseDigitsU 10 l = some (digitsVal l) := by
  cases l with
  | nil => exact absurd rfl hne
  | cons c t =>
    have hd := h c (List.mem_cons_self _ _)
    have hstep : parseDigitsU 10 (c :: t) =
        (if c = '_' then none
         else match digitVal? 10 c with
              | some d => scanUD 10 t d
              | none => none) := rfl
    rw [hstep, if_neg (digit_ne hd (by decide)), digitVal10 hd]
    show scanUD 10 t (c.toNat - 48) = some (digitsVal (c :: t))
    rw [scanUD_digits t _ (fun x hx => h x (List.mem_cons_of_mem _ hx))]
    unfold digitsVal
    rw [List.foldl_cons]
    norm_num

theorem signSplit_nosign {c : Char} {t : List Char}
    (h1 : c ≠ '-') (h2 : c ≠ '+') : signSplit (c :: t) = (1, c :: t) := by
  have hstep : signSplit (c :: t) =
      (if c = '-' then ((-1 : Int), t) else if c = '+' then (1, t) else (1, c :: t)) := rfl
  rw [hstep, if_neg h1, if_neg h2]

theorem pyIntBase_colon {base : Nat} (hb : base ≤ 16) {l : List Char}
    (hchars : ∀ c ∈ l, isDigitChar c = true ∨ c = ':') (hmem : ':' ∈ l) :
    pyIntBase base l = none := by
  have hstrip : stripL l = l :=
    stripL_eq_self (fun c hc => by
      rcases hchars c hc with hd | hcol
      · exact pyspace_false_of_digit hd
      · rw [hcol]; decide)
  cases l with
  | nil => exact absurd hmem (List.not_mem_nil _)
  | cons c t =>
    have hc := hchars c (List.mem_cons_self _ _)
    have h1 : c ≠ '-' := by
      rcases hc with hd | hcol
      · exact digit_ne hd (by decide)
      · rw [hcol]; decide
    have h2 : c ≠ '+' := by
      rcases hc with hd | hcol
      · exact digit_ne hd (by decide)
      · rw [hcol]; decide
    show (parsePrefixed base (signSplit (stripL (c :: t))).2).map
        (fun n => (signSplit (stripL (c :: t))).1 * Int.ofNat n) = none
    rw [hstrip, signSplit_nosign h1 h2]
    cases t with
    | nil =>
      show (parseDigitsU base [c]).map _ = none
      rw [parseDigitsU_colon hb hchars hmem]
      rfl
    | cons c1 t2 =>
      have hc1 := hchars c1 (List.mem_cons_of_mem _ (List.mem_cons_self _ _))
      have hpre : parsePrefixed base (c :: c1 :: t2) = parseDigitsU base (c :: c1 :: t2) := by
        have hstep : parsePrefixed base (c :: c1 :: t2) =
            (if c = '0' ∧
                ((base = 16 ∧ (c1 = 'x' ∨ c1 = 'X')) ∨
                 (base = 8 ∧ (c1 = 'o' ∨ c1 = 'O')) ∨
                 (base = 2 ∧ (c1 = 'b' ∨ c1 = 'B'))) then
              parseAfterPrefixDigits base t2
            else parseDigitsU base (c :: c1 :: t2)) := rfl
        rw [hstep, if_neg]
        rintro ⟨-, ⟨-, hx | hx⟩ | ⟨-, hx | hx⟩ | ⟨-, hx | hx⟩⟩ <;>
          (rcases hc1 with hd | hcol
           · exact absurd hx (digit_ne hd (by decide))
           · rw [hcol] at hx; exact absurd hx (by decide))
      show (parsePrefixed base (c :: c1 :: t2)).map _ = none
      rw [hpre, parseDigitsU_colon hb hchars hmem]
      rfl

theorem pyIntBase_digits {l : List Char} (hne : l ≠ [])
    (h : ∀ c ∈ l, isDigitChar c = true) :
    pyIntBase 10 l = some ((digitsVal l : Int)) := by
  have hstrip : stripL l = l :=
    stripL_eq_self (fun c hc => pyspace_false_of_digit (h c hc))
  cases l with
  | nil => exact absurd rfl hne
  | cons c t =>
    have hd := h c (List.mem_cons_self _ _)
    show (parsePrefixed 10 (signSplit (stripL (c :: t))).2).map
        (fun n => (signSplit (stripL (c :: t))).1 * Int.ofNat n) = _
    rw [hstrip, signSplit_nosign (digit_ne hd (by decide)) (digit_ne hd (by decide))]
    cases t with
    | nil =>
      show (parseDigitsU 10 [c]).map _ = _
      rw [parseDigitsU_digits (by simp) h]
      show some ((1 : Int) * Int.ofNat (digitsVal [c])) = _
      rw [one_mul]
      rfl
    | cons c1 t2 =>
      have hpre : parsePrefixed 10 (c :: c1 :: t2) = parseDigitsU 10 (c :: c1 :: t2) := by
        have hstep : parsePrefixed 10 (c :: c1 :: t2) =
            (if c = '0' ∧
                (((10 : Nat) = 16 ∧ (c1 = 'x' ∨ c1 = 'X')) ∨
                 ((10 : Nat) = 8 ∧ (c1 = 'o' ∨ c1 = 'O')) ∨
                 ((10 : Nat) = 2 ∧ (c1 = 'b' ∨ c1 = 'B'))) then
              parseAfterPrefixDigits 10 t2
            else parseDigitsU 10 (c :: c1 :: t2)) := rfl
        rw [hstep, if_neg]
        rintro ⟨-, ⟨h16, -⟩ | ⟨h8, -⟩ | ⟨h2, -⟩⟩ <;> omega
      show (parsePrefixed 10 (c :: c1 :: t2)).map _ = _
      rw [hpre, parseDigitsU_digits (by simp) h]
      show some ((1 : Int) * Int.ofNat (digitsVal (c :: c1 :: t2))) = _
      rw [one_mul]
      rfl

theorem signedDigitCheck_false {c0 : Char} {rest : List Char}
    (hc0 : isDigitChar c0 = true ∨ c0 = '-' ∨ c0 = '+')
    (hrest : ':' ∈ rest) :
    signedDigitCheck (c0 :: rest) = .ok false := by
  unfold signedDigitCheck
  rw [if_neg]
  · show Except.ok (decide (c0 = '-' ∨ c0 = '+') && pyIsDigit rest) = Except.ok false
    rcases hc0 with hd | hs | hs
    · have h1 : decide (c0 = '-' ∨ c0 = '+') = false := by
        rw [decide_eq_false_iff_not]
        rintro (he | he) <;> exact absurd he (digit_ne hd (by decide))
      rw [h1]
      rfl
    · rw [hs, pyIsDigit_false_of_colon hrest]
      rfl
    · rw [hs, pyIsDigit_false_of_colon hrest]
      rfl
  · rw [pyIsDigit_false_of_colon (List.mem_cons_of_mem _ hrest)]
    exact Bool.noConfusion

theorem goodB60Group_facts {g : List Char} (h : goodB60Group g = true) :
    g ≠ [] ∧ ∀ c ∈ g, isDigitChar c = true := by
  rcases g with _ | ⟨c1, _ | ⟨c2, _ | ⟨c3, t⟩⟩⟩
  · exact absurd h (by decide)
  · refine ⟨by simp, ?_⟩
    intro x hx
    rw [List.mem_singleton.1 hx]
    exact h
  · have h2 : ((isDigitChar c1 && decide (c1 ≤ '5')) && isDigitChar c2) = true := h
    rw [Bool.and_eq_true, Bool.and_eq_true] at h2
    refine ⟨by simp, ?_⟩
    intro x hx
    rcases List.mem_cons.1 hx with rfl | hx2
    · exact h2.1.1
    · rw [List.mem_singleton.1 hx2]
      exact h2.2
  · exact Bool.noConfusion h

theorem splitOn_no_sep {sep : Char} : ∀ l, (∀ c ∈ l, c ≠ sep) → splitOn sep l = [l] := by
  intro l
  induction l with
  | nil => intro _; rfl
  | cons c t ih =>
    intro h
    have hstep : splitOn sep (c :: t) =
        (if c = sep then [] :: splitOn sep t
         else match splitOn sep t with
              | p :: ps => (c :: p) :: ps
              | [] => [[c]]) := rfl
    rw [hstep, if_neg (h c (List.mem_cons_self _ _)),
        ih (fun x hx => h x (List.mem_cons_of_mem _ hx))]

theorem splitOn_sep_cons {sep : Char} : ∀ pre l, (∀ c ∈ pre, c ≠ sep) →
    splitOn sep (pre ++ sep :: l) = pre :: splitOn sep l := by
  intro pre
  induction pre with
  | nil =>
    intro l _
    have hstep : splitOn sep (sep :: l) =
        (if sep = sep then [] :: splitOn sep l
         else match splitOn sep l with
              | p :: ps => (sep :: p) :: ps
              | [] => [[sep]]) := rfl
    rw [List.nil_append, hstep, if_pos rfl]
  | cons c pre ih =>
    intro l h
    have hstep : splitOn sep (c :: (pre ++ sep :: l)) =
        (if c = sep then [] :: splitOn sep (pre ++ sep :: l)
         else match splitOn sep (pre ++ sep :: l) with
              | p :: ps => (c :: p) :: ps
              | [] => [[c]]) := rfl
    rw [List.cons_append, hstep, if_neg (h c (List.mem_cons_self _ _)),
        ih l (fun x hx => h x (List.mem_cons_of_mem _ hx))]

theorem splitOn_flat : ∀ gs : List (List Char), (∀ g ∈ gs, ∀ c ∈ g, c ≠ ':') →
    ∀ pre, (∀ c ∈ pre, c ≠ ':') → splitOn ':' (pre ++ flatGroups gs) = pre :: gs := by
  intro gs
  induction gs with
  | nil =>
    intro _ pre hpre
    show splitOn ':' (pre ++ []) = [pre]
    rw [List.append_nil]
    exact splitOn_no_sep pre hpre
  | cons g rest ih =>
    intro hgs pre hpre
    show splitOn ':' (pre ++ ':' :: (g ++ flatGroups rest)) = pre :: g :: rest
    rw [splitOn_sep_cons pre _ hpre,
        ih (fun x hx => hgs x (List.mem_cons_of_mem _ hx)) g (hgs g (List.mem_cons_self _ _))]

theorem flatGroups_shape (gs : List (List Char)) :
    flatGroups gs = [] ∨ ∃ r, flatGroups gs = ':' :: r := by
  cases gs with
  | nil => exact Or.inl rfl
  | cons g rest => exact Or.inr ⟨_, rfl⟩

theorem b60group_concat {g r : List Char} (hg : goodB60Group g = true)
    (hr : b60scan false r = true) (hshape : r = [] ∨ ∃ r2, r = ':' :: r2) :
    b60scan true (g ++ r) = true := by
  rcases g with _ | ⟨c1, _ | ⟨c2, _ | ⟨c3, t⟩⟩⟩
  · exact absurd hg (by decide)
  · have hd : isDigitChar c1 = true := hg
    rcases hshape with rfl | ⟨r2, rfl⟩
    · have hstep : b60scan true [c1] = (isDigitChar c1 && (false || true)) := rfl
      show b60scan true [c1] = true
      rw [hstep, hd]
      rfl
    · have hstep : b60scan true (c1 :: ':' :: r2) =
          (isDigitChar c1 &&
            ((decide ('0' ≤ c1) && decide (c1 ≤ '5') && isDigitChar ':' && b60scan false r2)
             || b60scan false (':' :: r2))) := rfl
      show b60scan true (c1 :: ':' :: r2) = true
      rw [hstep, hd, hr, Bool.or_true]
      rfl
  · have h2 : ((isDigitChar c1 && decide (c1 ≤ '5')) && isDigitChar c2) = true := hg
    rw [Bool.and_eq_true, Bool.and_eq_true] at h2
    have hA := h2.1.1
    have hB := h2.1.2
    have hC := h2.2
    have hA2 : (decide ('0' ≤ c1) && decide (c1 ≤ '9')) = true := hA
    rw [Bool.and_eq_true] at hA2
    have hd0 : decide ('0' ≤ c1) = true := hA2.1
    have hstep : b60scan true (c1 :: c2 :: r) =
        (isDigitChar c1 &&
          ((decide ('0' ≤ c1) && decide (c1 ≤ '5') && isDigitChar c2 && b60scan false r)
           || b60scan false (c2 :: r))) := rfl
    show b60scan true (c1 :: c2 :: r) = true
    rw [hstep, hA, hd0, hB, hC, hr]
    rfl
  · exact Bool.noConfusion hg

theorem b60rest_flat : ∀ gs : List (List Char), (∀ g ∈ gs, goodB60Group g = true) →
    b60scan false (flatGroups gs) = true := by
  intro gs
  induction gs with
  | nil => intro _; rfl
  | cons g rest ih =>
    intro h
    show b60scan true (g ++ flatGroups rest) = true
    exact b60group_concat (h g (List.mem_cons_self _ _))
      (ih (fun x hx => h x (List.mem_cons_of_mem _ hx))) (flatGroups_shape rest)

theorem b60firstRun_digits : ∀ ds : List Char, ∀ l, (∀ c ∈ ds, isDigitChar c = true) →
    b60firstRun (ds ++ ':' :: l) = b60scan true l := by
  intro ds
  induction ds with
  | nil =>
    intro l _
    show b60firstRun (':' :: l) = _
    rfl
  | cons d ds ih =>
    intro l h
    have hd := h d (List.mem_cons_self _ _)
    have hstep : b60firstRun (d :: (ds ++ ':' :: l)) =
        (if d = ':' then b60group (ds ++ ':' :: l)
         else (isDigitChar d || d = '_') && b60firstRun (ds ++ ':' :: l)) := rfl
    rw [List.cons_append, hstep, if_neg (digit_ne hd (by decide)), hd,
        ih l (fun x hx => h x (List.mem_cons_of_mem _ hx))]
    rfl

theorem b60body {d0 : Char} {g0t g1 : List Char} {gsr : List (List Char)}
    (hd0 : isDigitChar d0 = true)
    (hg0t : ∀ c ∈ g0t, isDigitChar c = true)
    (hg1 : goodB60Group g1 = true) (hgsr : ∀ g ∈ gsr, goodB60Group g = true) :
    (isDigitChar d0 && b60firstRun (g0t ++ flatGroups (g1 :: gsr))) = true := by
  rw [hd0]
  show b60firstRun (g0t ++ ':' :: (g1 ++ flatGroups gsr)) = true
  rw [b60firstRun_digits g0t _ hg0t]
  exact b60group_concat hg1 (b60rest_flat gsr hgsr) (flatGroups_shape gsr)

theorem matchBase60_render {sign g0 : List Char} {gs : List (List Char)}
    (hsign : sign = [] ∨ sign = ['-'] ∨ sign = ['+'])
    (hg0ne : g0 ≠ []) (hg0 : ∀ c ∈ g0, isDigitChar c = true)
    (hgsne : gs ≠ []) (hgs : ∀ g ∈ gs, goodB60Group g = true) :
    matchBase60 (sign ++ g0 ++ flatGroups gs) = true := by
  obtain ⟨d0, g0t, rfl⟩ : ∃ d0 g0t, g0 = d0 :: g0t := by
    cases g0 with
    | nil => exact absurd rfl hg0ne
    | cons a b => exact ⟨a, b, rfl⟩
  obtain ⟨g1, gsr, rfl⟩ : ∃ g1 gsr, gs = g1 :: gsr := by
    cases gs with
    | nil => exact absurd rfl hgsne
    | cons a b => exact ⟨a, b, rfl⟩
  have hd0 := hg0 d0 (List.mem_cons_self _ _)
  have hg0t : ∀ c ∈ g0t, isDigitChar c = true :=
    fun x hx => hg0 x (List.mem_cons_of_mem _ hx)
  have hg1 := hgs g1 (List.mem_cons_self _ _)
  have hgsr : ∀ g ∈ gsr, goodB60Group g = true :=
    fun x hx => hgs x (List.mem_cons_of_mem _ hx)
  rcases hsign with rfl | rfl | rfl
  · show matchBase60 (d0 :: (g0t ++ flatGroups (g1 :: gsr))) = true
    have hstep : matchBase60 (d0 :: (g0t ++ flatGroups (g1 :: gsr))) =
        (match (signSplit (d0 :: (g0t ++ flatGroups (g1 :: gsr)))).2 with
         | c :: rest => isDigitChar c && b60firstRun rest
         | [] => false) := rfl
    rw [hstep, signSplit_nosign (digit_ne hd0 (by decide)) (digit_ne hd0 (by decide))]
    exact b60body hd0 hg0t hg1 hgsr
  · show (isDigitChar d0 && b60firstRun (g0t ++ flatGroups (g1 :: gsr))) = true
    exact b60body hd0 hg0t hg1 hgsr
  · show (isDigitChar d0 && b60firstRun (g0t ++ flatGroups (g1 :: gsr))) = true
    exact b60body hd0 hg0t hg1 hgsr

theorem base60Fold_digits :
    ∀ parts : List (List Char), ∀ acc : Int,
      (∀ p ∈ parts, p ≠ [] ∧ ∀ c ∈ p, isDigitChar c = true) →
      base60Fold (PyNum.pint acc) parts =
        .ok (.pint (parts.foldl (fun a g => a * 60 + (digitsVal g : Int)) acc)) := by
  intro parts
  induction parts with
  | nil => intro acc _; rfl
  | cons p rest ih =>
    intro acc h
    obtain ⟨hpne, hpd⟩ := h p (List.mem_cons_self _ _)
    have hnc : p.contains '.' = false :=
      containsFalse (fun c hc => digit_ne (hpd c hc) (by decide))
    have hnp : ¬(p.contains '.' = true) := by
      rw [hnc]
      exact Bool.noConfusion
    have hb : b60part p = .ok (.pint ((digitsVal p : Int))) := by
      unfold b60part
      rw [if_neg hnp, pyIntBase_digits hpne hpd]
    have hstep : base60Fold (PyNum.pint acc) (p :: rest) =
        (match b60part p with
         | .error e => .error e
         | .ok pv => base60Fold (pynumAdd (pynumMul60 (PyNum.pint acc)) pv) rest) := rfl
    rw [hstep, hb]
    show base60Fold (PyNum.pint (acc * 60 + (digitsVal p : Int))) rest = _
    rw [ih _ (fun x hx => h x (List.mem_cons_of_mem _ hx)), List.foldl_cons]

theorem specValue_eq (g0 : List Char) (gs : List (List Char)) :
    List.foldl (fun a g => a * 60 + (digitsVal g : Int)) 0 (g0 :: gs) = b60SpecValue g0 gs := by
  unfold b60SpecValue
  rw [List.foldl_cons]
  norm_num

theorem base60Eval_render {sign g0 : List Char} {gs : List (List Char)}
    (hsign : sign = [] ∨ sign = ['-'] ∨ sign = ['+'])
    (hg0ne : g0 ≠ []) (hg0 : ∀ c ∈ g0, isDigitChar c = true)
    (hgs : ∀ g ∈ gs, goodB60Group g = true) :
    base60Eval (sign ++ g0 ++ flatGroups gs) =
      .ok (.int ((if sign = ['-'] then (-1 : Int) else 1) * b60SpecValue g0 gs)) := by
  obtain ⟨d0, g0t, rfl⟩ : ∃ d0 g0t, g0 = d0 :: g0t := by
    cases g0 with
    | nil => exact absurd rfl hg0ne
    | cons a b => exact ⟨a, b, rfl⟩
  have hd0 := hg0 d0 (List.mem_cons_self _ _)
  have hflatchars : ∀ c ∈ flatGroups gs, isDigitChar c = true ∨ c = ':' := by
    intro c
    induction gs with
    | nil => intro hc; exact absurd hc (List.not_mem_nil _)
    | cons g rest ihg =>
      intro hc
      rcases List.mem_cons.1 hc with rfl | hc2
      · exact Or.inr rfl
      · rcases List.mem_append.1 hc2 with hcg | hcr
        · exact Or.inl ((goodB60Group_facts (hgs g (List.mem_cons_self _ _))).2 c hcg)
        · exact ihg (fun x hx => hgs x (List.mem_cons_of_mem _ hx)) hcr
  have hbodychars : ∀ c ∈ (d0 :: g0t) ++ flatGroups gs, isDigitChar c = true ∨ c = ':' := by
    intro c hc
    rcases List.mem_append.1 hc with hcg | hcf
    · exact Or.inl (hg0 c hcg)
    · exact hflatchars c hcf
  have hund : ∀ c ∈ (d0 :: g0t) ++ flatGroups gs, c ≠ '_' := by
    intro c hc
    rcases hbodychars c hc with hd | rfl
    · exact digit_ne hd (by decide)
    · decide
  have hsplit : splitOn ':' ((d0 :: g0t) ++ flatGroups gs) = (d0 :: g0t) :: gs :=
    splitOn_flat gs
      (fun g hg c hc =>
        digit_ne ((goodB60Group_facts (hgs g hg)).2 c hc) (by decide))
      (d0 :: g0t) (fun c hc => digit_ne (hg0 c hc) (by decide))
  have hparts : ∀ p ∈ (d0 :: g0t) :: gs, p ≠ [] ∧ ∀ c ∈ p, isDigitChar c = true := by
    intro p hp
    rcases List.mem_cons.1 hp with rfl | hp2
    · exact ⟨by simp, hg0⟩
    · exact goodB60Group_facts (hgs p hp2)
  have hgsd := hgs
  rcases hsign with rfl | rfl | rfl
  · rw [List.nil_append]
    have hfil : ((d0 :: g0t) ++ flatGroups gs).filter (fun c => c ≠ '_') =
        (d0 :: g0t) ++ flatGroups gs := filterId hund
    have hstep : base60Eval ((d0 :: g0t) ++ flatGroups gs) =
        (match base60Fold (PyNum.pint 0)
            (splitOn ':'
              (signSplit (((d0 :: g0t) ++ flatGroups gs).filter (fun c => c ≠ '_'))).2) with
         | .error e => Except.error e
         | .ok v =>
           Except.ok (pynumToValue
             (if (signSplit (((d0 :: g0t) ++ flatGroups gs).filter (fun c => c ≠ '_'))).1 = -1
              then pynumNeg v else v))) := rfl
    rw [hstep, hfil, List.cons_append,
        signSplit_nosign (digit_ne hd0 (by decide)) (digit_ne hd0 (by decide)),
        ← List.cons_append, hsplit, base60Fold_digits _ 0 hparts]
    show Except.ok (Value.int
        (List.foldl (fun a g => a * 60 + (digitsVal g : Int)) 0 ((d0 :: g0t) :: gs))) = _
    rw [specValue_eq, if_neg (show ¬(([] : List Char) = ['-']) by decide), one_mul]
  · have hfil : ('-' :: ((d0 :: g0t) ++ flatGroups gs)).filter (fun c => c ≠ '_') =
        '-' :: ((d0 :: g0t) ++ flatGroups gs) := by
      refine filterId ?_
      intro c hc
      rcases List.mem_cons.1 hc with rfl | hc2
      · decide
      · exact hund c hc2
    show base60Eval ('-' :: ((d0 :: g0t) ++ flatGroups gs)) = _
    have hstep : base60Eval ('-' :: ((d0 :: g0t) ++ flatGroups gs)) =
        (match base60Fold (PyNum.pint 0)
            (splitOn ':'
              (signSplit (('-' :: ((d0 :: g0t) ++ flatGroups gs)).filter
                (fun c => c ≠ '_'))).2) with
         | .error e => Except.error e
         | .ok v =>
           Except.ok (pynumToValue
             (if (signSplit (('-' :: ((d0 :: g0t) ++ flatGroups gs)).filter
                  (fun c => c ≠ '_'))).1 = -1
              then pynumNeg v else v))) := rfl
    rw [hstep, hfil]
    show (match base60Fold (PyNum.pint 0) (splitOn ':' ((d0 :: g0t) ++ flatGroups gs)) with
          | .error e => Except.error e
          | .ok v =>
            Except.ok (pynumToValue (if (-1 : Int) = -1 then pynumNeg v else v))) = _
    rw [hsplit, base60Fold_digits _ 0 hparts]
    show Except.ok (Value.int
        (-(List.foldl (fun a g => a * 60 + (digitsVal g : Int)) 0 ((d0 :: g0t) :: gs)))) = _
    rw [specValue_eq, if_pos rfl, neg_one_mul]
  · have hfil : ('+' :: ((d0 :: g0t) ++ flatGroups gs)).filter (fun c => c ≠ '_') =
        '+' :: ((d0 :: g0t) ++ flatGroups gs) := by
      refine filterId ?_
      intro c hc
      rcases List.mem_cons.1 hc with rfl | hc2
      · decide
      · exact hund c hc2
    show base60Eval ('+' :: ((d0 :: g0t) ++ flatGroups gs)) = _
    have hstep : base60Eval ('+' :: ((d0 :: g0t) ++ flatGroups gs)) =
        (match base60Fold (PyNum.pint 0)
            (splitOn ':'
              (signSplit (('+' :: ((d0 :: g0t) ++ flatGroups gs)).filter
                (fun c => c ≠ '_'))).2) with
         | .error e => Except.error e
         | .ok v =>
           Except.ok (pynumToValue
             (if (signSplit (('+' :: ((d0 :: g0t) ++ flatGroups gs)).filter
                  (fun c => c ≠ '_'))).1 = -1
              then pynumNeg v else v))) := rfl
    rw [hstep, hfil]
    show (match base60Fold (PyNum.pint 0) (splitOn ':' ((d0 :: g0t) ++ flatGroups gs)) with
          | .error e => Except.error e
          | .ok v =>
            Except.ok (pynumToValue (if (1 : Int) = -1 then pynumNeg v else v))) = _
    rw [hsplit, base60Fold_digits _ 0 hparts]
    show Except.ok (Value.int
        (List.foldl (fun a g => a * 60 + (digitsVal g : Int)) 0 ((d0 :: g0t) :: gs))) = _
    rw [specValue_eq, if_neg (show ¬((['+'] : List Char) = ['-']) by decide), one_mul]

theorem decode_to_b60 {c0 : Char} {rest0 : List Char}
    (hc0 : isDigitChar c0 = true ∨ c0 = '-' ∨ c0 = '+')
    (hrest : ∀ c ∈ rest0, isDigitChar c = true ∨ c = ':')
    (hcol : ':' ∈ rest0)
    (hm60 : matchBase60 (c0 :: rest0) = true) :
    decode_value (String.mk (c0 :: rest0)) = base60Eval (c0 :: rest0) := by
  have hc0ne : ∀ d : Char, isDigitChar d = false → d ≠ '-' → d ≠ '+' → c0 ≠ d := by
    intro d hd h1 h2
    rcases hc0 with hdig | rfl | rfl
    · exact digit_ne hdig hd
    · exact fun he => h1 he.symm
    · exact fun he => h2 he.symm
  have hq1 : matchQuotedValue quoteChar (c0 :: rest0) = none := by
    have hstep : matchQuotedValue quoteChar (c0 :: rest0) =
        (if c0 = quoteChar then (splitAtLastQuote quoteChar rest0).map Prod.fst
         else none) := rfl
    rw [hstep, if_neg (hc0ne quoteChar (by decide) (by decide) (by decide))]
  have hq2 : matchQuotedValue '"' (c0 :: rest0) = none := by
    have hstep : matchQuotedValue '"' (c0 :: rest0) =
        (if c0 = '"' then (splitAtLastQuote '"' rest0).map Prod.fst
         else none) := rfl
    rw [hstep, if_neg (hc0ne '"' (by decide) (by decide) (by decide))]
  have hstrip : stripValueComment (c0 :: rest0) = c0 :: rest0 := by
    refine stripValueComment_eq_self ?_
    intro c hc
    rcases List.mem_cons.1 hc with rfl | hc2
    · exact hc0ne ' ' (by decide) (by decide) (by decide)
    · rcases hrest c hc2 with hd | rfl
      · exact digit_ne hd (by decide)
      · decide
  have hne : ∀ (d : Char) (l : List Char), isDigitChar d = false → d ≠ '-' → d ≠ '+' →
      c0 :: rest0 ≠ d :: l := by
    intro d l hd h1 h2 he
    exact hc0ne d hd h1 h2 (List.cons.inj he).1
  have hne_true : ¬(c0 :: rest0 = "true".toList) :=
    hne 't' _ (by decide) (by decide) (by decide)
  have hne_false : ¬(c0 :: rest0 = "false".toList) :=
    hne 'f' _ (by decide) (by decide) (by decide)
  have hne_null : ¬(c0 :: rest0 = "~".toList ∨ c0 :: rest0 = "null".toList ∨
      c0 :: rest0 = "Null".toList ∨ c0 :: rest0 = "NULL".toList) := by
    rintro (he | he | he | he)
    · exact hne '~' _ (by decide) (by decide) (by decide) he
    · exact hne 'n' _ (by decide) (by decide) (by decide) he
    · exact hne 'N' _ (by decide) (by decide) (by decide) he
    · exact hne 'N' _ (by decide) (by decide) (by decide) he
  have hund : ∀ c ∈ c0 :: rest0, c ≠ '_' := by
    intro c hc
    rcases List.mem_cons.1 hc with rfl | hc2
    · exact hc0ne '_' (by decide) (by decide) (by decide)
    · rcases hrest c hc2 with hd | rfl
      · exact digit_ne hd (by decide)
      · decide
  have hfil : (c0 :: rest0).filter (fun c => c ≠ '_') = c0 :: rest0 := filterId hund
  have hcont : (c0 :: rest0).contains '_' = false := containsFalse hund
  have hsdc : signedDigitCheck (c0 :: rest0) = .ok false := signedDigitCheck_false hc0 hcol
  obtain ⟨c1, r1, rfl⟩ : ∃ c1 r1, rest0 = c1 :: r1 := by
    cases rest0 with
    | nil => exact absurd hcol (List.not_mem_nil _)
    | cons a b => exact ⟨a, b, rfl⟩
  have hc1 := hrest c1 (List.mem_cons_self _ _)
  show decode_value (String.mk (c0 :: c1 :: r1)) = base60Eval (c0 :: c1 :: r1)
  unfold decode_value
  rw [show (String.mk (c0 :: c1 :: r1)).toList = c0 :: c1 :: r1 from rfl]
  simp only []
  rw [hq1]
  simp only []
  rw [hq2]
  simp only []
  rw [hstrip]
  rw [if_neg hne_true, if_neg hne_false, if_neg hne_null]
  simp only []
  by_cases hc0z : c0 = '0'
  · subst hc0z
    rw [if_pos rfl]
    rw [hfil]
    rw [if_neg, if_neg, if_neg]
    · simp only []
      rw [hsdc]
      simp only []
      rw [hcont, if_neg Bool.false_ne_true]
      simp only []
      rw [hm60, if_pos rfl]
    · -- octal test fails: the tail contains a colon
      have hoct : is_oct ((('0' : Char) :: c1 :: r1).drop 1) = false := by
        show (pyIntBase 8 (c1 :: r1)).isSome = false
        rw [pyIntBase_colon (by omega) hrest hcol]
        rfl
      rw [hoct]
      exact Bool.false_ne_true
    · rintro ⟨hb, -⟩
      rcases hc1 with hd | rfl
      · exact absurd hb (digit_ne hd (by decide))
      · exact absurd hb (by decide)
    · rintro ⟨hx, -⟩
      rcases hc1 with hd | rfl
      · exact absurd hx (digit_ne hd (by decide))
      · exact absurd hx (by decide)
  · rw [if_neg hc0z]
    simp only []
    rw [hsdc]
    simp only []
    rw [hcont, if_neg Bool.false_ne_true]
    simp only []
    rw [hm60, if_pos rfl]

theorem flatGroups_chars : ∀ gs : List (List Char), (∀ g ∈ gs, goodB60Group g = true) →
    ∀ c ∈ flatGroups gs, isDigitChar c = true ∨ c = ':' := by
  intro gs
  induction gs with
  | nil => intro _ c hc; exact absurd hc (List.not_mem_nil _)
  | cons g rest ih =>
    intro h c hc
    rcases List.mem_cons.1 hc with rfl | hc2
    · exact Or.inr rfl
    · rcases List.mem_append.1 hc2 with hcg | hcr
      · exact Or.inl ((goodB60Group_facts (h g (List.mem_cons_self _ _))).2 c hcg)
      · exact ih (fun x hx => h x (List.mem_cons_of_mem _ hx)) c hcr

/-- C4: for every sign-optional colon-separated sexagesimal token — an
optional sign, a nonempty run of decimal digits, then one or more colon
groups each matching [0-5]?[0-9] — the scalar decoder returns the
integer accumulated left-to-right as value = value * 60 + group over
the decimal values of the groups, negated for a leading minus sign (so
in particular 1:30 decodes to 90 and -1:30 to -90, as the witness
below evaluates). -/
theorem base60_accumulates (sign g0 : List Char) (gs : List (List Char))
    (hsign : sign = [] ∨ sign = ['-'] ∨ sign = ['+'])
    (hg0ne : g0 ≠ []) (hg0 : ∀ c ∈ g0, isDigitChar c = true)
    (hgsne : gs ≠ []) (hgs : ∀ g ∈ gs, goodB60Group g = true) :
    decode_value (renderB60 sign g0 gs) =
      .ok (.int ((if sign = ['-'] then (-1 : Int) else 1) * b60SpecValue g0 gs)) := by
  obtain ⟨d0, g0t, rfl⟩ : ∃ d0 g0t, g0 = d0 :: g0t := by
    cases g0 with
    | nil => exact absurd rfl hg0ne
    | cons a b => exact ⟨a, b, rfl⟩
  obtain ⟨g1, gsr, rfl⟩ : ∃ g1 gsr, gs = g1 :: gsr := by
    cases gs with
    | nil => exact absurd rfl hgsne
    | cons a b => exact ⟨a, b, rfl⟩
  have hd0 := hg0 d0 (List.mem_cons_self _ _)
  have hg0t : ∀ c ∈ g0t, isDigitChar c = true :=
    fun x hx => hg0 x (List.mem_cons_of_mem _ hx)
  have hflat := flatGroups_chars (g1 :: gsr) hgs
  have hcolflat : ':' ∈ flatGroups (g1 :: gsr) :=
    show ':' ∈ ':' :: (g1 ++ flatGroups gsr) from List.mem_cons_self _ _
  have hm60 := matchBase60_render hsign (List.cons_ne_nil _ _) hg0
    (List.cons_ne_nil _ _) hgs
  have heval := base60Eval_render hsign (List.cons_ne_nil _ _) hg0 hgs
  rcases hsign with rfl | rfl | rfl
  · have hrest : ∀ c ∈ g0t ++ flatGroups (g1 :: gsr), isDigitChar c = true ∨ c = ':' := by
      intro c hc
      rcases List.mem_append.1 hc with hcg | hcf
      · exact Or.inl (hg0t c hcg)
      · exact hflat c hcf
    have hcol : ':' ∈ g0t ++ flatGroups (g1 :: gsr) :=
      List.mem_append.2 (Or.inr hcolflat)
    show decode_value (String.mk (d0 :: (g0t ++ flatGroups (g1 :: gsr)))) = _
    rw [decode_to_b60 (Or.inl hd0) hrest hcol hm60]
    exact heval
  · have hrest : ∀ c ∈ (d0 :: g0t) ++ flatGroups (g1 :: gsr),
        isDigitChar c = true ∨ c = ':' := by
      intro c hc
      rcases List.mem_append.1 hc with hcg | hcf
      · exact Or.inl (hg0 c hcg)
      · exact hflat c hcf
    have hcol : ':' ∈ (d0 :: g0t) ++ flatGroups (g1 :: gsr) :=
      List.mem_append.2 (Or.inr hcolflat)
    show decode_value (String.mk ('-' :: ((d0 :: g0t) ++ flatGroups (g1 :: gsr)))) = _
    rw [decode_to_b60 (Or.inr (Or.inl rfl)) hrest hcol hm60]
    exact heval
  · have hrest : ∀ c ∈ (d0 :: g0t) ++ flatGroups (g1 :: gsr),
        isDigitChar c = true ∨ c = ':' := by
      intro c hc
      rcases List.mem_append.1 hc with hcg | hcf
      · exact Or.inl (hg0 c hcg)
      · exact hflat c hcf
    have hcol : ':' ∈ (d0 :: g0t) ++ flatGroups (g1 :: gsr) :=
      List.mem_append.2 (Or.inr hcolflat)
    show decode_value (String.mk ('+' :: ((d0 :: g0t) ++ flatGroups (g1 :: gsr)))) = _
    rw [decode_to_b60 (Or.inr (Or.inr rfl)) hrest hcol hm60]
    exact heval

/-- Witness for the sexagesimal theorem at the two examples of the
claim: 1:30 decodes to the integer 90 and -1:30 to -90. -/
theorem base60_accumulates_witness :
    decode_value "1:30" = .ok (.int 90) ∧ decode_value "-1:30" = .ok (.int (-90)) := by
  constructor
  · have h := base60_accumulates [] ['1'] [['3', '0']] (Or.inl rfl)
      (by decide) (by decide) (by decide) (by decide)
    exact h.trans rfl
  · have h := base60_accumulates ['-'] ['1'] [['3', '0']] (Or.inr (Or.inl rfl))
      (by decide) (by decide) (by decide) (by decide)
    exact h.trans rfl

/-! ## Auxiliary lemmas for the flat-mapping development -/

theorem dropWhile_eq_self_of_head {p : Char → Bool} {l : List Char}
    (h : ∀ c, l.head? = some c → p c = false) : l.dropWhile p = l := by
  cases l with
  | nil => rfl
  | cons c t => simp [List.dropWhile_cons, h c rfl]

theorem rstripL_last {l : List Char}
    (h : ∀ c, l.getLast? = some c → isPySpace c = false) : rstripL l = l := by
  unfold rstripL
  rw [dropWhile_eq_self_of_head (fun c hc => h c (by rw [← List.head?_reverse]; exact hc)),
      List.reverse_reverse]

theorem nonspace_ne {c : Char} (h : isPySpace c = false) : c ≠ ' ' := by
  intro he
  rw [he] at h
  exact absurd h (by decide)

theorem firstClass_spec {c : Char} (h : firstClass c = true) :
    (c ≠ '-' ∧ c ≠ '?' ∧ c ≠ ':' ∧ c ≠ ',' ∧ c ≠ '.' ∧ c ≠ '[' ∧ c ≠ ']' ∧
     c ≠ '{' ∧ c ≠ '}' ∧ c ≠ '#' ∧ c ≠ '&' ∧ c ≠ '*' ∧ c ≠ '!' ∧ c ≠ '|' ∧
     c ≠ '>' ∧ c ≠ quoteChar ∧ c ≠ '"' ∧ c ≠ '%' ∧ c ≠ '@' ∧ c ≠ Char.ofNat 96) ∧
    isPySpace c = false := by
  unfold firstClass at h
  rw [Bool.and_eq_true] at h
  refine ⟨of_decide_eq_true h.1, ?_⟩
  have h2 := h.2
  cases hps : isPySpace c
  · rfl
  · rw [hps] at h2
    exact absurd h2 (by decide)

theorem aClass_spec {c : Char} (h : aClass c = true) :
    c ≠ ',' ∧ c ≠ '[' ∧ c ≠ ']' ∧ c ≠ '{' ∧ c ≠ '}' ∧ c ≠ ':' ∧ c ≠ '#' ∧ c ≠ '\t' :=
  of_decide_eq_true h

theorem keyChar_spec {c : Char} (h : keyChar c = true) :
    aClass c = true ∧ isPySpace c = false := by
  unfold keyChar at h
  rw [Bool.and_eq_true] at h
  refine ⟨h.1, ?_⟩
  have h2 := h.2
  cases hps : isPySpace c
  · rfl
  · rw [hps] at h2
    exact absurd h2 (by decide)

theorem goodKey_spec {kc : List Char} (h : goodKey kc = true) :
    ∃ k0 krest, kc = k0 :: krest ∧ firstClass k0 = true ∧ ∀ c ∈ krest, keyChar c = true := by
  cases kc with
  | nil => exact absurd h (by decide)
  | cons k0 krest =>
    have h2 : (firstClass k0 && krest.all keyChar) = true := h
    rw [Bool.and_eq_true] at h2
    exact ⟨k0, krest, rfl, h2.1, List.all_eq_true.1 h2.2⟩

theorem goodVal_spec {vc : List Char} (h : goodVal vc = true) :
    vc ≠ [] ∧ (∀ c, vc.head? = some c → c ≠ ' ' ∧ c ≠ '#') ∧
    (∀ c, vc.getLast? = some c → isPySpace c = false) := by
  unfold goodVal at h
  rw [Bool.and_eq_true] at h
  obtain ⟨h1, h2⟩ := h
  cases vc with
  | nil => exact Bool.noConfusion h1
  | cons v0 vt =>
    have h1b : (decide (v0 ≠ ' ') && decide (v0 ≠ '#')) = true := h1
    rw [Bool.and_eq_true] at h1b
    refine ⟨by simp, ?_, ?_⟩
    · intro c hc
      cases hc
      exact ⟨of_decide_eq_true h1b.1, of_decide_eq_true h1b.2⟩
    · intro c hc
      rw [hc] at h2
      have h2b : (!isPySpace c) = true := h2
      cases hps : isPySpace c
      · rfl
      · rw [hps] at h2b
        exact absurd h2b (by decide)

theorem keyTail_boundary {vc : List Char} (hh : ∀ c, vc.head? = some c → c ≠ ' ') :
    keyTail (':' :: ' ' :: vc) = some (some vc) := by
  have h1 : keyTail (':' :: ' ' :: vc) =
      some (some (vc.dropWhile (fun x => x = ' '))) := rfl
  rw [h1, dropWhile_eq_self_of_head (fun c hc => decide_eq_false (hh c hc))]

theorem keyTail_inner {c : Char} {t : List Char}
    (hca : aClass c = true) (hcs : isPySpace c = false)
    (hsnd : ∀ d, t.head? = some d → d ≠ ' ') :
    keyTail (c :: t) = none := by
  have hcond : ¬((c :: t).head? = some '<' ∧ ((c :: t).drop 1).head? = some ' ') := by
    rintro ⟨-, h2⟩
    exact hsnd ' ' h2 rfl
  have hdw : (c :: t).dropWhile (fun x => x = ' ') = c :: t :=
    dropWhile_eq_self_of_head (fun d hd => by cases hd; exact decide_eq_false (nonspace_ne hcs))
  unfold keyTail
  rw [if_neg hcond, hdw]
  simp only []
  rw [if_neg (aClass_spec hca).2.2.2.2.2.1]

theorem bareKeyLoop_flat {vc : List Char} (hvh : ∀ c, vc.head? = some c → c ≠ ' ') :
    ∀ krest : List Char, (∀ c ∈ krest, keyChar c = true) →
      bareKeyLoop (krest ++ ':' :: ' ' :: vc) = some (krest, some vc) := by
  intro krest
  induction krest with
  | nil =>
    intro _
    show bareKeyLoop (':' :: ' ' :: vc) = some ([], some vc)
    rw [bareKeyLoop, keyTail_boundary hvh]
  | cons c krest ih =>
    intro h
    obtain ⟨hca, hcs⟩ := keyChar_spec (h c (List.mem_cons_self _ _))
    have hkr : ∀ x ∈ krest, keyChar x = true :=
      fun x hx => h x (List.mem_cons_of_mem _ hx)
    have hsnd : ∀ d, (krest ++ ':' :: ' ' :: vc).head? = some d → d ≠ ' ' := by
      cases krest with
      | nil =>
        intro d hd
        cases hd
        decide
      | cons k2 kr2 =>
        intro d hd
        cases hd
        exact nonspace_ne (keyChar_spec (hkr k2 (List.mem_cons_self _ _))).2
    have hkt : keyTail (c :: (krest ++ ':' :: ' ' :: vc)) = none :=
      keyTail_inner hca hcs hsnd
    show bareKeyLoop (c :: (krest ++ ':' :: ' ' :: vc)) = some (c :: krest, some vc)
    cases krest with
    | nil =>
      have hkt2 : keyTail (c :: ':' :: ' ' :: vc) = none := hkt
      have ih2 : bareKeyLoop (':' :: ' ' :: vc) = some ([], some vc) := ih hkr
      show bareKeyLoop (c :: ':' :: ' ' :: vc) = some ([c], some vc)
      rw [bareKeyLoop, hkt2]
      simp only []
      rw [if_pos hca, ih2]
      rfl
    | cons k2 kr2 =>
      have hkt2 : keyTail (c :: k2 :: (kr2 ++ ':' :: ' ' :: vc)) = none := hkt
      have ih2 : bareKeyLoop (k2 :: (kr2 ++ ':' :: ' ' :: vc)) = some (k2 :: kr2, some vc) := by
        rw [← List.cons_append]
        exact ih hkr
      show bareKeyLoop (c :: k2 :: (kr2 ++ ':' :: ' ' :: vc)) = some (c :: k2 :: kr2, some vc)
      rw [bareKeyLoop, hkt2]
      simp only []
      rw [if_pos hca, ih2]
      rfl

theorem matchKeyAll_flat {k0 : Char} {krest vc : List Char}
    (hk0 : firstClass k0 = true) (hkr : ∀ c ∈ krest, keyChar c = true)
    (hvh : ∀ c, vc.head? = some c → c ≠ ' ') :
    matchKeyAll ((k0 :: krest) ++ ':' :: ' ' :: vc) = some (k0 :: krest, some vc) := by
  obtain ⟨hfc, -⟩ := firstClass_spec hk0
  have hdq : matchQuotedKey '"' (k0 :: (krest ++ ':' :: ' ' :: vc)) = none := by
    have hstep : matchQuotedKey '"' (k0 :: (krest ++ ':' :: ' ' :: vc)) =
        (if k0 = '"' then quotedKeySplit '"' (krest ++ ':' :: ' ' :: vc) else none) := rfl
    rw [hstep, if_neg hfc.2.2.2.2.2.2.2.2.2.2.2.2.2.2.2.2.1]
  have hsq : matchQuotedKey quoteChar (k0 :: (krest ++ ':' :: ' ' :: vc)) = none := by
    have hstep : matchQuotedKey quoteChar (k0 :: (krest ++ ':' :: ' ' :: vc)) =
        (if k0 = quoteChar then quotedKeySplit quoteChar (krest ++ ':' :: ' ' :: vc)
         else none) := rfl
    rw [hstep, if_neg hfc.2.2.2.2.2.2.2.2.2.2.2.2.2.2.2.1]
  rw [List.cons_append]
  unfold matchKeyAll
  rw [hdq]
  simp only []
  rw [hsq]
  simp only []
  have hbk : matchBareKey (k0 :: (krest ++ ':' :: ' ' :: vc)) =
      (if firstClass k0 = true then
         (bareKeyLoop (krest ++ ':' :: ' ' :: vc)).map (fun r => (k0 :: r.1, r.2))
       else none) := rfl
  rw [hbk, if_pos hk0, bareKeyLoop_flat hvh krest hkr]
  rfl

theorem popLoop_zero (n : Int) (ris : Bool) (cur : Option Container) :
    popLoop (stZero n ris cur) 0 = .ok (stZero n ris cur) := rfl

theorem dashBody_noDash (R : LoadState → List Char → Int →
      Except PyErr (LoadState × List Char × Int))
    (st : LoadState) {c : Char} {rest : List Char} {i : Int} (hc : c ≠ '-') :
    dashBody R st (c :: rest) i = .ok (st, c :: rest, i) := by
  unfold dashBody
  simp only []
  rw [if_neg]
  rintro ⟨h, -⟩
  exact hc h

theorem dashLoop_noDash (fuel : Nat) (st : LoadState) {c : Char} {rest : List Char}
    {i : Int} (hc : c ≠ '-') :
    dashLoop (fuel + 1) st (c :: rest) i = .ok (st, c :: rest, i) := by
  have h1 : dashLoop (fuel + 1) st (c :: rest) i = dashBody (dashLoop fuel) st (c :: rest) i :=
    rfl
  rw [h1, dashBody_noDash _ _ hc]

theorem handleKeyLine_stZero_same (n : Int) (es : List (String × Value))
    {kc vc : List Char} {w : Value}
    (hvne : vc ≠ [])
    (hvh : ∀ c, vc.head? = some c → c ≠ '#')
    (hdec : decode_value (String.mk vc) = .ok w) :
    handleKeyLine (stZero n true (some (.cmap es))) kc (some vc) 0 =
      .ok (stZero n true (some (.cmap (dictSet es (String.mk kc) w)))) := by
  cases vc with
  | nil => exact absurd rfl hvne
  | cons v0 vt =>
    unfold handleKeyLine
    simp only [Option.getD]
    rw [if_neg (hvh v0 rfl)]
    rw [hdec]
    rfl

theorem handleKeyLine_stZero_init (n : Int)
    {kc vc : List Char} {w : Value}
    (hvne : vc ≠ [])
    (hvh : ∀ c, vc.head? = some c → c ≠ '#')
    (hdec : decode_value (String.mk vc) = .ok w) :
    handleKeyLine (stZero n false none) kc (some vc) 0 =
      .ok (stZero n true (some (.cmap [(String.mk kc, w)]))) := by
  cases vc with
  | nil => exact absurd rfl hvne
  | cons v0 vt =>
    unfold handleKeyLine
    simp only [Option.getD]
    rw [if_neg (hvh v0 rfl)]
    rw [hdec]
    rfl

theorem processLineCore_keyline_ok {m : Int} {ris : Bool} {cur : Option Container}
    {k0 : Char} {krest vc : List Char} {st4 : LoadState}
    (hk0 : firstClass k0 = true) (hkr : ∀ c ∈ krest, keyChar c = true)
    (hv : goodVal vc = true)
    (hhk : handleKeyLine (stZero m ris cur) (k0 :: krest) (some vc) 0 = .ok st4) :
    processLineCore (stZero m ris cur) (String.mk ((k0 :: krest) ++ ':' :: ' ' :: vc)) =
      .ok (.cont st4) := by
  obtain ⟨hvne, hvhead, hvlast⟩ := goodVal_spec hv
  obtain ⟨hfc, hfs⟩ := firstClass_spec hk0
  have hlc : (String.mk ((k0 :: krest) ++ ':' :: ' ' :: vc)).toList =
      k0 :: (krest ++ ':' :: ' ' :: vc) := by
    rw [show (String.mk ((k0 :: krest) ++ ':' :: ' ' :: vc)).toList =
        (k0 :: krest) ++ ':' :: ' ' :: vc from rfl, List.cons_append]
  have hlast : (k0 :: (krest ++ ':' :: ' ' :: vc)).getLast? = vc.getLast? := by
    rw [← List.cons_append,
        List.getLast?_append_of_ne_nil _ (show ':' :: ' ' :: vc ≠ [] by simp),
        show (':' :: ' ' :: vc) = [':', ' '] ++ vc from rfl,
        List.getLast?_append_of_ne_nil _ hvne]
  have hrst : rstripL (k0 :: (krest ++ ':' :: ' ' :: vc)) =
      k0 :: (krest ++ ':' :: ' ' :: vc) :=
    rstripL_last (fun c hc => hvlast c (by rw [← hlast]; exact hc))
  have hlst : lstripL (k0 :: (krest ++ ':' :: ' ' :: vc)) =
      k0 :: (krest ++ ':' :: ' ' :: vc) :=
    dropWhile_eq_self_of_head (fun c hc => by cases hc; exact hfs)
  have hmka : matchKeyAll (k0 :: (krest ++ ':' :: ' ' :: vc)) =
      some (k0 :: krest, some vc) := by
    rw [← List.cons_append]
    exact matchKeyAll_flat hk0 hkr (fun c hc => (hvhead c hc).1)
  unfold processLineCore
  rw [hlc, hrst]
  rw [if_neg (show ¬(k0 :: (krest ++ ':' :: ' ' :: vc) = []) by simp)]
  rw [if_neg (show ¬(k0 :: (krest ++ ':' :: ' ' :: vc) = "---".toList) from
        fun he => hfc.1 (List.cons.inj he).1)]
  rw [hlst]
  simp only []
  rw [sub_self]
  rw [if_neg hfc.2.2.2.2.2.2.2.2.2.1]
  rw [if_neg (show ¬((0 : Int) = 0 ∧ k0 = '%') from
        fun hpair => hfc.2.2.2.2.2.2.2.2.2.2.2.2.2.2.2.2.2.1 hpair.2)]
  simp only []
  rw [popLoop_zero]
  simp only []
  rw [dashLoop_noDash _ _ hfc.1]
  simp only []
  rw [hmka]
  simp only []
  rw [hhk]

theorem processLine_keyline_ok {n : Int} {ris : Bool} {cur : Option Container}
    {k0 : Char} {krest vc : List Char} {st4 : LoadState}
    (hk0 : firstClass k0 = true) (hkr : ∀ c ∈ krest, keyChar c = true)
    (hv : goodVal vc = true)
    (hhk : handleKeyLine (stZero (n + 1) ris cur) (k0 :: krest) (some vc) 0 = .ok st4) :
    processLine (stZero n ris cur) (String.mk ((k0 :: krest) ++ ':' :: ' ' :: vc)) =
      .cont st4 := by
  unfold processLine
  simp only []
  have hst1 : { stZero n ris cur with lineno := (stZero n ris cur).lineno + 1 } =
      stZero (n + 1) ris cur := rfl
  rw [hst1, processLineCore_keyline_ok hk0 hkr hv hhk]

theorem loadAux_flat : ∀ ps : List (List Char × List Char × Value), ∀ n : Int,
    ∀ es : List (String × Value),
    (∀ p ∈ ps, goodKey p.1 = true ∧ goodVal p.2.1 = true ∧
       decode_value (String.mk p.2.1) = .ok p.2.2) →
    loadAux (stZero n true (some (.cmap es))) (ps.map lineOf) =
      (.ok (.map (ps.foldl (fun acc p => dictSet acc (String.mk p.1) p.2.2) es)), []) := by
  intro ps
  induction ps with
  | nil => intro n es _; rfl
  | cons p ps ih =>
    intro n es h
    obtain ⟨hk, hv, hdec⟩ := h p (List.mem_cons_self _ _)
    obtain ⟨k0, krest, hp1, hk0, hkr⟩ := goodKey_spec hk
    obtain ⟨hvne, hvhead, -⟩ := goodVal_spec hv
    have hhk : handleKeyLine (stZero (n + 1) true (some (.cmap es))) (k0 :: krest)
        (some p.2.1) 0 =
        .ok (stZero (n + 1) true
          (some (.cmap (dictSet es (String.mk (k0 :: krest)) p.2.2)))) :=
      handleKeyLine_stZero_same (n + 1) es hvne (fun c hc => (hvhead c hc).2) hdec
    have hpl : processLine (stZero n true (some (.cmap es))) (lineOf p) =
        .cont (stZero (n + 1) true
          (some (.cmap (dictSet es (String.mk p.1) p.2.2)))) := by
      show processLine (stZero n true (some (.cmap es)))
          (String.mk (p.1 ++ ':' :: ' ' :: p.2.1)) = _
      rw [hp1]
      exact processLine_keyline_ok hk0 hkr hv hhk
    show loadAux (stZero n true (some (.cmap es))) (lineOf p :: ps.map lineOf) = _
    unfold loadAux
    rw [hpl]
    simp only []
    rw [ih (n + 1) _ (fun q hq => h q (List.mem_cons_of_mem _ hq))]
    rfl

theorem dictSet_fresh : ∀ es : List (String × Value), ∀ k : String, ∀ v : Value,
    (∀ q ∈ es, q.1 ≠ k) → dictSet es k v = es ++ [(k, v)] := by
  intro es
  induction es with
  | nil => intro k v _; rfl
  | cons q es ih =>
    intro k v h
    obtain ⟨q1, q2⟩ := q
    show (if q1 = k then (q1, v) :: es else (q1, q2) :: dictSet es k v) =
      ((q1, q2) :: es) ++ [(k, v)]
    rw [if_neg (h (q1, q2) (List.mem_cons_self _ _)),
        ih k v (fun x hx => h x (List.mem_cons_of_mem _ hx))]
    rfl

theorem foldl_dictSet_fresh : ∀ ps : List (List Char × List Char × Value),
    ∀ es : List (String × Value),
    (∀ p ∈ ps, ∀ q ∈ es, q.1 ≠ String.mk p.1) →
    (ps.map (fun p => String.mk p.1)).Nodup →
    ps.foldl (fun acc p => dictSet acc (String.mk p.1) p.2.2) es =
      es ++ ps.map entryOf := by
  intro ps
  induction ps with
  | nil =>
    intro es _ _
    show es = es ++ []
    rw [List.append_nil]
  | cons p ps ih =>
    intro es hfresh hnodup
    have hnd := hnodup
    rw [List.map_cons, List.nodup_cons] at hnd
    obtain ⟨hnotmem, hnodup2⟩ := hnd
    show ps.foldl (fun acc p => dictSet acc (String.mk p.1) p.2.2)
        (dictSet es (String.mk p.1) p.2.2) = es ++ (p :: ps).map entryOf
    rw [dictSet_fresh es _ _ (fun q hq => hfresh p (List.mem_cons_self _ _) q hq)]
    rw [ih (es ++ [(String.mk p.1, p.2.2)]) ?fresh2 hnodup2]
    · rw [List.append_assoc]
      rfl
    case fresh2 =>
      intro p2 hp2 q hq
      rcases List.mem_append.1 hq with hq1 | hq2
      · exact hfresh p2 (List.mem_cons_of_mem _ hp2) q hq1
      · rw [List.mem_singleton.1 hq2]
        intro he
        have he2 : (String.mk p.1) = String.mk p2.1 := he
        apply hnotmem
        rw [he2]
        exact List.mem_map_of_mem _ hp2

/-- C1 (amended): for every nonempty sequence of key-value lines
k: v with well-formed distinct bare keys and well-formed nonempty
scalar values, all at indentation zero, load returns a Mapping whose
keys are exactly those keys in file order, each mapped to the
scalar-decoded value of its v (and no warnings).  The original claim
allowed an arbitrary common indentation; the counterexample theorem
shows a flat mapping indented by two spaces fails, because the root
mapping is created without recording its indentation. -/
theorem flat_mapping_zero_indent (ps : List (List Char × List Char × Value))
    (hne : ps ≠ [])
    (hgood : ∀ p ∈ ps, goodKey p.1 = true ∧ goodVal p.2.1 = true ∧
       decode_value (String.mk p.2.1) = .ok p.2.2)
    (hnodup : (ps.map (fun p => String.mk p.1)).Nodup) :
    load (ps.map lineOf) = (.ok (.map (ps.map entryOf)), []) := by
  obtain ⟨p0, ps2, rfl⟩ : ∃ p0 ps2, ps = p0 :: ps2 := by
    cases ps with
    | nil => exact absurd rfl hne
    | cons a b => exact ⟨a, b, rfl⟩
  obtain ⟨hk, hv, hdec⟩ := hgood p0 (List.mem_cons_self _ _)
  obtain ⟨k0, krest, hp1, hk0, hkr⟩ := goodKey_spec hk
  obtain ⟨hvne, hvhead, -⟩ := goodVal_spec hv
  have hnd := hnodup
  rw [List.map_cons, List.nodup_cons] at hnd
  obtain ⟨hnotmem, hnodup2⟩ := hnd
  have hhk0 : handleKeyLine (stZero ((-1) + 1) false none) (k0 :: krest)
      (some p0.2.1) 0 =
      .ok (stZero ((-1) + 1) true
        (some (.cmap [(String.mk (k0 :: krest), p0.2.2)]))) :=
    handleKeyLine_stZero_init ((-1) + 1) hvne (fun c hc => (hvhead c hc).2) hdec
  have hpl : processLine (stZero (-1) false none) (lineOf p0) =
      .cont (stZero ((-1) + 1) true (some (.cmap [(String.mk p0.1, p0.2.2)]))) := by
    show processLine (stZero (-1) false none)
        (String.mk (p0.1 ++ ':' :: ' ' :: p0.2.1)) = _
    rw [hp1]
    exact processLine_keyline_ok hk0 hkr hv hhk0
  show loadAux (stZero (-1) false none) (lineOf p0 :: ps2.map lineOf) = _
  unfold loadAux
  rw [hpl]
  simp only []
  rw [show ((-1 : Int) + 1) = 0 from rfl]
  rw [loadAux_flat ps2 0 _ (fun q hq => hgood q (List.mem_cons_of_mem _ hq))]
  rw [foldl_dictSet_fresh ps2 _ ?fresh hnodup2]
  · rfl
  case fresh =>
    intro p2 hp2 q hq
    rw [List.mem_singleton.1 hq]
    intro he
    have he2 : (String.mk p0.1) = String.mk p2.1 := he
    apply hnotmem
    rw [he2]
    exact List.mem_map_of_mem _ hp2

/-- Witness for the flat-mapping theorem at the two-line document
a: 1 and b: 2, producing the two-entry mapping in file order. -/
theorem flat_mapping_zero_indent_witness :
    load ["a: 1", "b: 2"] = (.ok (.map [("a", .int 1), ("b", .int 2)]), []) := by
  have h := flat_mapping_zero_indent
    [(['a'], ['1'], Value.int 1), (['b'], ['2'], Value.int 2)]
    (by simp)
    (fun p hp => by
      rcases List.mem_cons.1 hp with rfl | hp2
      · exact ⟨rfl, rfl, rfl⟩
      · rcases List.mem_cons.1 hp2 with rfl | hp3
        · exact ⟨rfl, rfl, rfl⟩
        · exact absurd hp3 (List.not_mem_nil _))
    (by decide)
  exact h.trans rfl

/-! ## Auxiliary lemmas for the nested-block development -/

theorem bareKeyLoop_pend : ∀ krest : List Char, (∀ c ∈ krest, keyChar c = true) →
    bareKeyLoop (krest ++ [':']) = some (krest, none) := by
  intro krest
  induction krest with
  | nil => intro _; rfl
  | cons c krest ih =>
    intro h
    obtain ⟨hca, hcs⟩ := keyChar_spec (h c (List.mem_cons_self _ _))
    have hkr : ∀ x ∈ krest, keyChar x = true :=
      fun x hx => h x (List.mem_cons_of_mem _ hx)
    have hsnd : ∀ d, (krest ++ [':']).head? = some d → d ≠ ' ' := by
      cases krest with
      | nil =>
        intro d hd
        cases hd
        decide
      | cons k2 kr2 =>
        intro d hd
        cases hd
        exact nonspace_ne (keyChar_spec (hkr k2 (List.mem_cons_self _ _))).2
    have hkt : keyTail (c :: (krest ++ [':'])) = none := keyTail_inner hca hcs hsnd
    show bareKeyLoop (c :: (krest ++ [':'])) = some (c :: krest, none)
    cases krest with
    | nil =>
      have hkt2 : keyTail (c :: [':']) = none := hkt
      show bareKeyLoop (c :: [':']) = some ([c], none)
      rw [bareKeyLoop, hkt2]
      simp only []
      rw [if_pos hca]
      rfl
    | cons k2 kr2 =>
      have hkt2 : keyTail (c :: k2 :: (kr2 ++ [':'])) = none := hkt
      have ih2 : bareKeyLoop (k2 :: (kr2 ++ [':'])) = some (k2 :: kr2, none) := by
        rw [← List.cons_append]
        exact ih hkr
      show bareKeyLoop (c :: k2 :: (kr2 ++ [':'])) = some (c :: k2 :: kr2, none)
      rw [bareKeyLoop, hkt2]
      simp only []
      rw [if_pos hca, ih2]
      rfl

theorem matchKeyAll_pend {k0 : Char} {krest : List Char}
    (hk0 : firstClass k0 = true) (hkr : ∀ c ∈ krest, keyChar c = true) :
    matchKeyAll ((k0 :: krest) ++ [':']) = some (k0 :: krest, none) := by
  obtain ⟨hfc, -⟩ := firstClass_spec hk0
  have hdq : matchQuotedKey '"' (k0 :: (krest ++ [':'])) = none := by
    have hstep : matchQuotedKey '"' (k0 :: (krest ++ [':'])) =
        (if k0 = '"' then quotedKeySplit '"' (krest ++ [':']) else none) := rfl
    rw [hstep, if_neg hfc.2.2.2.2.2.2.2.2.2.2.2.2.2.2.2.2.1]
  have hsq : matchQuotedKey quoteChar (k0 :: (krest ++ [':'])) = none := by
    have hstep : matchQuotedKey quoteChar (k0 :: (krest ++ [':'])) =
        (if k0 = quoteChar then quotedKeySplit quoteChar (krest ++ [':']) else none) := rfl
    rw [hstep, if_neg hfc.2.2.2.2.2.2.2.2.2.2.2.2.2.2.2.1]
  rw [List.cons_append]
  unfold matchKeyAll
  rw [hdq]
  simp only []
  rw [hsq]
  simp only []
  have hbk : matchBareKey (k0 :: (krest ++ [':'])) =
      (if firstClass k0 = true then
         (bareKeyLoop (krest ++ [':'])).map (fun r => (k0 :: r.1, r.2))
       else none) := rfl
  rw [hbk, if_pos hk0, bareKeyLoop_pend krest hkr]
  rfl

theorem handleKeyLine_pendInit (n : Int) (kc : List Char) :
    handleKeyLine (stZero n false none) kc none 0 = .ok (stPend n (String.mk kc)) := rfl

theorem processLineCore_pendline_ok {m : Int} {ris : Bool} {cur : Option Container}
    {k0 : Char} {krest : List Char} {st4 : LoadState}
    (hk0 : firstClass k0 = true) (hkr : ∀ c ∈ krest, keyChar c = true)
    (hhk : handleKeyLine (stZero m ris cur) (k0 :: krest) none 0 = .ok st4) :
    processLineCore (stZero m ris cur) (String.mk ((k0 :: krest) ++ [':'])) =
      .ok (.cont st4) := by
  obtain ⟨hfc, hfs⟩ := firstClass_spec hk0
  have hlc : (String.mk ((k0 :: krest) ++ [':'])).toList = k0 :: (krest ++ [':']) := by
    rw [show (String.mk ((k0 :: krest) ++ [':'])).toList =
        (k0 :: krest) ++ [':'] from rfl, List.cons_append]
  have hlast : (k0 :: (krest ++ [':'])).getLast? = some ':' := by
    rw [← List.cons_append, List.getLast?_append_of_ne_nil _ (show [':'] ≠ [] by simp)]
    rfl
  have hrst : rstripL (k0 :: (krest ++ [':'])) = k0 :: (krest ++ [':']) :=
    rstripL_last (fun c hc => by rw [hlast] at hc; cases hc; decide)
  have hlst : lstripL (k0 :: (krest ++ [':'])) = k0 :: (krest ++ [':']) :=
    dropWhile_eq_self_of_head (fun c hc => by cases hc; exact hfs)
  have hmka : matchKeyAll (k0 :: (krest ++ [':'])) = some (k0 :: krest, none) := by
    rw [← List.cons_append]
    exact matchKeyAll_pend hk0 hkr
  unfold processLineCore
  rw [hlc, hrst]
  rw [if_neg (show ¬(k0 :: (krest ++ [':']) = []) by simp)]
  rw [if_neg (show ¬(k0 :: (krest ++ [':']) = "---".toList) from
        fun he => hfc.1 (List.cons.inj he).1)]
  rw [hlst]
  simp only []
  rw [sub_self]
  rw [if_neg hfc.2.2.2.2.2.2.2.2.2.1]
  rw [if_neg (show ¬((0 : Int) = 0 ∧ k0 = '%') from
        fun hpair => hfc.2.2.2.2.2.2.2.2.2.2.2.2.2.2.2.2.2.1 hpair.2)]
  simp only []
  rw [popLoop_zero]
  simp only []
  rw [dashLoop_noDash _ _ hfc.1]
  simp only []
  rw [hmka]
  simp only []
  rw [hhk]

theorem processLine_pendline {kc : List Char}
    (hk : goodKey kc = true) :
    processLine (stZero (-1) false none) (String.mk (kc ++ [':'])) =
      .cont (stPend 0 (String.mk kc)) := by
  obtain ⟨k0, krest, rfl, hk0, hkr⟩ := goodKey_spec hk
  unfold processLine
  simp only []
  have hst1 : { stZero (-1) false none with
      lineno := (stZero (-1) false none).lineno + 1 } = stZero 0 false none := rfl
  rw [hst1, processLineCore_pendline_ok hk0 hkr (handleKeyLine_pendInit 0 (k0 :: krest))]

theorem popLoopRev_noPop {indent top : Int} {restI : List Int}
    {clevelR : List (Option Frame)} {curr : Option Container} {popped : Bool}
    (h : ¬(top > indent)) :
    popLoopRev indent (top :: restI) clevelR curr popped =
      .ok (top :: restI, clevelR, curr, popped) := by
  unfold popLoopRev
  rw [if_neg h]

theorem popLoop_pend {m : Int} {k : String} {ind : Int} (h : ¬((0 : Int) > ind)) :
    popLoop (stPend m k) ind = .ok (stPend m k) := by
  unfold popLoop
  rw [show (stPend m k).indents.reverse = [0] from rfl,
      show (stPend m k).clevel.reverse = [none] from rfl,
      popLoopRev_noPop h]
  rfl

theorem popLoop_nest {m : Int} {es : List (String × Value)} {k : String} {i ind : Int}
    {cur : Container} (h : ¬(i > ind)) :
    popLoop (stNest m es k i cur) ind = .ok (stNest m es k i cur) := by
  unfold popLoop
  rw [show (stNest m es k i cur).indents.reverse = [i, 0] from rfl,
      show (stNest m es k i cur).clevel.reverse = [some (.fmap es k), none] from rfl,
      popLoopRev_noPop ?h0]
  case h0 =>
    intro hgt
    exact h hgt
  rfl

theorem lstripL_pad : ∀ i : Nat, ∀ body : List Char,
    (∀ c, body.head? = some c → isPySpace c = false) →
    lstripL (pad i ++ body) = body := by
  intro i
  induction i with
  | zero => intro body h; exact dropWhile_eq_self_of_head h
  | succ j ih =>
    intro body h
    show lstripL (' ' :: (pad j ++ body)) = body
    have hstep : lstripL (' ' :: (pad j ++ body)) = lstripL (pad j ++ body) := rfl
    rw [hstep]
    exact ih body h

theorem pad_indent (i : Nat) (body : List Char) :
    ((pad i ++ body).length : Int) - (body.length : Int) = (i : Int) := by
  rw [List.length_append, pad, List.length_replicate]
  push_cast
  ring

theorem handleKeyLine_pend_child {n : Int} {k : String} {i : Nat}
    {kc vc : List Char} {w : Value}
    (hi : 1 ≤ i) (hk : k ≠ "")
    (hvne : vc ≠ []) (hvh : ∀ c, vc.head? = some c → c ≠ '#')
    (hdec : decode_value (String.mk vc) = .ok w) :
    handleKeyLine (stPend n k) kc (some vc) (i : Int) =
      .ok (stNest n [(k, .null)] k (i : Int) (.cmap [(String.mk kc, w)])) := by
  cases vc with
  | nil => exact absurd rfl hvne
  | cons v0 vt =>
    unfold handleKeyLine
    simp only [stPend, Option.getD]
    rw [if_neg (hvh v0 rfl)]
    rw [if_neg (show ¬(true = false) from by decide)]
    rw [show (([0] : List Int)).getLast? = some 0 from rfl]
    simp only []
    rw [if_neg (show ¬((i : Int) = 0) from by omega)]
    rw [if_neg hk]
    rw [hdec]
    rfl

theorem handleKeyLine_nest_same {n : Int} {es : List (String × Value)} {k : String}
    {i : Int} {es2 : List (String × Value)} {kc vc : List Char} {w : Value}
    (hvne : vc ≠ []) (hvh : ∀ c, vc.head? = some c → c ≠ '#')
    (hdec : decode_value (String.mk vc) = .ok w) :
    handleKeyLine (stNest n es k i (.cmap es2)) kc (some vc) i =
      .ok (stNest n es k i (.cmap (dictSet es2 (String.mk kc) w))) := by
  cases vc with
  | nil => exact absurd rfl hvne
  | cons v0 vt =>
    unfold handleKeyLine
    simp only [stNest, Option.getD]
    rw [if_neg (hvh v0 rfl)]
    rw [if_neg (show ¬(true = false) from by decide)]
    rw [show (([0, i] : List Int)).getLast? = some i from rfl]
    simp only []
    rw [if_pos trivial]
    rw [hdec]
    rfl

theorem handleScalarLine_append {n : Int} {es : List (String × Value)} {k : String}
    {i : Int} {items : List Value} {x : List Char} {w : Value}
    (hdec : decode_value (String.mk x) = .ok w) :
    handleScalarLine (stNest n es k i (.cseq items)) x =
      .ok (stNest n es k i (.cseq (items ++ [w]))) := by
  unfold handleScalarLine
  rw [hdec]
  rfl

theorem dashLoop_pend_first {m : Int} {k : String} {i : Nat} {x0 : Char} {xt : List Char}
    (hi : 1 ≤ i) (hk : k ≠ "") (hx0s : isPySpace x0 = false) (hx0d : x0 ≠ '-') :
    dashLoop (('-' :: ' ' :: x0 :: xt).length + 1) (stPend m k) ('-' :: ' ' :: x0 :: xt)
        (i : Int) =
      .ok (stNest m [(k, .null)] k (i : Int) (.cseq []), x0 :: xt, (i : Int) + 2) := by
  have h1 : dashLoop (('-' :: ' ' :: x0 :: xt).length + 1) (stPend m k)
      ('-' :: ' ' :: x0 :: xt) (i : Int) =
      dashBody (dashLoop (((x0 :: xt).length + 1) + 1)) (stPend m k)
        ('-' :: ' ' :: x0 :: xt) (i : Int) := rfl
  rw [h1]
  unfold dashBody
  simp only []
  rw [if_pos (show True ∧
        ((' ' :: x0 :: xt) = [] ∨ (' ' :: x0 :: xt).head? = some ' ') from
        ⟨trivial, Or.inr rfl⟩)]
  have hlx : lstripL (' ' :: x0 :: xt) = x0 :: xt := by
    have hstep : lstripL (' ' :: x0 :: xt) = lstripL (x0 :: xt) := rfl
    rw [hstep]
    exact dropWhile_eq_self_of_head (fun c hc => by cases hc; exact hx0s)
  rw [hlx]
  rw [if_neg (show ¬((stPend m k).rootIsSet = false) from fun h => Bool.noConfusion h)]
  rw [show (stPend m k).indents.getLast? = some 0 from rfl]
  simp only []
  rw [if_neg (show ¬((i : Int) = 0) from by omega)]
  rw [show (stPend m k).last = some k from rfl]
  simp only []
  rw [if_neg hk]
  rw [show pushSeqViaLast (stPend m k) k (i : Int) =
      .ok (stNest m [(k, .null)] k (i : Int) (.cseq [])) from rfl]
  simp only []
  rw [dashLoop_noDash _ _ hx0d]
  have harith : (i : Int) + ((('-' :: ' ' :: x0 :: xt).length : Int) -
      ((x0 :: xt).length : Int)) = (i : Int) + 2 := by
    push_cast [List.length_cons]
    ring
  rw [harith]

theorem dashLoop_nest_same {m : Int} {es : List (String × Value)} {k : String} {i : Int}
    {cur : Container} {x0 : Char} {xt : List Char}
    (hx0s : isPySpace x0 = false) (hx0d : x0 ≠ '-') :
    dashLoop (('-' :: ' ' :: x0 :: xt).length + 1) (stNest m es k i cur)
        ('-' :: ' ' :: x0 :: xt) i =
      .ok (stNest m es k i cur, x0 :: xt, i + 2) := by
  have h1 : dashLoop (('-' :: ' ' :: x0 :: xt).length + 1) (stNest m es k i cur)
      ('-' :: ' ' :: x0 :: xt) i =
      dashBody (dashLoop (((x0 :: xt).length + 1) + 1)) (stNest m es k i cur)
        ('-' :: ' ' :: x0 :: xt) i := rfl
  rw [h1]
  unfold dashBody
  simp only []
  rw [if_pos (show True ∧
        ((' ' :: x0 :: xt) = [] ∨ (' ' :: x0 :: xt).head? = some ' ') from
        ⟨trivial, Or.inr rfl⟩)]
  have hlx : lstripL (' ' :: x0 :: xt) = x0 :: xt := by
    have hstep : lstripL (' ' :: x0 :: xt) = lstripL (x0 :: xt) := rfl
    rw [hstep]
    exact dropWhile_eq_self_of_head (fun c hc => by cases hc; exact hx0s)
  rw [hlx]
  rw [if_neg (show ¬((stNest m es k i cur).rootIsSet = false) from fun h => Bool.noConfusion h)]
  rw [show (stNest m es k i cur).indents.getLast? = some i from rfl]
  simp only []
  rw [if_pos (show True from trivial)]
  rw [dashLoop_noDash _ _ hx0d]
  have harith : i + ((('-' :: ' ' :: x0 :: xt).length : Int) -
      ((x0 :: xt).length : Int)) = i + 2 := by
    push_cast [List.length_cons]
    ring
  rw [harith]

theorem processLineCore_pad_key {st : LoadState} {i : Nat} {k20 : Char}
    {k2rest vc : List Char} {st4 : LoadState}
    (hi : 1 ≤ i)
    (hk0 : firstClass k20 = true) (hkr : ∀ c ∈ k2rest, keyChar c = true)
    (hv : goodVal vc = true)
    (hpop : popLoop st (i : Int) = .ok st)
    (hhk : handleKeyLine st (k20 :: k2rest) (some vc) (i : Int) = .ok st4) :
    processLineCore st (String.mk (pad i ++ (k20 :: k2rest) ++ ':' :: ' ' :: vc)) =
      .ok (.cont st4) := by
  obtain ⟨hvne, hvhead, hvlast⟩ := goodVal_spec hv
  obtain ⟨hfc, hfs⟩ := firstClass_spec hk0
  have hlc : (String.mk (pad i ++ (k20 :: k2rest) ++ ':' :: ' ' :: vc)).toList =
      pad i ++ (k20 :: (k2rest ++ ':' :: ' ' :: vc)) := by
    rw [show (String.mk (pad i ++ (k20 :: k2rest) ++ ':' :: ' ' :: vc)).toList =
        pad i ++ (k20 :: k2rest) ++ ':' :: ' ' :: vc from rfl, List.append_assoc,
        List.cons_append]
  have hbne : k20 :: (k2rest ++ ':' :: ' ' :: vc) ≠ [] := by simp
  have hlast : (pad i ++ (k20 :: (k2rest ++ ':' :: ' ' :: vc))).getLast? = vc.getLast? := by
    rw [List.getLast?_append_of_ne_nil _ hbne, ← List.cons_append,
        List.getLast?_append_of_ne_nil _ (show ':' :: ' ' :: vc ≠ [] by simp),
        show (':' :: ' ' :: vc) = [':', ' '] ++ vc from rfl,
        List.getLast?_append_of_ne_nil _ hvne]
  have hrst : rstripL (pad i ++ (k20 :: (k2rest ++ ':' :: ' ' :: vc))) =
      pad i ++ (k20 :: (k2rest ++ ':' :: ' ' :: vc)) :=
    rstripL_last (fun c hc => hvlast c (by rw [← hlast]; exact hc))
  have hlst : lstripL (pad i ++ (k20 :: (k2rest ++ ':' :: ' ' :: vc))) =
      k20 :: (k2rest ++ ':' :: ' ' :: vc) :=
    lstripL_pad i _ (fun c hc => by cases hc; exact hfs)
  have hmka : matchKeyAll (k20 :: (k2rest ++ ':' :: ' ' :: vc)) =
      some (k20 :: k2rest, some vc) := by
    rw [← List.cons_append]
    exact matchKeyAll_flat hk0 hkr (fun c hc => (hvhead c hc).1)
  unfold processLineCore
  rw [hlc, hrst]
  rw [if_neg (show ¬(pad i ++ (k20 :: (k2rest ++ ':' :: ' ' :: vc)) = []) by
        simp)]
  rw [if_neg ?hdash]
  case hdash =>
    intro he
    obtain ⟨j, rfl⟩ : ∃ j, i = j + 1 := ⟨i - 1, by omega⟩
    have hh := congrArg List.head? he
    have h2 : some ' ' = some '-' := hh
    exact absurd (Option.some.inj h2) (by decide)
  rw [hlst]
  simp only []
  rw [pad_indent]
  rw [if_neg hfc.2.2.2.2.2.2.2.2.2.1]
  rw [if_neg (show ¬((i : Int) = 0 ∧ k20 = '%') from
        fun hpair => absurd hpair.1 (by omega))]
  simp only []
  rw [hpop]
  simp only []
  rw [dashLoop_noDash _ _ hfc.1]
  simp only []
  rw [hmka]
  simp only []
  rw [hhk]

theorem processLineCore_pad_dash {st st3 st4 : LoadState} {i : Nat} {x0 : Char}
    {xt : List Char}
    (hi : 1 ≤ i)
    (hx : goodVal (x0 :: xt) = true) (_hx0d : x0 ≠ '-')
    (hpop : popLoop st (i : Int) = .ok st)
    (hdl : dashLoop (('-' :: ' ' :: x0 :: xt).length + 1) st ('-' :: ' ' :: x0 :: xt)
        (i : Int) = .ok (st3, x0 :: xt, (i : Int) + 2))
    (hmk : matchKeyAll (x0 :: xt) = none)
    (hhs : handleScalarLine st3 (x0 :: xt) = .ok st4) :
    processLineCore st (String.mk (pad i ++ '-' :: ' ' :: x0 :: xt)) =
      .ok (.cont st4) := by
  obtain ⟨hvne, hvhead, hvlast⟩ := goodVal_spec hx
  have hlc : (String.mk (pad i ++ '-' :: ' ' :: x0 :: xt)).toList =
      pad i ++ '-' :: ' ' :: x0 :: xt := rfl
  have hlast : (pad i ++ '-' :: ' ' :: x0 :: xt).getLast? = (x0 :: xt).getLast? := by
    rw [List.getLast?_append_of_ne_nil _ (show '-' :: ' ' :: x0 :: xt ≠ [] by simp),
        show ('-' :: ' ' :: x0 :: xt) = ['-', ' '] ++ (x0 :: xt) from rfl,
        List.getLast?_append_of_ne_nil _ (show x0 :: xt ≠ [] by simp)]
  have hrst : rstripL (pad i ++ '-' :: ' ' :: x0 :: xt) =
      pad i ++ '-' :: ' ' :: x0 :: xt :=
    rstripL_last (fun c hc => hvlast c (by rw [← hlast]; exact hc))
  have hlst : lstripL (pad i ++ '-' :: ' ' :: x0 :: xt) = '-' :: ' ' :: x0 :: xt :=
    lstripL_pad i _ (fun c hc => by cases hc; decide)
  unfold processLineCore
  rw [hlc, hrst]
  rw [if_neg (show ¬(pad i ++ '-' :: ' ' :: x0 :: xt = []) by simp)]
  rw [if_neg ?hdash]
  case hdash =>
    intro he
    obtain ⟨j, rfl⟩ : ∃ j, i = j + 1 := ⟨i - 1, by omega⟩
    have hh := congrArg List.head? he
    have h2 : some ' ' = some '-' := hh
    exact absurd (Option.some.inj h2) (by decide)
  rw [hlst]
  simp only []
  rw [pad_indent]
  rw [if_neg (show ¬(('-' : Char) = '#') from by decide)]
  rw [if_neg (show ¬((i : Int) = 0 ∧ ('-' : Char) = '%') from
        fun hpair => absurd hpair.1 (by omega))]
  simp only []
  rw [hpop]
  simp only []
  rw [hdl]
  simp only []
  rw [hmk]
  simp only []
  rw [hhs]

theorem goodItem_spec {q : List Char × Value} (h : goodItem q = true) :
    ∃ x0 xt, q.1 = x0 :: xt ∧ goodVal q.1 = true ∧ isPySpace x0 = false ∧
      x0 ≠ '-' ∧ matchKeyAll q.1 = none := by
  unfold goodItem at h
  rw [Bool.and_eq_true, Bool.and_eq_true] at h
  obtain ⟨⟨h1, h2⟩, h3⟩ := h
  cases hq : q.1 with
  | nil =>
    rw [hq] at h2
    exact Bool.noConfusion h2
  | cons x0 xt =>
    rw [hq] at h2
    have h2b : ((!isPySpace x0) && decide (x0 ≠ '-')) = true := h2
    rw [Bool.and_eq_true] at h2b
    rw [hq] at h1 h3
    refine ⟨x0, xt, rfl, h1, ?_, of_decide_eq_true h2b.2, of_decide_eq_true h3⟩
    have hx := h2b.1
    cases hps : isPySpace x0
    · rfl
    · rw [hps] at hx
      exact absurd hx (by decide)

theorem processLine_of_core {st st2 : LoadState} {line : String}
    (h : processLineCore { st with lineno := st.lineno + 1 } line = .ok (.cont st2)) :
    processLine st line = .cont st2 := by
  unfold processLine
  simp only []
  rw [h]

theorem dictSet_self (k : String) (old v : Value) :
    dictSet [(k, old)] k v = [(k, v)] := by
  unfold dictSet
  rw [if_pos rfl]

theorem loadAux_nest_map : ∀ children : List (List Char × List Char × Value),
    ∀ n : Int, ∀ es : List (String × Value), ∀ k : String, ∀ i : Nat,
    ∀ es2 : List (String × Value), 1 ≤ i →
    (∀ p ∈ children, goodKey p.1 = true ∧ goodVal p.2.1 = true ∧
       decode_value (String.mk p.2.1) = .ok p.2.2) →
    loadAux (stNest n es k (i : Int) (.cmap es2)) (children.map (childLine i)) =
      (.ok (.map (dictSet es k
        (.map (children.foldl (fun acc p => dictSet acc (String.mk p.1) p.2.2) es2)))),
       []) := by
  intro children
  induction children with
  | nil => intro n es k i es2 _ _; rfl
  | cons p ps ih =>
    intro n es k i es2 hi h
    obtain ⟨hk, hv, hdec⟩ := h p (List.mem_cons_self _ _)
    obtain ⟨k20, k2rest, hp1, hk0, hkr⟩ := goodKey_spec hk
    obtain ⟨hvne, hvhead, -⟩ := goodVal_spec hv
    have hhk : handleKeyLine (stNest (n + 1) es k (i : Int) (.cmap es2)) (k20 :: k2rest)
        (some p.2.1) (i : Int) =
        .ok (stNest (n + 1) es k (i : Int)
          (.cmap (dictSet es2 (String.mk (k20 :: k2rest)) p.2.2))) :=
      handleKeyLine_nest_same hvne (fun c hc => (hvhead c hc).2) hdec
    have hpl : processLine (stNest n es k (i : Int) (.cmap es2)) (childLine i p) =
        .cont (stNest (n + 1) es k (i : Int)
          (.cmap (dictSet es2 (String.mk p.1) p.2.2))) := by
      refine processLine_of_core ?_
      have hup : { stNest n es k (i : Int) (.cmap es2) with
          lineno := (stNest n es k (i : Int) (.cmap es2)).lineno + 1 } =
          stNest (n + 1) es k (i : Int) (.cmap es2) := rfl
      rw [hup]
      show processLineCore _ (String.mk (pad i ++ p.1 ++ ':' :: ' ' :: p.2.1)) = _
      rw [hp1]
      exact processLineCore_pad_key hi hk0 hkr hv (popLoop_nest (lt_irrefl _)) hhk
    show loadAux (stNest n es k (i : Int) (.cmap es2))
        (childLine i p :: ps.map (childLine i)) = _
    unfold loadAux
    rw [hpl]
    simp only []
    rw [ih (n + 1) es k i _ hi (fun q hq => h q (List.mem_cons_of_mem _ hq))]
    rfl

theorem loadAux_nest_seq : ∀ items : List (List Char × Value),
    ∀ n : Int, ∀ es : List (String × Value), ∀ k : String, ∀ i : Nat,
    ∀ vs : List Value, 1 ≤ i →
    (∀ q ∈ items, goodItem q = true ∧ decode_value (String.mk q.1) = .ok q.2) →
    loadAux (stNest n es k (i : Int) (.cseq vs)) (items.map (dashLine i)) =
      (.ok (.map (dictSet es k (.seq (vs ++ items.map (fun q => q.2))))), []) := by
  intro items
  induction items with
  | nil =>
    intro n es k i vs _ _
    rw [List.map_nil, List.map_nil, List.append_nil]
    rfl
  | cons q qs ih =>
    intro n es k i vs hi h
    obtain ⟨hq, hdec⟩ := h q (List.mem_cons_self _ _)
    obtain ⟨x0, xt, hq1, hv, hx0s, hx0d, hmk⟩ := goodItem_spec hq
    have hhs : handleScalarLine (stNest (n + 1) es k (i : Int) (.cseq vs)) q.1 =
        .ok (stNest (n + 1) es k (i : Int) (.cseq (vs ++ [q.2]))) :=
      handleScalarLine_append hdec
    have hpl : processLine (stNest n es k (i : Int) (.cseq vs)) (dashLine i q) =
        .cont (stNest (n + 1) es k (i : Int) (.cseq (vs ++ [q.2]))) := by
      refine processLine_of_core ?_
      have hup : { stNest n es k (i : Int) (.cseq vs) with
          lineno := (stNest n es k (i : Int) (.cseq vs)).lineno + 1 } =
          stNest (n + 1) es k (i : Int) (.cseq vs) := rfl
      rw [hup]
      show processLineCore _ (String.mk (pad i ++ '-' :: ' ' :: q.1)) = _
      rw [hq1]
      rw [hq1] at hv hhs hmk
      exact processLineCore_pad_dash hi hv hx0d (popLoop_nest (lt_irrefl _))
        (dashLoop_nest_same hx0s hx0d) hmk hhs
    show loadAux (stNest n es k (i : Int) (.cseq vs))
        (dashLine i q :: qs.map (dashLine i)) = _
    unfold loadAux
    rw [hpl]
    simp only []
    rw [ih (n + 1) es k i _ hi (fun r hr => h r (List.mem_cons_of_mem _ hr))]
    rw [List.map_cons, List.append_assoc]
    rfl

theorem processLine_pend_first_key {k : String} {i : Nat}
    {p : List Char × List Char × Value}
    (hi : 1 ≤ i) (hk : k ≠ "")
    (hgk : goodKey p.1 = true) (hv : goodVal p.2.1 = true)
    (hdec : decode_value (String.mk p.2.1) = .ok p.2.2) :
    processLine (stPend 0 k) (childLine i p) =
      .cont (stNest 1 [(k, .null)] k (i : Int) (.cmap [(String.mk p.1, p.2.2)])) := by
  obtain ⟨k20, k2rest, hp1, hk0, hkr⟩ := goodKey_spec hgk
  obtain ⟨hvne, hvhead, -⟩ := goodVal_spec hv
  refine processLine_of_core ?_
  have hup : { stPend 0 k with lineno := (stPend 0 k).lineno + 1 } = stPend 1 k := rfl
  rw [hup]
  show processLineCore (stPend 1 k) (String.mk (pad i ++ p.1 ++ ':' :: ' ' :: p.2.1)) = _
  rw [hp1]
  exact processLineCore_pad_key hi hk0 hkr hv (popLoop_pend (by omega))
    (handleKeyLine_pend_child hi hk hvne (fun c hc => (hvhead c hc).2) hdec)

theorem processLine_pend_first_dash {k : String} {i : Nat} {q : List Char × Value}
    (hi : 1 ≤ i) (hk : k ≠ "")
    (hq : goodItem q = true) (hdec : decode_value (String.mk q.1) = .ok q.2) :
    processLine (stPend 0 k) (dashLine i q) =
      .cont (stNest 1 [(k, .null)] k (i : Int) (.cseq [q.2])) := by
  obtain ⟨x0, xt, hq1, hv, hx0s, hx0d, hmk⟩ := goodItem_spec hq
  refine processLine_of_core ?_
  have hup : { stPend 0 k with lineno := (stPend 0 k).lineno + 1 } = stPend 1 k := rfl
  rw [hup]
  show processLineCore (stPend 1 k) (String.mk (pad i ++ '-' :: ' ' :: q.1)) = _
  rw [hq1]
  rw [hq1] at hv hmk hdec
  have hhs : handleScalarLine (stNest 1 [(k, .null)] k (i : Int) (.cseq [])) (x0 :: xt) =
      .ok (stNest 1 [(k, .null)] k (i : Int) (.cseq ([] ++ [q.2]))) :=
    handleScalarLine_append hdec
  exact processLineCore_pad_dash hi hv hx0d (popLoop_pend (by omega))
    (dashLoop_pend_first hi hk hx0s hx0d) hmk hhs

/-- C2: a key line with an empty value followed by a more-indented
block of key lines makes that key's value a Mapping containing exactly
those keys in order, and the same key line followed by a more-indented
block of dash list items makes that key's value a Sequence containing
exactly those decoded elements in order. -/
theorem nested_blocks (kc : List Char) (i : Nat)
    (hk : goodKey kc = true) (hi : 1 ≤ i)
    (children : List (List Char × List Char × Value)) (hcne : children ≠ [])
    (hcgood : ∀ p ∈ children, goodKey p.1 = true ∧ goodVal p.2.1 = true ∧
       decode_value (String.mk p.2.1) = .ok p.2.2)
    (hcnodup : (children.map (fun p => String.mk p.1)).Nodup)
    (items : List (List Char × Value)) (hine : items ≠ [])
    (higood : ∀ q ∈ items, goodItem q = true ∧ decode_value (String.mk q.1) = .ok q.2) :
    load (String.mk (kc ++ [':']) :: children.map (childLine i)) =
      (.ok (.map [(String.mk kc, .map (children.map entryOf))]), []) ∧
    load (String.mk (kc ++ [':']) :: items.map (dashLine i)) =
      (.ok (.map [(String.mk kc, .seq (items.map (fun q => q.2)))]), []) := by
  have hkne : String.mk kc ≠ "" := by
    obtain ⟨k0, krest, hkc, -, -⟩ := goodKey_spec hk
    rw [hkc]
    exact fun he => List.noConfusion (congrArg String.data he)
  constructor
  · obtain ⟨p0, ps2, rfl⟩ : ∃ p0 ps2, children = p0 :: ps2 := by
      cases children with
      | nil => exact absurd rfl hcne
      | cons a b => exact ⟨a, b, rfl⟩
    obtain ⟨hgk0, hgv0, hdec0⟩ := hcgood p0 (List.mem_cons_self _ _)
    have hnd := hcnodup
    rw [List.map_cons, List.nodup_cons] at hnd
    obtain ⟨hnotmem, hnodup2⟩ := hnd
    show loadAux loadInit
        (String.mk (kc ++ [':']) :: childLine i p0 :: ps2.map (childLine i)) = _
    unfold loadAux
    rw [show loadInit = stZero (-1) false none from rfl, processLine_pendline hk]
    simp only []
    unfold loadAux
    rw [processLine_pend_first_key hi hkne hgk0 hgv0 hdec0]
    simp only []
    rw [loadAux_nest_map ps2 1 [(String.mk kc, .null)] (String.mk kc) i
          [(String.mk p0.1, p0.2.2)] hi
          (fun q hq => hcgood q (List.mem_cons_of_mem _ hq))]
    rw [dictSet_self]
    rw [foldl_dictSet_fresh ps2 [(String.mk p0.1, p0.2.2)] ?fr hnodup2]
    · rfl
    case fr =>
      intro p2 hp2 q hq
      rw [List.mem_singleton.1 hq]
      intro he
      have he2 : (String.mk p0.1) = String.mk p2.1 := he
      apply hnotmem
      rw [he2]
      exact List.mem_map_of_mem _ hp2
  · obtain ⟨q0, qs2, rfl⟩ : ∃ q0 qs2, items = q0 :: qs2 := by
      cases items with
      | nil => exact absurd rfl hine
      | cons a b => exact ⟨a, b, rfl⟩
    obtain ⟨hgq0, hdec0⟩ := higood q0 (List.mem_cons_self _ _)
    show loadAux loadInit
        (String.mk (kc ++ [':']) :: dashLine i q0 :: qs2.map (dashLine i)) = _
    unfold loadAux
    rw [show loadInit = stZero (-1) false none from rfl, processLine_pendline hk]
    simp only []
    unfold loadAux
    rw [processLine_pend_first_dash hi hkne hgq0 hdec0]
    simp only []
    rw [loadAux_nest_seq qs2 1 [(String.mk kc, .null)] (String.mk kc) i [q0.2] hi
          (fun r hr => higood r (List.mem_cons_of_mem _ hr))]
    rw [dictSet_self]
    rfl

/-- Witness for the nested-blocks theorem: under the pending key k, an
indented key line a: 1 yields the mapping value, and an indented dash
item - 7 yields the sequence value. -/
theorem nested_blocks_witness :
    load ["k:", "  a: 1"] = (.ok (.map [("k", .map [("a", .int 1)])]), []) ∧
    load ["k:", "  - 7"] = (.ok (.map [("k", .seq [.int 7])]), []) := by
  have h := nested_blocks ['k'] 2 (by decide) (by decide)
    [(['a'], ['1'], Value.int 1)] (by simp)
    (fun p hp => by
      rcases List.mem_cons.1 hp with rfl | hp2
      · exact ⟨rfl, rfl, rfl⟩
      · exact absurd hp2 (List.not_mem_nil _))
    (by decide)
    [(['7'], Value.int 7)] (by simp)
    (fun q hq => by
      rcases List.mem_cons.1 hq with rfl | hq2
      · exact ⟨rfl, rfl⟩
      · exact absurd hq2 (List.not_mem_nil _))
  exact ⟨h.1.trans rfl, h.2.trans rfl⟩

end SimpleYAML

